import Mathlib

/-!
Sparkline widget: ingestion, rolling buffer, range tracking and rendering.

A shallow embedding of `component/sparkline/sparkline.go`.

* A finite `float64` measurement is the rational number (`ℚ`) it equals; the
  comparisons, `min` and `max` of the program are those of numbers.
* The `float64` arithmetic of `Draw` (line 155) is IEEE 754 binary64 with
  rounding to nearest, ties to even: `round64` rounds the exact result of each
  operation, overflow gives an infinity, and `F64` adds the infinities and NaN.
* `int` values (pane geometry, loop indices) are `Int`/`Nat`.
* A run-time panic (index or slice bounds out of range) is the result `none`.
* The calls to the hooks of the embedded `data.Consumer` are recorded, in
  call order, in the field `hooks`.
* `util.ParseFloat` lives outside the embedded file; `consumeSample` takes it
  as a parameter.
-/

namespace Sparkline

/-! ## Data model -/

/-- The type `image.Point`. -/
structure Point where
  X : Int
  Y : Int
  deriving DecidableEq, Repr

/-- The type `image.Rectangle`. -/
structure Rectangle where
  Min : Point
  Max : Point
  deriving DecidableEq, Repr

/-- The method `Rectangle.Dx`: the width of the rectangle. -/
def Rectangle.Dx (r : Rectangle) : Int := r.Max.X - r.Min.X

/-- The method `Rectangle.Dy`: the height of the rectangle. -/
def Rectangle.Dy (r : Rectangle) : Int := r.Max.Y - r.Min.Y

/-- The geometry carried by the embedded `*ui.Block`: the block embeds its
outer `image.Rectangle` and has the field `Inner`. -/
structure Block where
  Rectangle : Sparkline.Rectangle
  Inner : Sparkline.Rectangle
  deriving DecidableEq, Repr

/-- The type `data.Sample`: a label and the textual value. -/
structure Sample where
  Label : String
  Value : String
  deriving DecidableEq, Repr

/-- One call to a hook of the embedded `data.Consumer`. -/
inductive HookCall where
  | HandleConsumeSuccess
  | HandleConsumeFailure (title : String) (err : String) (sample : Sample)
  deriving DecidableEq, Repr

/-- Whether a recorded call is a call of the failure hook. -/
def HookCall.isFailure : HookCall → Bool
  | .HandleConsumeFailure _ _ _ => true
  | .HandleConsumeSuccess => false

/-- Whether a recorded call is a call of the success hook. -/
def HookCall.isSuccess : HookCall → Bool
  | .HandleConsumeFailure _ _ _ => false
  | .HandleConsumeSuccess => true

/-- The struct `SparkLine`. `min` and `max` are the optional clamp bounds
(`*float64`, `nil` is `none`); `hooks` records the hook calls made so far. -/
structure SparkLine where
  Block : Sparkline.Block
  hooks : List HookCall
  values : List ℚ
  maxValue : ℚ
  minValue : ℚ
  scale : Int
  gradient : List Nat
  min : Option ℚ
  max : Option ℚ
  deriving DecidableEq

/-- The promoted method `s.Dx()` of the embedded block. -/
def SparkLine.Dx (s : SparkLine) : Int := s.Block.Rectangle.Dx

/-- The promoted method `s.Dy()` of the embedded block. -/
def SparkLine.Dy (s : SparkLine) : Int := s.Block.Rectangle.Dy

/-- The state built by `NewSparkLine`: an empty buffer, no hook called yet. -/
def NewSparkLine (b : Sparkline.Block) (scale : Int) (gradient : List Nat)
    (min max : Option ℚ) : SparkLine :=
  { Block := b, hooks := [], values := [], maxValue := 0, minValue := 0,
    scale := scale, gradient := gradient, min := min, max := max }

/-! ## Ingestion -/

/-- Lines 71-78 of `consumeSample`: the lower bound is applied first, then the
upper bound, each only when configured. -/
def clampValue (lo hi : Option ℚ) (float : ℚ) : ℚ :=
  let curValue := float
  let curValue := match lo with
    | some m => Max.max m curValue
    | none => curValue
  match hi with
  | some m => Min.min m curValue
  | none => curValue

/-- The loop of lines 83-93. The third argument is `i + 1` for the loop index
`i` (so `0` is the exit `i < 0`); the pair is `(max, min)`. An index `i`
outside the buffer is a panic. -/
def scanRange (vs : List ℚ) (dx : Int) : Nat → ℚ × ℚ → Option (ℚ × ℚ)
  | 0, acc => some acc
  | i + 1, (mx, mn) =>
    if (vs.length : Int) - (i : Int) > dx then some (mx, mn)
    else
      match vs[i]? with
      | none => none
      | some v =>
        let mx := if v > mx then v else mx
        let mn := if v < mn then v else mn
        scanRange vs dx i (mx, mn)

/-- Lines 81-93 of `consumeSample`: `max` and `min` start at `values[0]` (a
panic on an empty buffer) and the loop runs from the newest element backwards.
The result is the pair `(max, min)`. -/
def recomputeRange (values : List ℚ) (dx : Int) : Option (ℚ × ℚ) :=
  match values[0]? with
  | none => none
  | some v0 => scanRange values dx values.length (v0, v0)

/-- The method `trimOutOfRangeValues` on the buffer: `none` is the panic of
the slice expression `values[len-maxSize:]` when its low bound exceeds the
length, which happens exactly for a negative `maxSize`. -/
def trimOutOfRangeValues (values : List ℚ) (maxSize : Int) : Option (List ℚ) :=
  if maxSize < (values.length : Int) then
    if maxSize < 0 then none
    else some (values.drop (values.length - maxSize.toNat))
  else some values

/-- The method `consumeSample`; `ParseFloat` is `util.ParseFloat`, returning
the number or the error. -/
def consumeSample (ParseFloat : String → Except String ℚ) (s : SparkLine)
    (sample : Sample) : Option SparkLine :=
  match ParseFloat sample.Value with
  | .error err =>
    some { s with hooks := s.hooks ++
      [HookCall.HandleConsumeFailure "Failed to parse a number" err sample] }
  | .ok float =>
    let hooks := s.hooks ++ [HookCall.HandleConsumeSuccess]
    let curValue := clampValue s.min s.max float
    let values := s.values ++ [curValue]
    match recomputeRange values s.Dx with
    | none => none
    | some (max, min) =>
      if values.length % 100 = 0 then
        match trimOutOfRangeValues values s.Dx with
        | none => none
        | some trimmed =>
          some { s with hooks := hooks, values := trimmed, maxValue := max, minValue := min }
      else
        some { s with hooks := hooks, values := values, maxValue := max, minValue := min }

/-- Feeding a stream of samples, one call of `consumeSample` each, in order. -/
def consumeAll (ParseFloat : String → Except String ℚ) :
    SparkLine → List Sample → Option SparkLine
  | s, [] => some s
  | s, x :: xs =>
    match consumeSample ParseFloat s x with
    | none => none
    | some s1 => consumeAll ParseFloat s1 xs

/-- The sequence of clamped values fed so far: the clamped number of every
sample of the stream that parses, in arrival order. -/
def clampedValues (ParseFloat : String → Except String ℚ) (lo hi : Option ℚ) :
    List Sample → List ℚ
  | [] => []
  | x :: xs =>
    match ParseFloat x.Value with
    | .ok float => clampValue lo hi float :: clampedValues ParseFloat lo hi xs
    | .error _ => clampedValues ParseFloat lo hi xs

/-- The buffer length after a successful `consumeSample` as a function of the
length before it, for a pane of width `W`: line 80 adds one, and lines 98-108
cut a length that is a multiple of 100 and exceeds `W` down to `W`. -/
def nextLength (W : Nat) (len : Nat) : Nat :=
  if (len + 1) % 100 = 0 ∧ W < len + 1 then W else len + 1

/-! ## Rendering

`Draw` is embedded as the list of writes it makes to the terminal buffer, in
order. `util.FormatValue` and `console.GetGradientColor` live outside the
embedded file and are parameters. -/

/-- One write of `Draw`: a bar cell of a given colour (`buffer.SetCell`), a
label (`buffer.SetString`), and the two delegations that end `Draw`. -/
inductive DrawOp where
  | SetCell (color : Nat) (p : Point)
  | SetString (text : String) (p : Point)
  | BlockDraw
  | RenderAlert
  deriving DecidableEq, Repr

/-- The conversion `int(f)`: the fractional part is discarded, that is the
number is rounded toward zero. -/
def truncate (q : ℚ) : Int := if 0 ≤ q then ⌊q⌋ else ⌈q⌉

/-- Modelled from the spec: `util.Max` is defined outside the embedded file; the
spec has the margin fit "the longest of" the three labels, so it is the greatest
element of the list (of its first element and the others). -/
def utilMax (values : List Int) : Int :=
  values.foldl Max.max (values.headD 0)

/-- Lines 121, 124-127 of `Draw`: the lower clamp bound when configured, else
the tracked minimum. -/
def effectiveMin (s : SparkLine) : ℚ :=
  match s.min with
  | some m => m
  | none => s.minValue

/-- Lines 122, 129-132 of `Draw`: the upper clamp bound when configured, else
the tracked maximum. -/
def effectiveMax (s : SparkLine) : ℚ :=
  match s.max with
  | some m => m
  | none => s.maxValue

/-- Lines 118, 124-125 of `Draw`. -/
def minLabel (FormatValue : ℚ → Int → String) (s : SparkLine) : String :=
  match s.min with
  | some m => FormatValue m s.scale
  | none => FormatValue s.minValue s.scale

/-- Lines 119, 129-130 of `Draw`. -/
def maxLabel (FormatValue : ℚ → Int → String) (s : SparkLine) : String :=
  match s.max with
  | some m => FormatValue m s.scale
  | none => FormatValue s.maxValue s.scale

/-- Lines 134-138 of `Draw`: the formatted newest value, or the formatted zero
for an empty buffer. -/
def curLabel (FormatValue : ℚ → Int → String) (s : SparkLine) : String :=
  match s.values.getLast? with
  | some v => FormatValue v s.scale
  | none => FormatValue 0 s.scale

/-- Lines 140-142 of `Draw`; `len` of a Go string is its length in bytes. -/
def indent (FormatValue : ℚ → Int → String) (s : SparkLine) : Int :=
  2 + utilMax [((minLabel FormatValue s).utf8ByteSize : Int),
    ((maxLabel FormatValue s).utf8ByteSize : Int),
    ((curLabel FormatValue s).utf8ByteSize : Int)]

/-! ### The arithmetic of line 155

`top = int((s.values[i] - minValue) * float64(height) / (maxValue - minValue))`
is computed in `float64`: each of the two subtractions, the conversion of the
height, the product and the quotient is rounded to the nearest `float64`. -/

/-- A `float64` value: a finite number, an infinity with its sign (`neg`), or
NaN. The sign of a zero is not kept: it changes neither a product, nor a
quotient by a non-zero divisor, nor the conversion to `int`, and the divisor of
line 155 is the difference of two different `float64` numbers, which is never
zero. -/
inductive F64 where
  | fin (q : ℚ)
  | inf (neg : Bool)
  | nan
  deriving DecidableEq, Repr

/-- Rounding to the nearest integer, a tie going to the even one. -/
def rne (t : ℚ) : Int :=
  if t - (⌊t⌋ : ℚ) < 1 / 2 then ⌊t⌋
  else if 1 / 2 < t - (⌊t⌋ : ℚ) then ⌊t⌋ + 1
  else if ⌊t⌋ % 2 = 0 then ⌊t⌋ else ⌊t⌋ + 1

/-- The exponent of the unit in the last place of the `float64` numbers around
`q`: 53 significant bits for a normal number (`2 ^ e <= |q| < 2 ^ (e + 1)` with
`e >= -1022` has the unit `2 ^ (e - 52)`), the fixed unit `2 ^ (-1074)` below
`2 ^ (-1022)`. -/
def quantumExp (q : ℚ) : Int := Max.max (Int.log 2 |q|) (-1022) - 52

/-- The `float64` result of an operation whose exact result is `q`: the nearest
multiple of the unit in the last place, ties to even; a result of magnitude
`2 ^ 1024` or more is an infinity. -/
def round64 (q : ℚ) : F64 :=
  if (2 : ℚ) ^ (1024 : Nat) ≤
      |(rne (q / (2 : ℚ) ^ quantumExp q) : ℚ) * (2 : ℚ) ^ quantumExp q| then
    F64.inf (decide (q < 0))
  else F64.fin ((rne (q / (2 : ℚ) ^ quantumExp q) : ℚ) * (2 : ℚ) ^ quantumExp q)

/-- The `float64` product. -/
def F64.mul : F64 → F64 → F64
  | .fin a, .fin b => round64 (a * b)
  | .nan, _ => .nan
  | _, .nan => .nan
  | .inf s, .fin b => if b = 0 then .nan else .inf (xor s (decide (b < 0)))
  | .fin a, .inf s => if a = 0 then .nan else .inf (xor s (decide (a < 0)))
  | .inf s, .inf t => .inf (xor s t)

/-- The `float64` quotient; a division by zero is not an error, it gives an
infinity or NaN. -/
def F64.div : F64 → F64 → F64
  | .nan, _ => .nan
  | _, .nan => .nan
  | .fin a, .fin b =>
    if b = 0 then (if a = 0 then .nan else .inf (decide (a < 0))) else round64 (a / b)
  | .fin _, .inf _ => .fin 0
  | .inf s, .fin b => .inf (xor s (decide (b < 0)))
  | .inf _, .inf _ => .nan

/-- The conversion `int(f)` of a `float64` to the 64-bit `int`: a finite number
is rounded toward zero. For a value that does not fit (NaN, an infinity, a
number beyond the range of `int`) Go leaves the result to the implementation:
it is `ι f`, a parameter. -/
def F64.toInt (ι : F64 → Int) : F64 → Int
  | .fin q =>
    if -(2 : Int) ^ (63 : Nat) ≤ truncate q ∧ truncate q < (2 : Int) ^ (63 : Nat) then truncate q
    else ι (.fin q)
  | x => ι x

/-- The `float64` numbers among the rationals: those a rounding leaves
unchanged. -/
def isFloat64 (q : ℚ) : Prop := round64 q = F64.fin q

instance (q : ℚ) : Decidable (isFloat64 q) := by
  unfold isFloat64
  infer_instance

/-- The result of `int(f)` on amd64 for a value that does not fit: the
instruction `CVTTSD2SQ` returns the smallest `int`. -/
def amd64Int (_f : F64) : Int := -(2 : Int) ^ (63 : Nat)

/-- The operations line 155 performs, over a type `R` of numbers: the
difference of two measurements, the conversion of the height, the product, the
quotient (`none` where a division by zero has no result) and the conversion to
`int`. The quotient by the difference of two different measurements is always
defined (`div_sub`). -/
structure Arith (R : Type) where
  sub : ℚ → ℚ → R
  ofInt : Int → R
  mul : R → R → R
  div : R → R → Option R
  toInt : R → Int
  div_sub : ∀ (r : R) (x y : ℚ), x ≠ y → ∃ z, div r (sub x y) = some z

/-- The arithmetic of the program: `float64`, as IEEE 754 defines it. On the
`float64` numbers `sub` is the `float64` subtraction. -/
def float64 (ι : F64 → Int) : Arith F64 where
  sub := fun x y => round64 (x - y)
  ofInt := fun h => round64 (h : ℚ)
  mul := F64.mul
  div := fun a b => some (F64.div a b)
  toInt := F64.toInt ι
  div_sub := fun r x y _ => ⟨F64.div r (round64 (x - y)), rfl⟩

/-- The arithmetic of the numbers themselves, without rounding; here a division
by zero has no result. -/
def exactArith : Arith ℚ where
  sub := fun x y => x - y
  ofInt := fun h => (h : ℚ)
  mul := fun a b => a * b
  div := fun a b => if b = 0 then none else some (a / b)
  toInt := truncate
  div_sub := fun r x y h => ⟨r / (x - y), if_neg (sub_ne_zero.mpr h)⟩

/-- Lines 152-156 of `Draw`: the height of the bar of the value `v`, in the
arithmetic `A`. -/
def barTop {R : Type} (A : Arith R) (minValue maxValue : ℚ) (height : Int) (v : ℚ) :
    Option Int :=
  if maxValue ≠ minValue then
    (A.div (A.mul (A.sub v minValue) (A.ofInt height)) (A.sub maxValue minValue)).map A.toInt
  else some 0

/-- Lines 146, 152-168 of `Draw`: the writes of the loop body for the index `i`,
past the `break` test. -/
def drawColumn {R : Type} (A : Arith R) (FormatValue : ℚ → Int → String)
    (GetGradientColor : List Nat → Int → Int → Nat) (s : SparkLine) (i : Nat) :
    Option (List DrawOp) :=
  let height := s.Dy - 2
  let minValue := effectiveMin s
  let maxValue := effectiveMax s
  let ind := indent FormatValue s
  let n : Int := (s.values.length : Int) - (i : Int)
  match s.values[i]? with
  | none => none
  | some v =>
    match barTop A minValue maxValue height v with
    | none => none
    | some top =>
      let bars := (List.range (top + 1).toNat).map (fun (j : Nat) =>
        DrawOp.SetCell (GetGradientColor s.gradient (j : Int) height)
          ⟨s.Block.Inner.Max.X - n - ind, s.Block.Inner.Max.Y - (j : Int) - 1⟩)
      let labels :=
        if (i : Int) = (s.values.length : Int) - 1 then
          DrawOp.SetString (curLabel FormatValue s)
              ⟨s.Block.Inner.Max.X - n - ind + 2, s.Block.Inner.Max.Y - top - 1⟩ ::
            (if maxValue ≠ minValue then
              [DrawOp.SetString (minLabel FormatValue s)
                  ⟨s.Block.Inner.Max.X - n - ind + 2, s.Block.Rectangle.Max.Y - 2⟩,
               DrawOp.SetString (maxLabel FormatValue s)
                  ⟨s.Block.Inner.Max.X - n - ind + 2, s.Block.Rectangle.Min.Y + 1⟩]
            else [])
        else []
      some (bars ++ labels)

/-- The loop of lines 144-169 of `Draw`. The last argument is `i + 1` for the
loop index `i` (so `0` is the exit `i < 0`). -/
def drawLoop {R : Type} (A : Arith R) (FormatValue : ℚ → Int → String)
    (GetGradientColor : List Nat → Int → Int → Nat) (s : SparkLine) :
    Nat → Option (List DrawOp)
  | 0 => some []
  | i + 1 =>
    let n : Int := (s.values.length : Int) - (i : Int)
    if n > s.Dx - indent FormatValue s - 3 then some []
    else
      match drawColumn A FormatValue GetGradientColor s i with
      | none => none
      | some col =>
        match drawLoop A FormatValue GetGradientColor s i with
        | none => none
        | some rest => some (col ++ rest)

/-- The method `Draw`, in the arithmetic `A`: the loop from the newest element,
then the delegation to the block and to the alert renderer. -/
def Draw {R : Type} (A : Arith R) (FormatValue : ℚ → Int → String)
    (GetGradientColor : List Nat → Int → Int → Nat) (s : SparkLine) :
    Option (List DrawOp) :=
  match drawLoop A FormatValue GetGradientColor s s.values.length with
  | none => none
  | some ops => some (ops ++ [DrawOp.BlockDraw, DrawOp.RenderAlert])

/-- The value of the variable `top` in the loop body of `Draw` for an element of
value `v`, in the arithmetic `A`. -/
def topOf {R : Type} (A : Arith R) (s : SparkLine) (v : ℚ) : Int :=
  (barTop A (effectiveMin s) (effectiveMax s) (s.Dy - 2) v).getD 0

/-- The bar height as the spec words it (section 4.3, steps 1 and 4), with its
formula evaluated in `float64` as the program does: with the effective minimum
and maximum being the clamp bound when set and the tracked Range value
otherwise, and `H` the pane height minus 2, it is
`(v - effectiveMin) * H / (effectiveMax - effectiveMin)` converted to `int`
(rounded toward zero), and `0` when the effective maximum equals the effective
minimum. -/
def specTop64 (ι : F64 → Int) (s : SparkLine) (v : ℚ) : Int :=
  if s.max.getD s.maxValue = s.min.getD s.minValue then 0
  else F64.toInt ι (F64.div
    (F64.mul (round64 (v - s.min.getD s.minValue)) (round64 ((s.Dy - 2 : Int) : ℚ)))
    (round64 (s.max.getD s.maxValue - s.min.getD s.minValue)))

/-- The `float64` quotient of that formula, before its conversion to `int`. -/
def quotient64 (s : SparkLine) (v : ℚ) : F64 :=
  F64.div
    (F64.mul (round64 (v - s.min.getD s.minValue)) (round64 ((s.Dy - 2 : Int) : ℚ)))
    (round64 (s.max.getD s.maxValue - s.min.getD s.minValue))

/-- The bar height as the spec words it (section 4.3, steps 1 and 4), with its
formula evaluated on the numbers themselves, without rounding: with the
effective minimum and maximum being the clamp bound when set and the tracked
Range value otherwise, and `H` the pane height minus 2, it is
`(v - effectiveMin) * H / (effectiveMax - effectiveMin)` rounded toward zero,
and `0` when the effective maximum equals the effective minimum. -/
def specTop (s : SparkLine) (v : ℚ) : Int :=
  if s.max.getD s.maxValue = s.min.getD s.minValue then 0
  else truncate ((v - s.min.getD s.minValue) * ((s.Dy - 2 : Int) : ℚ) /
    (s.max.getD s.maxValue - s.min.getD s.minValue))

/-- Whether a write is a label (`buffer.SetString`). -/
def DrawOp.isLabel : DrawOp → Bool
  | .SetString _ _ => true
  | _ => false

/-- Whether a write is a bar cell (`buffer.SetCell`). -/
def DrawOp.isCell : DrawOp → Bool
  | .SetCell _ _ => true
  | _ => false

/-- Whether a write is a bar cell in the screen column `x`. -/
def DrawOp.isCellAt (x : Int) : DrawOp → Bool
  | .SetCell _ p => decide (p.X = x)
  | _ => false

/-- The writes of the loop body of `Draw` for the index `i`; none for an index
outside the buffer. -/
def columnWrites {R : Type} (A : Arith R) (FormatValue : ℚ → Int → String)
    (GetGradientColor : List Nat → Int → Int → Nat) (s : SparkLine) (i : Nat) : List DrawOp :=
  (drawColumn A FormatValue GetGradientColor s i).getD []

/-- The number of columns the spec has `Draw` render (section 4.3, step 3): the
`k`-th newest element is rendered while `k <= W - indent - 3`, so
`min(len, max(0, W - indent - 3))` columns in all. -/
def renderedCount (FormatValue : ℚ → Int → String) (s : SparkLine) : Nat :=
  Min.min s.values.length (Max.max 0 (s.Dx - indent FormatValue s - 3)).toNat

/-! ## The ingestion step, statement by statement

`Draw` takes `s.mutex` on entry and releases it after its loop (lines 113 and
171); `consumeSample` takes it only around the trim (lines 99 and 101). To see
what a concurrent `Draw` can observe, `consumeSample` is unfolded into the
states it leaves after each write to the widget, each with the source line of
the write and whether the ingestion goroutine holds the mutex at that point. -/

/-- A point of `consumeSample`: the line whose effect has just taken place,
whether the ingestion goroutine holds `s.mutex` there, and the widget state. -/
structure IngestionPoint where
  line : Nat
  locked : Bool
  state : SparkLine
  deriving DecidableEq

/-- The points `consumeSample` goes through, in order: the hook call (line 65
or 69), the append (line 80), the two Range assignments (lines 95 and 96) and,
when the new length is a multiple of 100, `Lock` (line 99), the trim (line 100)
and `Unlock` (line 101). A panic ends the list. -/
def consumeSampleSteps (ParseFloat : String → Except String ℚ) (s : SparkLine)
    (sample : Sample) : List IngestionPoint :=
  match ParseFloat sample.Value with
  | .error err =>
    [⟨65, false, { s with hooks := s.hooks ++
      [HookCall.HandleConsumeFailure "Failed to parse a number" err sample] }⟩]
  | .ok float =>
    let s69 := { s with hooks := s.hooks ++ [HookCall.HandleConsumeSuccess] }
    let curValue := clampValue s.min s.max float
    let s80 := { s69 with values := s.values ++ [curValue] }
    match recomputeRange s80.values s.Dx with
    | none => [⟨69, false, s69⟩, ⟨80, false, s80⟩]
    | some (max, min) =>
      let s95 := { s80 with maxValue := max }
      let s96 := { s95 with minValue := min }
      [⟨69, false, s69⟩, ⟨80, false, s80⟩, ⟨95, false, s95⟩, ⟨96, false, s96⟩] ++
        (if s80.values.length % 100 = 0 then
          ⟨99, true, s96⟩ ::
            (match trimOutOfRangeValues s80.values s.Dx with
             | none => []
             | some trimmed =>
               [⟨100, true, { s96 with values := trimmed }⟩,
                ⟨101, false, { s96 with values := trimmed }⟩])
        else [])

/-! ## A concrete parser for the scenarios -/

/-- The value of a run of decimal digits, most significant first. -/
def digitsValue (cs : List Char) : Nat :=
  cs.foldl (fun acc c => 10 * acc + (c.toNat - 48)) 0

/-- An unsigned decimal literal: digits with an optional fractional part. -/
def parseUnsigned (cs : List Char) : Option ℚ :=
  let ip := cs.takeWhile Char.isDigit
  match cs.dropWhile Char.isDigit with
  | [] => if ip = [] then none else some (digitsValue ip : ℚ)
  | c :: fp =>
    if c = '.' ∧ fp.all Char.isDigit = true ∧ (ip ≠ [] ∨ fp ≠ []) then
      some ((digitsValue ip : ℚ) + (digitsValue fp : ℚ) / (10 : ℚ) ^ fp.length)
    else none

/-- Modelled from the spec: `util.ParseFloat` is defined outside the embedded
file. The spec says the sample text is parsed "as a floating-point number" and
that a failure means "the incoming text is not a valid number". This parser
accepts the signed decimal literals (`-5`, `20`, `2.5`) and reports every other
text as a failure. -/
def ParseFloat (input : String) : Except String ℚ :=
  let r := match input.toList with
    | '-' :: cs => (parseUnsigned cs).map (fun q => -q)
    | '+' :: cs => parseUnsigned cs
    | cs => parseUnsigned cs
  match r with
  | some q => .ok q
  | none => .error ("invalid syntax: " ++ input)

/-- The decimal numeral of `2 ^ 1023`, a `float64` number whose tenfold is beyond
the largest `float64` number. -/
def decimalTwoPow1023 : String :=
  "8988465674311579538646525953945123668089884894711532863671504057886633790275" ++
  "0481566354238661203768010560056939935696678829394884407208311246423715319737" ++
  "0621888839467124327426381511098006230470597265414760425028844190753411712314" ++
  "4073695655527041361858167525534229314911997362296923985815241767816481211206" ++
  "8608"

/-- Modelled from the spec: `util.FormatValue` is defined outside the embedded
file; the spec says a label is the number "formatted with the configured decimal
scale". This stand-in, used in the scenarios only, writes the integer part of
the number in decimal digits. -/
def FormatValue (q : ℚ) (_scale : Int) : String := toString (truncate q)

/-! ## Basic facts about the ingestion step -/

theorem consumeSample_error (P : String → Except String ℚ) (s : SparkLine)
    (sample : Sample) (err : String) (h : P sample.Value = .error err) :
    consumeSample P s sample = some { s with hooks := s.hooks ++
      [HookCall.HandleConsumeFailure "Failed to parse a number" err sample] } := by
  simp [consumeSample, h]

theorem trimOutOfRangeValues_nonneg (xs : List ℚ) (m : Int) (hm : 0 ≤ m) :
    trimOutOfRangeValues xs m = some (xs.drop (xs.length - m.toNat)) := by
  unfold trimOutOfRangeValues
  split_ifs with h1 h2
  · omega
  · rfl
  · have : xs.length - m.toNat = 0 := by omega
    simp [this]

/-- C1: a sample whose text fails to parse leaves the buffer (contents and
length) and the tracked Range unchanged; the only hook call added is one call
of the failure hook, and the success hook is not called. -/
theorem consumeSample_parse_failure (P : String → Except String ℚ) (s : SparkLine)
    (sample : Sample) (err : String) (h : P sample.Value = .error err) :
    ∃ s1, consumeSample P s sample = some s1 ∧
      s1.values = s.values ∧ s1.values.length = s.values.length ∧
      s1.minValue = s.minValue ∧ s1.maxValue = s.maxValue ∧
      s1.hooks = s.hooks ++
        [HookCall.HandleConsumeFailure "Failed to parse a number" err sample] ∧
      s1.hooks.countP HookCall.isFailure = s.hooks.countP HookCall.isFailure + 1 ∧
      s1.hooks.countP HookCall.isSuccess = s.hooks.countP HookCall.isSuccess := by
  refine ⟨_, consumeSample_error P s sample err h, rfl, rfl, rfl, rfl, rfl, ?_, ?_⟩
  · simp [List.countP_append, HookCall.isFailure]
  · simp [List.countP_append, HookCall.isSuccess]

theorem consumeSample_parse_failure_witness :
    ∃ s1, consumeSample ParseFloat
        { NewSparkLine ⟨⟨⟨0, 0⟩, ⟨5, 4⟩⟩, ⟨⟨1, 1⟩, ⟨4, 3⟩⟩⟩ 0 [] none none with
          values := [1, 2], maxValue := 2, minValue := 1 } ⟨"cpu", "abc"⟩ = some s1 ∧
      s1.values = [1, 2] ∧ s1.values.length = 2 ∧
      s1.minValue = 1 ∧ s1.maxValue = 2 ∧
      s1.hooks =
        [HookCall.HandleConsumeFailure "Failed to parse a number" "invalid syntax: abc"
          ⟨"cpu", "abc"⟩] ∧
      s1.hooks.countP HookCall.isFailure = 0 + 1 ∧
      s1.hooks.countP HookCall.isSuccess = 0 :=
  consumeSample_parse_failure ParseFloat
    { NewSparkLine ⟨⟨⟨0, 0⟩, ⟨5, 4⟩⟩, ⟨⟨1, 1⟩, ⟨4, 3⟩⟩⟩ 0 [] none none with
      values := [1, 2], maxValue := 2, minValue := 1 } ⟨"cpu", "abc"⟩
    "invalid syntax: abc" rfl

/-! ## The range recomputation -/

/-- The loop of lines 83-93 never indexes outside the buffer when it starts at
an index inside it. -/
theorem scanRange_returns (vs : List ℚ) (dx : Int) :
    ∀ (k : Nat) (acc : ℚ × ℚ), k ≤ vs.length → ∃ r, scanRange vs dx k acc = some r := by
  intro k
  induction k with
  | zero => intro acc _; exact ⟨acc, rfl⟩
  | succ i ih =>
    rintro ⟨mx, mn⟩ hk
    simp only [scanRange]
    split_ifs with h1
    · exact ⟨_, rfl⟩
    · have hi : i < vs.length := hk
      rw [List.getElem?_eq_getElem hi]
      exact ih _ (le_of_lt hi)

theorem recomputeRange_returns (vs : List ℚ) (dx : Int) (h : vs ≠ []) :
    ∃ r, recomputeRange vs dx = some r := by
  cases vs with
  | nil => exact absurd rfl h
  | cons a t =>
    simp only [recomputeRange, List.getElem?_cons_zero]
    exact scanRange_returns (a :: t) dx _ _ (le_refl _)

theorem scanRange_fst_ge (vs : List ℚ) (dx : Int) :
    ∀ (k : Nat) (mx mn : ℚ) (r : ℚ × ℚ), scanRange vs dx k (mx, mn) = some r → mx ≤ r.1 := by
  intro k
  induction k with
  | zero =>
    intro mx mn r h
    simp only [scanRange, Option.some.injEq] at h
    subst h
    exact le_refl mx
  | succ i ih =>
    intro mx mn r h
    simp only [scanRange] at h
    split_ifs at h with h1
    · simp only [Option.some.injEq] at h
      subst h
      exact le_refl mx
    · cases hv : vs[i]? with
      | none => simp [hv] at h
      | some v =>
        simp only [hv] at h
        refine le_trans ?_ (ih _ _ r h)
        split_ifs with h2
        · exact le_of_lt h2
        · exact le_refl mx

theorem scanRange_snd_le (vs : List ℚ) (dx : Int) :
    ∀ (k : Nat) (mx mn : ℚ) (r : ℚ × ℚ), scanRange vs dx k (mx, mn) = some r → r.2 ≤ mn := by
  intro k
  induction k with
  | zero =>
    intro mx mn r h
    simp only [scanRange, Option.some.injEq] at h
    subst h
    exact le_refl mn
  | succ i ih =>
    intro mx mn r h
    simp only [scanRange] at h
    split_ifs at h with h1
    · simp only [Option.some.injEq] at h
      subst h
      exact le_refl mn
    · cases hv : vs[i]? with
      | none => simp [hv] at h
      | some v =>
        simp only [hv] at h
        refine le_trans (ih _ _ r h) ?_
        split_ifs with h3
        · exact le_of_lt h3
        · exact le_refl mn

/-- Every element the loop visits lies between the computed `min` and `max`. -/
theorem scanRange_bounds (vs : List ℚ) (dx : Int) :
    ∀ (k : Nat) (mx mn : ℚ) (r : ℚ × ℚ) (j : Nat) (x : ℚ),
      scanRange vs dx k (mx, mn) = some r → j < k → (vs.length : Int) - (j : Int) ≤ dx →
      vs[j]? = some x → r.2 ≤ x ∧ x ≤ r.1 := by
  intro k
  induction k with
  | zero => intro mx mn r j x _ hj; omega
  | succ i ih =>
    intro mx mn r j x h hj hwin hx
    have hnb : ¬ ((vs.length : Int) - (i : Int) > dx) := by omega
    simp only [scanRange, if_neg hnb] at h
    cases hv : vs[i]? with
    | none => simp [hv] at h
    | some v =>
      simp only [hv] at h
      rcases Nat.lt_succ_iff_lt_or_eq.mp hj with hlt | heq
      · exact ih _ _ r j x h hlt hwin hx
      · subst heq
        rw [hv] at hx
        cases hx
        constructor
        · refine le_trans (scanRange_snd_le vs dx j _ _ r h) ?_
          split_ifs with h3
          · exact le_refl _
          · exact not_lt.mp h3
        · refine le_trans ?_ (scanRange_fst_ge vs dx j _ _ r h)
          split_ifs with h2
          · exact le_refl _
          · exact not_lt.mp h2

/-- The range computed by lines 81-93 bounds the most recent `min(len, W)`
values of the buffer. -/
theorem recomputeRange_bounds (vs : List ℚ) (W : Nat) (r : ℚ × ℚ) (x : ℚ)
    (hr : recomputeRange vs (W : Int) = some r)
    (hx : x ∈ vs.drop (vs.length - Min.min vs.length W)) :
    r.2 ≤ x ∧ x ≤ r.1 := by
  obtain ⟨i, hi, rfl⟩ := List.mem_iff_getElem.mp hx
  rw [List.length_drop] at hi
  rw [List.getElem_drop]
  have hj : vs.length - Min.min vs.length W + i < vs.length := by omega
  have hwin : (vs.length : Int) - ((vs.length - Min.min vs.length W + i : Nat) : Int) ≤ (W : Int) := by
    omega
  unfold recomputeRange at hr
  cases h0 : vs[0]? with
  | none => simp [h0] at hr
  | some v0 =>
    simp only [h0] at hr
    exact scanRange_bounds vs (W : Int) vs.length v0 v0 r
      (vs.length - Min.min vs.length W + i) _ hr hj hwin (List.getElem?_eq_getElem hj)

/-- The success path of `consumeSample`, unfolded: the range recomputation
returns, and the rest follows. -/
theorem consumeSample_ok (P : String → Except String ℚ) (s : SparkLine)
    (sample : Sample) (v : ℚ) (h : P sample.Value = .ok v) :
    ∃ r, recomputeRange (s.values ++ [clampValue s.min s.max v]) s.Dx = some r ∧
    consumeSample P s sample =
      if (s.values.length + 1) % 100 = 0 then
        (trimOutOfRangeValues (s.values ++ [clampValue s.min s.max v]) s.Dx).map
          (fun t => { s with
            hooks := s.hooks ++ [HookCall.HandleConsumeSuccess], values := t,
            maxValue := r.1, minValue := r.2 })
      else
        some { s with
          hooks := s.hooks ++ [HookCall.HandleConsumeSuccess],
          values := s.values ++ [clampValue s.min s.max v],
          maxValue := r.1, minValue := r.2 } := by
  obtain ⟨r, hr⟩ := recomputeRange_returns (s.values ++ [clampValue s.min s.max v]) s.Dx
    (by simp)
  refine ⟨r, hr, ?_⟩
  simp only [consumeSample, h, hr, List.length_append, List.length_singleton]
  split_ifs with h1
  · cases trimOutOfRangeValues (s.values ++ [clampValue s.min s.max v]) s.Dx <;> rfl
  · rfl

theorem consumeSample_ok_values (P : String → Except String ℚ) (s : SparkLine)
    (sample : Sample) (v : ℚ) (h : P sample.Value = .ok v) :
    (consumeSample P s sample).map (fun t => t.values) =
      if (s.values.length + 1) % 100 = 0 then
        trimOutOfRangeValues (s.values ++ [clampValue s.min s.max v]) s.Dx
      else some (s.values ++ [clampValue s.min s.max v]) := by
  obtain ⟨r, -, hc⟩ := consumeSample_ok P s sample v h
  rw [hc]
  split_ifs with h1
  · cases trimOutOfRangeValues (s.values ++ [clampValue s.min s.max v]) s.Dx <;> rfl
  · rfl

/-- A successful call that does not reach a multiple of 100 appends and returns. -/
theorem consumeSample_ok_no_trim (P : String → Except String ℚ) (s : SparkLine)
    (sample : Sample) (v : ℚ) (h : P sample.Value = .ok v)
    (hmod : (s.values.length + 1) % 100 ≠ 0) :
    ∃ s1, consumeSample P s sample = some s1 ∧
      s1.values = s.values ++ [clampValue s.min s.max v] ∧
      s1.min = s.min ∧ s1.max = s.max := by
  obtain ⟨r, -, hc⟩ := consumeSample_ok P s sample v h
  rw [hc, if_neg hmod]
  exact ⟨_, rfl, rfl, rfl, rfl⟩

/-- The value appended to an empty or non-empty buffer is the last element of
what a trim to a positive size keeps. -/
theorem getLast?_drop_append_singleton (xs : List ℚ) (c : ℚ) (n : Nat) (hn : n ≤ xs.length) :
    ((xs ++ [c]).drop n).getLast? = some c := by
  rw [List.drop_append_of_le_length hn]
  simp

/-- C2: for a sample whose text parses to `v`, `consumeSample` appends exactly
one value at the end of the buffer (the buffer of the result is the old buffer
followed by that value, trimmed when the new length is a multiple of 100; with
a positive width the value is its last element), and the appended value is
`min(upper, max(lower, v))`, `max(lower, v)`, `min(upper, v)` or `v` according to
which clamp bounds are configured. With bounds 0 and 10 the stream "-5", "20",
"5" fed to an empty buffer leaves the buffer `[0, 10, 5]`. -/
theorem consumeSample_appends_clamped (P : String → Except String ℚ) (s : SparkLine)
    (sample : Sample) (v : ℚ) (h : P sample.Value = .ok v) :
    (∃ c : ℚ,
      ((consumeSample P s sample).map (fun t => t.values) =
        if (s.values.length + 1) % 100 = 0 then trimOutOfRangeValues (s.values ++ [c]) s.Dx
        else some (s.values ++ [c])) ∧
      (0 < s.Dx → ∃ s1, consumeSample P s sample = some s1 ∧ s1.values.getLast? = some c) ∧
      (∀ lo hi, s.min = some lo → s.max = some hi → c = Min.min hi (Max.max lo v)) ∧
      (∀ lo, s.min = some lo → s.max = none → c = Max.max lo v) ∧
      (∀ hi, s.min = none → s.max = some hi → c = Min.min hi v) ∧
      (s.min = none → s.max = none → c = v)) ∧
    (∀ (b : Sparkline.Block) (scale : Int) (g : List Nat),
      (consumeAll ParseFloat (NewSparkLine b scale g (some 0) (some 10))
        [⟨"", "-5"⟩, ⟨"", "20"⟩, ⟨"", "5"⟩]).map (fun t => t.values) = some [0, 10, 5]) := by
  refine ⟨⟨clampValue s.min s.max v, consumeSample_ok_values P s sample v h, ?_, ?_, ?_, ?_, ?_⟩, ?_⟩
  · intro hdx
    obtain ⟨r, -, hc⟩ := consumeSample_ok P s sample v h
    rw [hc]
    split_ifs with h1
    · rw [trimOutOfRangeValues_nonneg _ _ hdx.le]
      refine ⟨_, rfl, ?_⟩
      apply getLast?_drop_append_singleton
      simp only [List.length_append, List.length_singleton]
      omega
    · exact ⟨_, rfl, by simp⟩
  · intro lo hi h1 h2; rw [h1, h2]; rfl
  · intro lo h1 h2; rw [h1, h2]; rfl
  · intro hi h1 h2; rw [h1, h2]; rfl
  · intro h1 h2; rw [h1, h2]; rfl
  · intro b scale g
    obtain ⟨s1, h1, v1, m1, M1⟩ := consumeSample_ok_no_trim ParseFloat
      (NewSparkLine b scale g (some 0) (some 10)) ⟨"", "-5"⟩ (-5) rfl
      (by simp [NewSparkLine])
    obtain ⟨s2, h2, v2, m2, M2⟩ := consumeSample_ok_no_trim ParseFloat s1 ⟨"", "20"⟩ 20 rfl
      (by rw [v1]; simp [NewSparkLine])
    obtain ⟨s3, h3, v3, -, -⟩ := consumeSample_ok_no_trim ParseFloat s2 ⟨"", "5"⟩ 5 rfl
      (by rw [v2, v1]; simp [NewSparkLine])
    simp only [consumeAll, h1, h2, h3, Option.map_some', Option.some.injEq]
    rw [v3, v2, v1, m2, M2, m1, M1]
    have c1 : clampValue (some 0) (some 10) (-5) = 0 := by decide
    have c2 : clampValue (some 0) (some 10) 20 = 10 := by decide
    have c3 : clampValue (some 0) (some 10) 5 = 5 := by decide
    simp only [NewSparkLine, c1, c2, c3, List.nil_append, List.cons_append]

theorem consumeSample_appends_clamped_witness :
    ParseFloat "20" = .ok 20 ∧
    (consumeSample ParseFloat
      { NewSparkLine ⟨⟨⟨0, 0⟩, ⟨5, 4⟩⟩, ⟨⟨1, 1⟩, ⟨4, 3⟩⟩⟩ 0 [] (some 0) (some 10) with
        values := [1, 2], maxValue := 2, minValue := 1 } ⟨"cpu", "20"⟩).map
      (fun t => t.values) = some [1, 2, 10] := by
  refine ⟨rfl, ?_⟩
  obtain ⟨⟨c, hc, -, hboth, -⟩, -⟩ := consumeSample_appends_clamped ParseFloat
    { NewSparkLine ⟨⟨⟨0, 0⟩, ⟨5, 4⟩⟩, ⟨⟨1, 1⟩, ⟨4, 3⟩⟩⟩ 0 [] (some 0) (some 10) with
      values := [1, 2], maxValue := 2, minValue := 1 } ⟨"cpu", "20"⟩ 20 rfl
  have hval : c = 10 := by
    rw [hboth 0 10 rfl rfl]
    norm_num
  rw [hc, hval]
  rfl

/-! ## Runs of the ingestion step -/

/-- What a call of `consumeSample` that returns leaves in the state. -/
theorem consumeSample_some (P : String → Except String ℚ) (s s1 : SparkLine)
    (x : Sample) (h : consumeSample P s x = some s1) :
    s1.Block = s.Block ∧ s1.min = s.min ∧ s1.max = s.max ∧
    ((∃ err, P x.Value = .error err ∧ s1.values = s.values) ∨
     (∃ v, P x.Value = .ok v ∧
        ((s.values.length + 1) % 100 ≠ 0 ∧
            s1.values = s.values ++ [clampValue s.min s.max v] ∨
         (s.values.length + 1) % 100 = 0 ∧ 0 ≤ s.Dx ∧
            s1.values = (s.values ++ [clampValue s.min s.max v]).drop
              (s.values.length + 1 - s.Dx.toNat)))) := by
  cases hp : P x.Value with
  | error err =>
    rw [consumeSample_error P s x err hp] at h
    cases h
    exact ⟨rfl, rfl, rfl, Or.inl ⟨err, rfl, rfl⟩⟩
  | ok v =>
    obtain ⟨r, -, hc⟩ := consumeSample_ok P s x v hp
    rw [hc] at h
    split_ifs at h with h1
    · by_cases hdx : 0 ≤ s.Dx
      · rw [trimOutOfRangeValues_nonneg _ _ hdx] at h
        cases h
        refine ⟨rfl, rfl, rfl, Or.inr ⟨v, rfl, Or.inr ⟨h1, hdx, ?_⟩⟩⟩
        simp
      · exfalso
        have hlt : s.Dx < ((s.values ++ [clampValue s.min s.max v]).length : Int) := by
          have : (0 : Int) ≤ ((s.values ++ [clampValue s.min s.max v]).length : Int) :=
            Int.natCast_nonneg _
          omega
        have ht : trimOutOfRangeValues (s.values ++ [clampValue s.min s.max v]) s.Dx = none := by
          unfold trimOutOfRangeValues
          rw [if_pos hlt, if_pos (not_le.mp hdx)]
        rw [ht] at h
        cases h
    · cases h
      exact ⟨rfl, rfl, rfl, Or.inr ⟨v, rfl, Or.inl ⟨h1, rfl⟩⟩⟩

/-- With a non-negative width `consumeSample` always returns. -/
theorem consumeSample_returns (P : String → Except String ℚ) (s : SparkLine)
    (x : Sample) (hdx : 0 ≤ s.Dx) : ∃ s1, consumeSample P s x = some s1 := by
  cases hp : P x.Value with
  | error err => exact ⟨_, consumeSample_error P s x err hp⟩
  | ok v =>
    obtain ⟨r, -, hc⟩ := consumeSample_ok P s x v hp
    rw [hc]
    split_ifs with h1
    · rw [trimOutOfRangeValues_nonneg _ _ hdx]
      exact ⟨_, rfl⟩
    · exact ⟨_, rfl⟩

/-- A property kept by every returning call holds after every returning run. -/
theorem consumeAll_invariant (P : String → Except String ℚ) (Inv : SparkLine → Prop)
    (hstep : ∀ s x s1, Inv s → consumeSample P s x = some s1 → Inv s1) :
    ∀ (xs : List Sample) (s s1 : SparkLine),
      Inv s → consumeAll P s xs = some s1 → Inv s1 := by
  intro xs
  induction xs with
  | nil =>
    intro s s1 hs h
    simp only [consumeAll, Option.some.injEq] at h
    exact h ▸ hs
  | cons x xs ih =>
    intro s s1 hs h
    simp only [consumeAll] at h
    cases hc : consumeSample P s x with
    | none => simp [hc] at h
    | some s2 =>
      simp only [hc] at h
      exact ih s2 s1 (hstep s x s2 hs hc) h

/-- With a non-negative width every run returns. -/
theorem consumeAll_returns (P : String → Except String ℚ) :
    ∀ (xs : List Sample) (s : SparkLine), 0 ≤ s.Dx → ∃ s1, consumeAll P s xs = some s1 := by
  intro xs
  induction xs with
  | nil => intro s _; exact ⟨s, rfl⟩
  | cons x xs ih =>
    intro s hdx
    obtain ⟨s2, h2⟩ := consumeSample_returns P s x hdx
    have hb := (consumeSample_some P s s2 x h2).1
    have hdx2 : 0 ≤ s2.Dx := by
      simpa [SparkLine.Dx, hb] using hdx
    obtain ⟨s1, h1⟩ := ih s2 hdx2
    exact ⟨s1, by simp [consumeAll, h2, h1]⟩

/-! ## Clamping and the buffer -/

theorem clampValue_lower (mn mx : Option ℚ) (v lo : ℚ) (h : mn = some lo)
    (hcfg : ∀ hi, mx = some hi → lo ≤ hi) : lo ≤ clampValue mn mx v := by
  subst h
  cases mx with
  | none => exact le_max_left lo v
  | some hi => exact le_min (hcfg hi rfl) (le_max_left lo v)

theorem clampValue_upper (mn mx : Option ℚ) (v hi : ℚ) (h : mx = some hi) :
    clampValue mn mx v ≤ hi := by
  subst h
  cases mn with
  | none => exact min_le_left hi v
  | some lo => exact min_le_left hi (Max.max lo v)

/-- Every element of the buffer respects the configured bounds, in every state a
run reaches from the empty buffer. -/
theorem values_respect_bounds (P : String → Except String ℚ) (b : Sparkline.Block)
    (scale : Int) (g : List Nat) (mn mx : Option ℚ)
    (hcfg : ∀ lo hi, mn = some lo → mx = some hi → lo ≤ hi)
    (xs : List Sample) (s1 : SparkLine)
    (hrun : consumeAll P (NewSparkLine b scale g mn mx) xs = some s1) :
    ∀ x ∈ s1.values, (∀ lo, mn = some lo → lo ≤ x) ∧ (∀ hi, mx = some hi → x ≤ hi) := by
  have key := consumeAll_invariant P
    (fun s => s.min = mn ∧ s.max = mx ∧
      ∀ x ∈ s.values, (∀ lo, mn = some lo → lo ≤ x) ∧ (∀ hi, mx = some hi → x ≤ hi))
    (by
      rintro s x s2 ⟨hmn, hmx, hv⟩ hc
      obtain ⟨-, h1, h2, hcases⟩ := consumeSample_some P s s2 x hc
      refine ⟨h1.trans hmn, h2.trans hmx, ?_⟩
      have hnew : ∀ v, ∀ y ∈ s.values ++ [clampValue s.min s.max v],
          (∀ lo, mn = some lo → lo ≤ y) ∧ (∀ hi, mx = some hi → y ≤ hi) := by
        intro v y hy
        rcases List.mem_append.mp hy with hy | hy
        · exact hv y hy
        · rw [List.mem_singleton] at hy
          subst hy
          rw [hmn, hmx]
          exact ⟨fun lo hlo => clampValue_lower mn mx v lo hlo (fun hi hhi => hcfg lo hi hlo hhi),
            fun hi hhi => clampValue_upper mn mx v hi hhi⟩
      rcases hcases with ⟨err, -, hval⟩ | ⟨v, -, ⟨-, hval⟩ | ⟨-, -, hval⟩⟩
      · rw [hval]; exact hv
      · rw [hval]; exact hnew v
      · rw [hval]; exact fun y hy => hnew v y (List.mem_of_mem_drop hy))
    xs (NewSparkLine b scale g mn mx) s1
    ⟨rfl, rfl, by intro x hx; simp [NewSparkLine] at hx⟩ hrun
  exact key.2.2

/-- C3: starting from the empty buffer, after every finite sequence of
`consumeSample` calls (valid or invalid samples, trims included) every element
of the buffer lies in `[lower, upper]` when both bounds are configured with
`lower <= upper`, is at least `lower` with only a lower bound, and at most
`upper` with only an upper bound. With a non-negative pane width every such
sequence of calls returns. -/
theorem buffer_within_clamp_bounds (P : String → Except String ℚ) (b : Sparkline.Block)
    (scale : Int) (g : List Nat) (xs : List Sample) :
    (∀ lo hi : ℚ, lo ≤ hi → ∀ s1,
      consumeAll P (NewSparkLine b scale g (some lo) (some hi)) xs = some s1 →
      ∀ x ∈ s1.values, lo ≤ x ∧ x ≤ hi) ∧
    (∀ lo : ℚ, ∀ s1,
      consumeAll P (NewSparkLine b scale g (some lo) none) xs = some s1 →
      ∀ x ∈ s1.values, lo ≤ x) ∧
    (∀ hi : ℚ, ∀ s1,
      consumeAll P (NewSparkLine b scale g none (some hi)) xs = some s1 →
      ∀ x ∈ s1.values, x ≤ hi) ∧
    (0 ≤ b.Rectangle.Dx → ∀ mn mx : Option ℚ,
      ∃ s1, consumeAll P (NewSparkLine b scale g mn mx) xs = some s1) := by
  refine ⟨?_, ?_, ?_, ?_⟩
  · intro lo hi hle s1 hrun x hx
    have h := values_respect_bounds P b scale g (some lo) (some hi)
      (by intro l h' e1 e2; cases e1; cases e2; exact hle) xs s1 hrun x hx
    exact ⟨h.1 lo rfl, h.2 hi rfl⟩
  · intro lo s1 hrun x hx
    have h := values_respect_bounds P b scale g (some lo) none
      (by intro l h' _ e2; cases e2) xs s1 hrun x hx
    exact h.1 lo rfl
  · intro hi s1 hrun x hx
    have h := values_respect_bounds P b scale g none (some hi)
      (by intro l h' e1 _; cases e1) xs s1 hrun x hx
    exact h.2 hi rfl
  · intro hdx mn mx
    exact consumeAll_returns P xs (NewSparkLine b scale g mn mx) hdx

/-- C4: after a successful `consumeSample` with visible width `W >= 1`, every
value `x` among the most recent `min(len, W)` values of the buffer as it stood
right after the append satisfies `minValue <= x <= maxValue`; the appended value
is one of them. -/
theorem range_bounds_visible_window (P : String → Except String ℚ) (s : SparkLine)
    (sample : Sample) (v : ℚ) (W : Nat) (h : P sample.Value = .ok v)
    (hW : 1 ≤ W) (hdx : s.Dx = (W : Int)) :
    ∃ s1, consumeSample P s sample = some s1 ∧
      (∀ x ∈ (s.values ++ [clampValue s.min s.max v]).drop
          ((s.values ++ [clampValue s.min s.max v]).length -
            Min.min (s.values ++ [clampValue s.min s.max v]).length W),
        s1.minValue ≤ x ∧ x ≤ s1.maxValue) ∧
      clampValue s.min s.max v ∈ (s.values ++ [clampValue s.min s.max v]).drop
          ((s.values ++ [clampValue s.min s.max v]).length -
            Min.min (s.values ++ [clampValue s.min s.max v]).length W) := by
  obtain ⟨r, hr, hc⟩ := consumeSample_ok P s sample v h
  rw [hdx] at hr
  have hb := fun x hx => recomputeRange_bounds (s.values ++ [clampValue s.min s.max v]) W r x hr hx
  have hmem : clampValue s.min s.max v ∈ (s.values ++ [clampValue s.min s.max v]).drop
      ((s.values ++ [clampValue s.min s.max v]).length -
        Min.min (s.values ++ [clampValue s.min s.max v]).length W) := by
    rw [List.drop_append_of_le_length
      (by simp only [List.length_append, List.length_singleton]; omega)]
    simp
  rw [hc, hdx]
  split_ifs with h1
  · rw [trimOutOfRangeValues_nonneg _ _ (Int.natCast_nonneg W)]
    exact ⟨_, rfl, fun x hx => hb x hx, hmem⟩
  · exact ⟨_, rfl, fun x hx => hb x hx, hmem⟩

theorem range_bounds_visible_window_witness :
    ParseFloat "3" = .ok 3 ∧
    ∃ s1, consumeSample ParseFloat
        { NewSparkLine ⟨⟨⟨0, 0⟩, ⟨3, 4⟩⟩, ⟨⟨1, 1⟩, ⟨2, 3⟩⟩⟩ 0 [] none none with
          values := [9, 1, 2], maxValue := 9, minValue := 1 } ⟨"cpu", "3"⟩ = some s1 ∧
      ∀ x ∈ [(1 : ℚ), 2, 3], s1.minValue ≤ x ∧ x ≤ s1.maxValue := by
  refine ⟨rfl, ?_⟩
  obtain ⟨s1, h1, h2, -⟩ := range_bounds_visible_window ParseFloat
    { NewSparkLine ⟨⟨⟨0, 0⟩, ⟨3, 4⟩⟩, ⟨⟨1, 1⟩, ⟨2, 3⟩⟩⟩ 0 [] none none with
      values := [9, 1, 2], maxValue := 9, minValue := 1 } ⟨"cpu", "3"⟩ 3 3 rfl
    (by decide) rfl
  exact ⟨s1, h1, fun x hx => h2 x (by simpa [NewSparkLine, clampValue] using hx)⟩

/-- C5: with visible width 3 and the samples 9, 1, 2, 3 fed to an empty buffer,
the buffer is `[9, 1, 2, 3]`, its visible suffix is `[1, 2, 3]`, and the tracked
Range is `(1, 9)`: the tracked maximum is the oldest element, which is not in
the visible suffix, and not the maximum 3 of the visible suffix. -/
theorem range_seeded_with_oldest_element :
    ∃ s1, consumeAll ParseFloat
        (NewSparkLine ⟨⟨⟨0, 0⟩, ⟨3, 4⟩⟩, ⟨⟨1, 1⟩, ⟨2, 3⟩⟩⟩ 0 [] none none)
        [⟨"", "9"⟩, ⟨"", "1"⟩, ⟨"", "2"⟩, ⟨"", "3"⟩] = some s1 ∧
      s1.Dx = 3 ∧
      s1.values = [9, 1, 2, 3] ∧
      s1.values.drop (s1.values.length - Min.min s1.values.length 3) = [1, 2, 3] ∧
      s1.minValue = 1 ∧ s1.maxValue = 9 ∧
      s1.maxValue ∉ s1.values.drop (s1.values.length - Min.min s1.values.length 3) :=
  ⟨_, rfl, rfl, rfl, rfl, rfl, rfl, by decide⟩

/-! ## Trimming -/

/-- C7: for a buffer `xs` and `maxSize >= 0`, `trimOutOfRangeValues` returns;
it leaves `xs` unchanged when `len(xs) <= maxSize`, and otherwise keeps exactly
the last `maxSize` elements of `xs` in their order (`xs` is a dropped front
followed by the result); the result has length `min(len(xs), maxSize)`. -/
theorem trimOutOfRangeValues_keeps_last (xs : List ℚ) (maxSize : Int) (h : 0 ≤ maxSize) :
    ∃ t, trimOutOfRangeValues xs maxSize = some t ∧
      ((xs.length : Int) ≤ maxSize → t = xs) ∧
      (maxSize < (xs.length : Int) →
        t = xs.drop (xs.length - maxSize.toNat) ∧
        xs = xs.take (xs.length - maxSize.toNat) ++ t ∧ (t.length : Int) = maxSize) ∧
      (t.length : Int) = Min.min (xs.length : Int) maxSize := by
  refine ⟨_, trimOutOfRangeValues_nonneg xs maxSize h, ?_, ?_, ?_⟩
  · intro hle
    have : xs.length - maxSize.toNat = 0 := by omega
    simp [this]
  · intro hlt
    refine ⟨rfl, (List.take_append_drop _ _).symm, ?_⟩
    rw [List.length_drop]
    omega
  · rw [List.length_drop]
    omega

theorem trimOutOfRangeValues_keeps_last_witness :
    (0 : Int) ≤ 2 ∧
    ∃ t, trimOutOfRangeValues [1, 2, 3, 4, 5] 2 = some t ∧ t = [4, 5] ∧ (t.length : Int) = 2 := by
  refine ⟨by decide, ?_⟩
  obtain ⟨t, h1, -, h2, -⟩ := trimOutOfRangeValues_keeps_last [1, 2, 3, 4, 5] 2 (by decide)
  exact ⟨t, h1, (h2 (by decide)).1, (h2 (by decide)).2.2⟩

/-- The last `m` elements of a list lie in each of its suffixes of length at
least `m`. -/
theorem drop_suffix_of_suffix (a l : List ℚ) (m : Nat) (hs : a <:+ l) (hm : m ≤ a.length) :
    l.drop (l.length - m) <:+ a := by
  have hlen : a.length ≤ l.length := hs.length_le
  have ha : a = l.drop (l.length - a.length) := List.suffix_iff_eq_drop.mp hs
  have hd : (l.drop (l.length - a.length)).drop (a.length - m) = l.drop (l.length - m) := by
    rw [List.drop_drop]
    congr 1
    omega
  rw [← ha] at hd
  rw [← hd]
  exact List.drop_suffix _ _

/-- The buffer stays a suffix of the values fed so far and keeps at least the
newest `min(n, W)` of them, from any state for which this holds. -/
theorem consumeAll_suffix (P : String → Except String ℚ) (W : Nat) :
    ∀ (xs : List Sample) (s s1 : SparkLine) (pre : List ℚ),
      s.Dx = (W : Int) → s.values <:+ pre → Min.min pre.length W ≤ s.values.length →
      consumeAll P s xs = some s1 →
      s1.values <:+ pre ++ clampedValues P s.min s.max xs ∧
      Min.min (pre ++ clampedValues P s.min s.max xs).length W ≤ s1.values.length := by
  intro xs
  induction xs with
  | nil =>
    intro s s1 pre _ hsuf hlen h
    simp only [consumeAll, Option.some.injEq] at h
    subst h
    simpa [clampedValues] using And.intro hsuf hlen
  | cons x xs ih =>
    intro s s1 pre hdx hsuf hlen h
    simp only [consumeAll] at h
    cases hc : consumeSample P s x with
    | none => simp [hc] at h
    | some s2 =>
      simp only [hc] at h
      obtain ⟨hb, hmn, hmx, hcases⟩ := consumeSample_some P s s2 x hc
      have hdx2 : s2.Dx = (W : Int) := by
        simpa [SparkLine.Dx, hb] using hdx
      have hle := hsuf.length_le
      rcases hcases with ⟨err, hp, hval⟩ | ⟨v, hp, ⟨-, hval⟩ | ⟨-, -, hval⟩⟩
      · have := ih s2 s1 pre hdx2 (hval ▸ hsuf) (hval ▸ hlen) h
        simpa [clampedValues, hp, hmn, hmx] using this
      · have hsuf2 : s2.values <:+ pre ++ [clampValue s.min s.max v] := by
          rw [hval]
          obtain ⟨t, ht⟩ := hsuf
          exact ⟨t, by rw [← ht, List.append_assoc]⟩
        have hlen2 : Min.min (pre ++ [clampValue s.min s.max v]).length W ≤ s2.values.length := by
          rw [hval]
          simp only [List.length_append, List.length_singleton]
          omega
        have := ih s2 s1 (pre ++ [clampValue s.min s.max v]) hdx2 hsuf2 hlen2 h
        simpa [clampedValues, hp, hmn, hmx] using this
      · have hsuf2 : s2.values <:+ pre ++ [clampValue s.min s.max v] := by
          rw [hval]
          refine (List.drop_suffix _ _).trans ?_
          obtain ⟨t, ht⟩ := hsuf
          exact ⟨t, by rw [← ht, List.append_assoc]⟩
        have hlen2 : Min.min (pre ++ [clampValue s.min s.max v]).length W ≤ s2.values.length := by
          rw [hval, hdx]
          simp only [List.length_append, List.length_singleton, List.length_drop, Int.toNat_ofNat]
          omega
        have := ih s2 s1 (pre ++ [clampValue s.min s.max v]) hdx2 hsuf2 hlen2 h
        simpa [clampedValues, hp, hmn, hmx] using this

theorem clampedValues_length_valid (P : String → Except String ℚ) (mn mx : Option ℚ) :
    ∀ xs : List Sample, (∀ x ∈ xs, ∃ v, P x.Value = .ok v) →
      (clampedValues P mn mx xs).length = xs.length := by
  intro xs
  induction xs with
  | nil => intro _; rfl
  | cons x xs ih =>
    intro hv
    obtain ⟨v, hp⟩ := hv x (List.mem_cons_self x xs)
    simp [clampedValues, hp, ih (fun y hy => hv y (List.mem_cons_of_mem x hy))]

/-- C6: for every stream of valid samples fed one at a time to an empty buffer
with a fixed visible width `W >= 0`, after each number `k` of samples the run
returns, the buffer is a suffix (in arrival order) of the sequence of the `n`
clamped values fed so far, and the most recent `min(n, W)` of them are a suffix
of the buffer: a trim never drops or reorders a value of the visible window. -/
theorem buffer_is_suffix_of_fed (P : String → Except String ℚ) (b : Sparkline.Block)
    (scale : Int) (g : List Nat) (mn mx : Option ℚ) (W : Nat) (xs : List Sample) (k : Nat)
    (hW : b.Rectangle.Dx = (W : Int)) (hvalid : ∀ x ∈ xs, ∃ v, P x.Value = .ok v) :
    ∃ s1, consumeAll P (NewSparkLine b scale g mn mx) (xs.take k) = some s1 ∧
      (clampedValues P mn mx (xs.take k)).length = (xs.take k).length ∧
      s1.values <:+ clampedValues P mn mx (xs.take k) ∧
      (clampedValues P mn mx (xs.take k)).drop
        ((xs.take k).length - Min.min (xs.take k).length W) <:+ s1.values := by
  have hdx : (NewSparkLine b scale g mn mx).Dx = (W : Int) := hW
  obtain ⟨s1, hrun⟩ := consumeAll_returns P (xs.take k) (NewSparkLine b scale g mn mx)
    (by rw [hdx]; exact Int.natCast_nonneg W)
  have hlenv := clampedValues_length_valid P mn mx (xs.take k)
    (fun x hx => hvalid x (List.mem_of_mem_take hx))
  obtain ⟨h1, h2⟩ := consumeAll_suffix P W (xs.take k) (NewSparkLine b scale g mn mx) s1 []
    hdx (List.suffix_refl _) (by simp [NewSparkLine]) hrun
  simp only [List.nil_append] at h1 h2
  have h1' : s1.values <:+ clampedValues P mn mx (xs.take k) := h1
  have h2' : Min.min (clampedValues P mn mx (xs.take k)).length W ≤ s1.values.length := h2
  refine ⟨s1, hrun, hlenv, h1', ?_⟩
  rw [← hlenv]
  exact drop_suffix_of_suffix _ _ _ h1' h2'

theorem buffer_is_suffix_of_fed_witness :
    ∃ s1, consumeAll ParseFloat
        (NewSparkLine ⟨⟨⟨0, 0⟩, ⟨3, 4⟩⟩, ⟨⟨1, 1⟩, ⟨2, 3⟩⟩⟩ 0 [] (some 0) (some 10))
        [⟨"", "-5"⟩, ⟨"", "20"⟩, ⟨"", "5"⟩, ⟨"", "7"⟩] = some s1 ∧
      s1.values <:+ [0, 10, 5, 7] ∧ [10, 5, 7] <:+ s1.values := by
  obtain ⟨s1, h1, -, h2, h3⟩ := buffer_is_suffix_of_fed ParseFloat
    ⟨⟨⟨0, 0⟩, ⟨3, 4⟩⟩, ⟨⟨1, 1⟩, ⟨2, 3⟩⟩⟩ 0 [] (some 0) (some 10) 3
    [⟨"", "-5"⟩, ⟨"", "20"⟩, ⟨"", "5"⟩, ⟨"", "7"⟩] 4 rfl
    (by
      intro x hx
      simp only [List.mem_cons, List.mem_singleton, List.not_mem_nil, or_false] at hx
      rcases hx with rfl | rfl | rfl | rfl
      · exact ⟨-5, rfl⟩
      · exact ⟨20, rfl⟩
      · exact ⟨5, rfl⟩
      · exact ⟨7, rfl⟩)
  have e : clampedValues ParseFloat (some 0) (some 10)
      (List.take 4 [⟨"", "-5"⟩, ⟨"", "20"⟩, ⟨"", "5"⟩, ⟨"", "7"⟩]) = [0, 10, 5, 7] := by decide
  rw [e] at h2 h3
  exact ⟨s1, h1, h2, h3⟩

/-! ## Buffer length -/

/-- The length of the buffer after a successful call. -/
theorem consumeSample_length_ok (P : String → Except String ℚ) (s s1 : SparkLine)
    (x : Sample) (v : ℚ) (W : Nat) (hp : P x.Value = .ok v) (hdx : s.Dx = (W : Int))
    (hc : consumeSample P s x = some s1) :
    s1.values.length = nextLength W s.values.length := by
  obtain ⟨-, -, -, hcases⟩ := consumeSample_some P s s1 x hc
  rcases hcases with ⟨err, hp2, -⟩ | ⟨v2, -, ⟨hmod, hval⟩ | ⟨hmod, -, hval⟩⟩
  · rw [hp] at hp2; cases hp2
  · rw [hval]
    simp only [List.length_append, List.length_singleton, nextLength]
    rw [if_neg (fun hh => hmod hh.1)]
  · rw [hval, hdx]
    simp only [List.length_append, List.length_singleton, List.length_drop, Int.toNat_ofNat,
      nextLength]
    split_ifs with h2
    · omega
    · have : ¬ (W < s.values.length + 1) := fun hh => h2 ⟨hmod, hh⟩
      omega

/-- The length of the buffer after a run of valid samples. -/
theorem consumeAll_length_valid (P : String → Except String ℚ) (W : Nat) :
    ∀ (xs : List Sample) (s s1 : SparkLine), s.Dx = (W : Int) →
      (∀ x ∈ xs, ∃ v, P x.Value = .ok v) → consumeAll P s xs = some s1 →
      s1.values.length = (nextLength W)^[xs.length] s.values.length := by
  intro xs
  induction xs with
  | nil =>
    intro s s1 _ _ h
    simp only [consumeAll, Option.some.injEq] at h
    subst h
    rfl
  | cons x xs ih =>
    intro s s1 hdx hv h
    simp only [consumeAll] at h
    cases hc : consumeSample P s x with
    | none => simp [hc] at h
    | some s2 =>
      simp only [hc] at h
      obtain ⟨v, hp⟩ := hv x (List.mem_cons_self x xs)
      have hb := (consumeSample_some P s s2 x hc).1
      have hdx2 : s2.Dx = (W : Int) := by
        simpa [SparkLine.Dx, hb] using hdx
      rw [ih s2 s1 hdx2 (fun y hy => hv y (List.mem_cons_of_mem x hy)) h,
        consumeSample_length_ok P s s2 x v W hp hdx hc]
      rfl

set_option maxRecDepth 100000 in
/-- The lengths the buffer goes through in a pane of width 3: the trims fall on
the 100th and the 197th insertion. -/
theorem nextLength_three_iterate :
    ∀ k < 251, (nextLength 3)^[k] 0 =
      if k < 100 then k else if k < 197 then k - 97 else k - 194 := by
  decide

/-- C8, as amended: with visible width 3 and 250 valid samples appended one at
a time to an empty buffer, every prefix of the run returns and the buffer
length after `k` insertions is `k` for `k < 100`, `k - 97` for `100 <= k < 197`
and `k - 194` from there on. The trims fall where the buffer length reaches 100,
at the 100th and the 197th insertion, after which the length is 3; after the
200th insertion it is 6; after every other insertion from the 4th on it
exceeds 3. -/
theorem trim_scenario_width_three (P : String → Except String ℚ) (b : Sparkline.Block)
    (scale : Int) (g : List Nat) (mn mx : Option ℚ) (xs : List Sample)
    (hW : b.Rectangle.Dx = 3) (hlen : xs.length = 250)
    (hvalid : ∀ x ∈ xs, ∃ v, P x.Value = .ok v) (k : Nat) (hk : k ≤ 250) :
    ∃ s1, consumeAll P (NewSparkLine b scale g mn mx) (xs.take k) = some s1 ∧
      s1.values.length = (if k < 100 then k else if k < 197 then k - 97 else k - 194) ∧
      (k = 100 ∨ k = 197 → s1.values.length = 3) ∧
      (k = 200 → s1.values.length = 6) ∧
      (4 ≤ k → k ≠ 100 → k ≠ 197 → 3 < s1.values.length) := by
  have hdx : (NewSparkLine b scale g mn mx).Dx = ((3 : Nat) : Int) := hW
  obtain ⟨s1, hrun⟩ := consumeAll_returns P (xs.take k) (NewSparkLine b scale g mn mx)
    (by rw [hdx]; decide)
  have hl := consumeAll_length_valid P 3 (xs.take k) (NewSparkLine b scale g mn mx) s1 hdx
    (fun x hx => hvalid x (List.mem_of_mem_take hx)) hrun
  have hk2 : (xs.take k).length = k := by
    rw [List.length_take, hlen]
    omega
  have h0 : (NewSparkLine b scale g mn mx).values.length = 0 := rfl
  rw [hk2, h0, nextLength_three_iterate k (by omega)] at hl
  refine ⟨s1, hrun, hl, ?_, ?_, ?_⟩
  · rintro (rfl | rfl) <;> rw [hl] <;> rfl
  · rintro rfl; rw [hl]; rfl
  · intro h4 h100 h197
    rw [hl]
    split_ifs <;> omega

theorem trim_scenario_width_three_witness :
    ∃ s1, consumeAll ParseFloat
        (NewSparkLine ⟨⟨⟨0, 0⟩, ⟨3, 4⟩⟩, ⟨⟨1, 1⟩, ⟨2, 3⟩⟩⟩ 0 [] none none)
        ((List.replicate 250 (⟨"", "1"⟩ : Sample)).take 197) = some s1 ∧
      s1.values.length = 3 := by
  obtain ⟨s1, h1, -, h2, -⟩ := trim_scenario_width_three ParseFloat
    ⟨⟨⟨0, 0⟩, ⟨3, 4⟩⟩, ⟨⟨1, 1⟩, ⟨2, 3⟩⟩⟩ 0 [] none none
    (List.replicate 250 (⟨"", "1"⟩ : Sample)) rfl (List.length_replicate 250 _)
    (fun x hx => ⟨1, by rw [List.eq_of_mem_replicate hx]; rfl⟩) 197 (by decide)
  exact ⟨s1, h1, h2 (Or.inr rfl)⟩

/-- C8, the claim as stated fails: with visible width 3, right after the 200th
of a run of valid samples the buffer holds 6 values, not at most 3. -/
theorem length_after_200th_insertion :
    ∃ s1, consumeAll ParseFloat
        (NewSparkLine ⟨⟨⟨0, 0⟩, ⟨3, 4⟩⟩, ⟨⟨1, 1⟩, ⟨2, 3⟩⟩⟩ 0 [] none none)
        (List.replicate 200 (⟨"", "1"⟩ : Sample)) = some s1 ∧
      s1.values.length = 6 ∧ ¬ s1.values.length ≤ 3 := by
  obtain ⟨s1, hrun⟩ := consumeAll_returns ParseFloat (List.replicate 200 (⟨"", "1"⟩ : Sample))
    (NewSparkLine ⟨⟨⟨0, 0⟩, ⟨3, 4⟩⟩, ⟨⟨1, 1⟩, ⟨2, 3⟩⟩⟩ 0 [] none none) (by decide)
  have hl := consumeAll_length_valid ParseFloat 3 (List.replicate 200 (⟨"", "1"⟩ : Sample))
    (NewSparkLine ⟨⟨⟨0, 0⟩, ⟨3, 4⟩⟩, ⟨⟨1, 1⟩, ⟨2, 3⟩⟩⟩ 0 [] none none) s1 rfl
    (fun x hx => ⟨1, by rw [List.eq_of_mem_replicate hx]; rfl⟩) hrun
  have h0 : (NewSparkLine ⟨⟨⟨0, 0⟩, ⟨3, 4⟩⟩, ⟨⟨1, 1⟩, ⟨2, 3⟩⟩⟩ 0 [] none none).values.length = 0 :=
    rfl
  rw [List.length_replicate, h0, nextLength_three_iterate 200 (by decide)] at hl
  have h6 : s1.values.length = 6 := hl
  exact ⟨s1, hrun, h6, by rw [h6]; decide⟩

/-- The length stays below the first multiple of 100 above the width. -/
theorem nextLength_lt_bound (W len : Nat) (h : len < 100 * (W / 100 + 1)) :
    nextLength W len < 100 * (W / 100 + 1) := by
  unfold nextLength
  split_ifs with h1
  · omega
  · have : ¬ ((len + 1) % 100 = 0 ∧ W < len + 1) := h1
    by_contra hcon
    have heq : len + 1 = 100 * (W / 100 + 1) := by omega
    apply this
    constructor <;> omega

/-- C9: for a fixed visible width `W >= 0`, after every finite sequence of
`consumeSample` calls starting from the empty buffer the run returns and the
buffer length is at most `100 * (W / 100 + 1)`; and a successful call whose
length after the append is a multiple of 100 ends with a buffer of length at
most `W`. -/
theorem buffer_length_bounded (P : String → Except String ℚ) (b : Sparkline.Block)
    (scale : Int) (g : List Nat) (mn mx : Option ℚ) (W : Nat) (xs : List Sample)
    (hW : b.Rectangle.Dx = (W : Int)) :
    (∃ s1, consumeAll P (NewSparkLine b scale g mn mx) xs = some s1 ∧
      s1.values.length ≤ 100 * (W / 100 + 1)) ∧
    (∀ (s : SparkLine) (x : Sample) (v : ℚ), s.Dx = (W : Int) → P x.Value = .ok v →
      (s.values.length + 1) % 100 = 0 →
      ∃ s1, consumeSample P s x = some s1 ∧ s1.values.length ≤ W) := by
  have hdx : (NewSparkLine b scale g mn mx).Dx = (W : Int) := hW
  constructor
  · obtain ⟨s1, hrun⟩ := consumeAll_returns P xs (NewSparkLine b scale g mn mx)
      (by rw [hdx]; exact Int.natCast_nonneg W)
    have key := consumeAll_invariant P
      (fun s => s.Dx = (W : Int) ∧ s.values.length < 100 * (W / 100 + 1))
      (by
        rintro s x s2 ⟨hd, hl⟩ hc
        have hb := (consumeSample_some P s s2 x hc).1
        have hd2 : s2.Dx = (W : Int) := by
          simpa [SparkLine.Dx, hb] using hd
        refine ⟨hd2, ?_⟩
        cases hp : P x.Value with
        | error err =>
          rw [consumeSample_error P s x err hp] at hc
          cases hc
          exact hl
        | ok v =>
          rw [consumeSample_length_ok P s s2 x v W hp hd hc]
          exact nextLength_lt_bound W _ hl)
      xs (NewSparkLine b scale g mn mx) s1
      ⟨hdx, by simp [NewSparkLine]⟩ hrun
    exact ⟨s1, hrun, le_of_lt key.2⟩
  · intro s x v hd hp hmod
    obtain ⟨s1, hc⟩ := consumeSample_returns P s x (by rw [hd]; exact Int.natCast_nonneg W)
    refine ⟨s1, hc, ?_⟩
    rw [consumeSample_length_ok P s s1 x v W hp hd hc]
    unfold nextLength
    split_ifs with h1
    · exact le_refl W
    · have : ¬ (W < s.values.length + 1) := fun hh => h1 ⟨hmod, hh⟩
      omega

theorem buffer_length_bounded_witness :
    (∃ s1, consumeAll ParseFloat
        (NewSparkLine ⟨⟨⟨0, 0⟩, ⟨3, 4⟩⟩, ⟨⟨1, 1⟩, ⟨2, 3⟩⟩⟩ 0 [] none none)
        (List.replicate 150 (⟨"", "1"⟩ : Sample)) = some s1 ∧ s1.values.length ≤ 100) ∧
    (∃ s1, consumeSample ParseFloat
        { NewSparkLine ⟨⟨⟨0, 0⟩, ⟨3, 4⟩⟩, ⟨⟨1, 1⟩, ⟨2, 3⟩⟩⟩ 0 [] none none with
          values := List.replicate 99 2 } ⟨"", "1"⟩ = some s1 ∧ s1.values.length ≤ 3) := by
  have h := buffer_length_bounded ParseFloat ⟨⟨⟨0, 0⟩, ⟨3, 4⟩⟩, ⟨⟨1, 1⟩, ⟨2, 3⟩⟩⟩ 0 [] none none 3
    (List.replicate 150 (⟨"", "1"⟩ : Sample)) rfl
  exact ⟨h.1, h.2 _ ⟨"", "1"⟩ 1 rfl rfl (by simp [NewSparkLine])⟩

/-! ## The `float64` arithmetic -/

theorem rne_floor_le (t : ℚ) : ⌊t⌋ ≤ rne t := by
  unfold rne
  split_ifs <;> omega

theorem rne_le_floor_add_one (t : ℚ) : rne t ≤ ⌊t⌋ + 1 := by
  unfold rne
  split_ifs <;> omega

theorem rne_intCast (n : Int) : rne (n : ℚ) = n := by
  unfold rne
  simp

theorem rne_mono {s t : ℚ} (h : s ≤ t) : rne s ≤ rne t := by
  have hfg : ⌊s⌋ ≤ ⌊t⌋ := Int.floor_mono h
  rcases hfg.lt_or_eq with hlt | heq
  · have h1 := rne_le_floor_add_one s
    have h2 := rne_floor_le t
    omega
  · unfold rne
    have hq : ((⌊s⌋ : Int) : ℚ) = ((⌊t⌋ : Int) : ℚ) := by rw [heq]
    rw [← heq]
    split_ifs <;> first | omega | linarith

theorem rne_error (t : ℚ) : |((rne t : Int) : ℚ) - t| ≤ 1 / 2 := by
  have h1 : ((⌊t⌋ : Int) : ℚ) ≤ t := Int.floor_le t
  have h2 : t < ((⌊t⌋ : Int) : ℚ) + 1 := Int.lt_floor_add_one t
  unfold rne
  rw [abs_le]
  split_ifs <;> push_cast <;> constructor <;> linarith

theorem rne_nonneg {t : ℚ} (h : 0 ≤ t) : 0 ≤ rne t :=
  le_trans (Int.floor_nonneg.mpr h) (rne_floor_le t)


theorem two_zpow_log_le {q : ℚ} (h : 0 < q) : (2 : ℚ) ^ (Int.log 2 q) ≤ q := by
  have := Int.zpow_log_le_self (b := 2) (by norm_num) h
  simpa using this

theorem lt_two_zpow_log (q : ℚ) : q < (2 : ℚ) ^ (Int.log 2 q + 1) := by
  have := Int.lt_zpow_succ_log_self (b := 2) (by norm_num) q
  simpa using this

theorem le_log2_iff {q : ℚ} (k : Int) (h : 0 < q) : k ≤ Int.log 2 q ↔ (2 : ℚ) ^ k ≤ q := by
  have := Int.zpow_le_iff_le_log (b := 2) (by norm_num) (x := k) h
  simpa using this.symm

theorem log2_lt_iff {q : ℚ} (k : Int) (h : 0 < q) : Int.log 2 q < k ↔ q < (2 : ℚ) ^ k := by
  have := Int.lt_zpow_iff_log_lt (b := 2) (by norm_num) (x := k) h
  simpa using this.symm

theorem log2_eq {q : ℚ} {k : Int} (h1 : (2 : ℚ) ^ k ≤ q) (h2 : q < (2 : ℚ) ^ (k + 1)) :
    Int.log 2 q = k := by
  have hq : 0 < q := lt_of_lt_of_le (zpow_pos (by norm_num) k) h1
  have a := (le_log2_iff k hq).mpr h1
  have b := (log2_lt_iff (k + 1) hq).mpr h2
  omega

theorem quantumExp_ge (q : ℚ) : -1074 ≤ quantumExp q := by
  unfold quantumExp
  have := le_max_right (Int.log 2 |q|) (-1022)
  omega

theorem round64_fin {q r : ℚ} (h : round64 q = F64.fin r) :
    r = ((rne (q / (2 : ℚ) ^ quantumExp q) : Int) : ℚ) * (2 : ℚ) ^ quantumExp q ∧
      |r| < (2 : ℚ) ^ (1024 : Nat) := by
  unfold round64 at h
  split_ifs at h with hc
  injection h with h
  subst h
  exact ⟨rfl, not_le.mp hc⟩

theorem round64_eq_self {q : ℚ} (k : Int) (hk : q = (k : ℚ) * (2 : ℚ) ^ quantumExp q)
    (hq : |q| < (2 : ℚ) ^ (1024 : Nat)) : round64 q = F64.fin q := by
  have hpos : (2 : ℚ) ^ quantumExp q ≠ 0 := (zpow_pos (by norm_num) _).ne'
  have hdiv : q / (2 : ℚ) ^ quantumExp q = (k : ℚ) := (div_eq_iff hpos).mpr hk
  unfold round64
  rw [hdiv, rne_intCast, ← hk, if_neg (not_le.mpr hq)]

theorem round64_nonneg {q r : ℚ} (h0 : 0 ≤ q) (h : round64 q = F64.fin r) : 0 ≤ r := by
  obtain ⟨hr, -⟩ := round64_fin h
  rw [hr]
  have hpos : (0 : ℚ) < (2 : ℚ) ^ quantumExp q := zpow_pos (by norm_num) _
  have : 0 ≤ rne (q / (2 : ℚ) ^ quantumExp q) := rne_nonneg (div_nonneg h0 hpos.le)
  exact mul_nonneg (by exact_mod_cast this) hpos.le


theorem two_zpow_add (a b : Int) : (2 : ℚ) ^ (a + b) = (2 : ℚ) ^ a * (2 : ℚ) ^ b :=
  zpow_add₀ (by norm_num) a b

theorem two_zpow_mono {a b : Int} (h : a ≤ b) : (2 : ℚ) ^ a ≤ (2 : ℚ) ^ b :=
  zpow_le_zpow_right₀ (by norm_num) h

/-- Rounding is monotone on the non-negative numbers. -/
theorem round64_mono {x y a b : ℚ} (hx : 0 ≤ x) (hxy : x ≤ y)
    (ha : round64 x = F64.fin a) (hb : round64 y = F64.fin b) : a ≤ b := by
  rcases hx.lt_or_eq with hpos | hzero
  swap
  · subst hzero
    obtain ⟨hra, -⟩ := round64_fin ha
    have h0 : a = 0 := by
      rw [hra]
      simp [rne]
    rw [h0]
    exact round64_nonneg (le_trans hx hxy) hb
  have hypos : 0 < y := lt_of_lt_of_le hpos hxy
  obtain ⟨hra, -⟩ := round64_fin ha
  obtain ⟨hrb, -⟩ := round64_fin hb
  have hL : Int.log 2 |x| ≤ Int.log 2 |y| := by
    rw [abs_of_pos hpos, abs_of_pos hypos]
    exact Int.log_mono_right hpos hxy
  have hex : quantumExp x = Max.max (Int.log 2 |x|) (-1022) - 52 := rfl
  have hey : quantumExp y = Max.max (Int.log 2 |y|) (-1022) - 52 := rfl
  have hle : quantumExp x ≤ quantumExp y := by
    rw [hex, hey]
    have := max_le_max hL (le_refl (-1022 : Int))
    omega
  have px : (0 : ℚ) < (2 : ℚ) ^ quantumExp x := zpow_pos (by norm_num) _
  have py : (0 : ℚ) < (2 : ℚ) ^ quantumExp y := zpow_pos (by norm_num) _
  rcases hle.lt_or_eq with hlt | heq
  · -- a power of two lies between the two numbers
    have hLy : quantumExp y = Int.log 2 |y| - 52 := by
      rw [hey]
      have h1 : -1074 ≤ quantumExp x := quantumExp_ge x
      rcases le_total (Int.log 2 |y|) (-1022) with h | h
      · rw [max_eq_right h] at hey
        omega
      · rw [max_eq_left h]
    have hLx : Int.log 2 |x| + 1 ≤ quantumExp x + 53 := by
      rw [hex]
      have := le_max_left (Int.log 2 |x|) (-1022)
      omega
    -- the rounded y is at least 2 ^ (quantumExp y + 52)
    have hy1 : (2 : ℚ) ^ (quantumExp y + 52) ≤ y := by
      have := two_zpow_log_le hypos
      rw [hLy, abs_of_pos hypos]
      simpa using this
    have hy2 : (((2 : Int) ^ (52 : Nat) : Int) : ℚ) ≤ y / (2 : ℚ) ^ quantumExp y := by
      rw [le_div_iff₀ py]
      have e : (((2 : Int) ^ (52 : Nat) : Int) : ℚ) * (2 : ℚ) ^ quantumExp y =
          (2 : ℚ) ^ (quantumExp y + 52) := by
        rw [two_zpow_add]
        push_cast
        rw [mul_comm]
        norm_num
      rw [e]
      exact hy1
    have hy3 : (2 : Int) ^ (52 : Nat) ≤ rne (y / (2 : ℚ) ^ quantumExp y) := by
      have := rne_mono hy2
      rwa [rne_intCast] at this
    have hb2 : (2 : ℚ) ^ (quantumExp y + 52) ≤ b := by
      rw [hrb, two_zpow_add, mul_comm ((2 : ℚ) ^ quantumExp y)]
      apply mul_le_mul_of_nonneg_right _ py.le
      have : (((2 : Int) ^ (52 : Nat) : Int) : ℚ) ≤
          ((rne (y / (2 : ℚ) ^ quantumExp y) : Int) : ℚ) := by exact_mod_cast hy3
      push_cast at this
      norm_num at this ⊢
      exact this
    -- the rounded x is at most 2 ^ (quantumExp x + 53)
    have hx1 : x ≤ (2 : ℚ) ^ (quantumExp x + 53) := by
      have h1 := lt_two_zpow_log |x|
      rw [abs_of_pos hpos] at h1
      have h2 := two_zpow_mono hLx
      rw [abs_of_pos hpos] at h2
      linarith
    have hx2 : x / (2 : ℚ) ^ quantumExp x ≤ (((2 : Int) ^ (53 : Nat) : Int) : ℚ) := by
      rw [div_le_iff₀ px]
      have e : (((2 : Int) ^ (53 : Nat) : Int) : ℚ) * (2 : ℚ) ^ quantumExp x =
          (2 : ℚ) ^ (quantumExp x + 53) := by
        rw [two_zpow_add]
        push_cast
        rw [mul_comm]
        norm_num
      rw [e]
      exact hx1
    have hx3 : rne (x / (2 : ℚ) ^ quantumExp x) ≤ (2 : Int) ^ (53 : Nat) := by
      have := rne_mono hx2
      rwa [rne_intCast] at this
    have ha2 : a ≤ (2 : ℚ) ^ (quantumExp x + 53) := by
      rw [hra, two_zpow_add, mul_comm ((2 : ℚ) ^ quantumExp x)]
      apply mul_le_mul_of_nonneg_right _ px.le
      have : ((rne (x / (2 : ℚ) ^ quantumExp x) : Int) : ℚ) ≤
          (((2 : Int) ^ (53 : Nat) : Int) : ℚ) := by exact_mod_cast hx3
      push_cast at this
      norm_num at this ⊢
      exact this
    have hmid : (2 : ℚ) ^ (quantumExp x + 53) ≤ (2 : ℚ) ^ (quantumExp y + 52) :=
      two_zpow_mono (by omega)
    linarith
  · rw [hra, hrb, ← heq]
    apply mul_le_mul_of_nonneg_right _ px.le
    have h1 : x / (2 : ℚ) ^ quantumExp x ≤ y / (2 : ℚ) ^ quantumExp x :=
      div_le_div_of_nonneg_right hxy px.le
    have := rne_mono h1
    exact_mod_cast this


/-- The halves of the integers up to `2 ^ 53` in magnitude are `float64`
numbers. -/
theorem round64_half_int (n : Int) (hn : |n| ≤ (2 : Int) ^ (53 : Nat)) :
    round64 ((n : ℚ) / 2) = F64.fin ((n : ℚ) / 2) := by
  have hbig : |(n : ℚ) / 2| < (2 : ℚ) ^ (1024 : Nat) := by
    have h1 : |(n : ℚ)| ≤ (2 : ℚ) ^ (53 : Nat) := by exact_mod_cast hn
    rw [abs_div, abs_of_pos (by norm_num : (0 : ℚ) < 2)]
    have h2 : (2 : ℚ) ^ (53 : Nat) < (2 : ℚ) ^ (1024 : Nat) := by norm_num
    have h3 : (0 : ℚ) ≤ |(n : ℚ)| := abs_nonneg _
    linarith
  by_cases h0 : n = 0
  · subst h0
    exact round64_eq_self 0 (by simp) hbig
  have hn1 : (1 : ℚ) ≤ |(n : ℚ)| := by
    have : (1 : Int) ≤ |n| := Int.one_le_abs h0
    exact_mod_cast this
  have hn2 : |(n : ℚ)| ≤ (2 : ℚ) ^ (53 : Nat) := by exact_mod_cast hn
  have habs : |(n : ℚ) / 2| = |(n : ℚ)| / 2 := by
    rw [abs_div, abs_of_pos (by norm_num : (0 : ℚ) < 2)]
  have hqpos : 0 < |(n : ℚ) / 2| := by rw [habs]; linarith
  have hlo : (-1 : Int) ≤ Int.log 2 |(n : ℚ) / 2| := by
    rw [le_log2_iff _ hqpos, habs]
    norm_num
    linarith
  have hhi : Int.log 2 |(n : ℚ) / 2| < 53 := by
    rw [log2_lt_iff _ hqpos, habs]
    norm_num at hn2 ⊢
    linarith
  have he : quantumExp ((n : ℚ) / 2) = Int.log 2 |(n : ℚ) / 2| - 52 := by
    unfold quantumExp
    rw [max_eq_left (by omega)]
  obtain ⟨m, hm⟩ : ∃ m : Nat, Int.log 2 |(n : ℚ) / 2| = 52 - (m : Int) :=
    ⟨(52 - Int.log 2 |(n : ℚ) / 2|).toNat, by omega⟩
  have he2 : quantumExp ((n : ℚ) / 2) = -(m : Int) := by omega
  cases m with
  | zero =>
    have h52 : (2 : ℚ) ^ (52 : Int) ≤ |(n : ℚ) / 2| := by
      rw [← le_log2_iff _ hqpos, hm]
      simp
    rw [habs] at h52
    have hnn : |n| = (2 : Int) ^ (53 : Nat) := by
      apply le_antisymm hn
      have : ((2 : Int) ^ (53 : Nat) : ℚ) ≤ |(n : ℚ)| := by
        norm_num at h52 ⊢
        linarith
      exact_mod_cast this
    refine round64_eq_self (n / 2) ?_ hbig
    rw [he2]
    simp only [Nat.cast_zero, neg_zero, zpow_zero, mul_one]
    have hdvd : (2 : Int) ∣ n := by
      rcases abs_choice n with h | h
      · rw [h] at hnn
        rw [hnn]
        exact ⟨(2 : Int) ^ (52 : Nat), by norm_num⟩
      · have : n = -((2 : Int) ^ (53 : Nat)) := by omega
        rw [this]
        exact ⟨-(2 : Int) ^ (52 : Nat), by norm_num⟩
    rw [Int.cast_div hdvd (by norm_num)]
    norm_num
  | succ m =>
    refine round64_eq_self (n * (2 : Int) ^ m) ?_ hbig
    rw [he2]
    push_cast
    rw [zpow_neg, ← Nat.cast_succ, zpow_natCast, pow_succ]
    field_simp
    ring

/-- The integers up to `2 ^ 52` in magnitude are `float64` numbers. -/
theorem round64_intCast (n : Int) (hn : |n| ≤ (2 : Int) ^ (52 : Nat)) :
    round64 (n : ℚ) = F64.fin (n : ℚ) := by
  have h := round64_half_int (2 * n) (by rw [abs_mul]; norm_num at hn ⊢; omega)
  have e : (((2 * n : Int) : ℚ)) / 2 = (n : ℚ) := by push_cast; ring
  rwa [e] at h

/-- A finite result of a rounding is a multiple of `2 ^ (-1074)`. -/
theorem round64_grid {q r : ℚ} (h : round64 q = F64.fin r) :
    ∃ k : Int, r = (k : ℚ) * (2 : ℚ) ^ (-1074 : Int) := by
  obtain ⟨hr, -⟩ := round64_fin h
  have hge := quantumExp_ge q
  obtain ⟨m, hm⟩ : ∃ m : Nat, quantumExp q = (m : Int) + (-1074) :=
    ⟨(quantumExp q + 1074).toNat, by omega⟩
  refine ⟨rne (q / (2 : ℚ) ^ quantumExp q) * (2 : Int) ^ m, ?_⟩
  rw [hr, hm, two_zpow_add, zpow_natCast]
  push_cast
  ring

/-- The rounding of a non-negative multiple of `2 ^ (-1074)` exceeds it by at
most the fraction `2 ^ (-53)` of it. -/
theorem round64_le {x r : ℚ} (hx : 0 ≤ x) (k : Int) (hk : x = (k : ℚ) * (2 : ℚ) ^ (-1074 : Int))
    (h : round64 x = F64.fin r) : r ≤ x * (1 + 1 / (2 : ℚ) ^ (53 : Nat)) := by
  obtain ⟨hr, -⟩ := round64_fin h
  have pe : (0 : ℚ) < (2 : ℚ) ^ quantumExp x := zpow_pos (by norm_num) _
  rcases hx.lt_or_eq with hpos | hzero
  swap
  · subst hzero
    rw [hr]
    simp [rne]
  rcases le_or_lt (-1022) (Int.log 2 |x|) with hL | hL
  · have he : quantumExp x = Int.log 2 |x| + (-52) := by
      unfold quantumExp
      rw [max_eq_left hL]
      ring
    have h1 := rne_error (x / (2 : ℚ) ^ quantumExp x)
    rw [abs_le] at h1
    have h2 : ((rne (x / (2 : ℚ) ^ quantumExp x) : Int) : ℚ) ≤
        x / (2 : ℚ) ^ quantumExp x + 1 / 2 := by linarith [h1.2]
    have h3 : r ≤ x + (2 : ℚ) ^ quantumExp x / 2 := by
      rw [hr]
      have := mul_le_mul_of_nonneg_right h2 pe.le
      rw [add_mul, div_mul_cancel₀ _ pe.ne'] at this
      linarith
    have h4 : (2 : ℚ) ^ quantumExp x ≤ x / (2 : ℚ) ^ (52 : Nat) := by
      have e52 : (2 : ℚ) ^ (-52 : Int) = 1 / (2 : ℚ) ^ (52 : Nat) := by norm_num
      rw [he, two_zpow_add, e52]
      have := two_zpow_log_le (abs_pos.mpr hpos.ne')
      rw [abs_of_pos hpos] at this ⊢
      rw [div_eq_mul_one_div x]
      have hc : (0 : ℚ) ≤ 1 / (2 : ℚ) ^ (52 : Nat) := by positivity
      exact mul_le_mul_of_nonneg_right this hc
    have h5 : x / (2 : ℚ) ^ (52 : Nat) / 2 = x * (1 / (2 : ℚ) ^ (53 : Nat)) := by
      ring
    linarith
  · have he : quantumExp x = -1074 := by
      unfold quantumExp
      rw [max_eq_right hL.le]
      rfl
    have hdiv : x / (2 : ℚ) ^ quantumExp x = (k : ℚ) := by
      rw [he]
      exact (div_eq_iff (zpow_pos (by norm_num) _).ne').mpr hk
    rw [hr, hdiv, rne_intCast, he, ← hk]
    have : (0 : ℚ) ≤ x * (1 / (2 : ℚ) ^ (53 : Nat)) := mul_nonneg hx (by norm_num)
    linarith


/-- A finite quotient of line 155 for a value between the effective minimum and
maximum lies between `0` and `H + 1 / 2`. -/
theorem quotient_bounds (x y : ℚ) (H : Int) (hx : 0 ≤ x) (hxy : x ≤ y) (hH0 : 0 ≤ H)
    (hH : H < (2 : Int) ^ (52 : Nat)) (q : ℚ)
    (hq : F64.div (F64.mul (round64 x) (round64 (H : ℚ))) (round64 y) = F64.fin q) :
    0 ≤ q ∧ q ≤ (H : ℚ) + 1 / 2 := by
  have hHq0 : (0 : ℚ) ≤ (H : ℚ) := by exact_mod_cast hH0
  have hHq : (H : ℚ) ≤ (2 : ℚ) ^ (52 : Nat) := by exact_mod_cast hH.le
  have hfH : round64 (H : ℚ) = F64.fin (H : ℚ) :=
    round64_intCast H (by rw [abs_of_nonneg hH0]; exact hH.le)
  rw [hfH] at hq
  cases hfx : round64 x with
  | nan => simp [hfx, F64.mul, F64.div] at hq
  | inf s =>
    rw [hfx] at hq
    by_cases hz : (H : ℚ) = 0
    · simp [F64.mul, F64.div, hz] at hq
    · cases hfy : round64 y <;> simp [F64.mul, F64.div, hz, hfy] at hq
  | fin a =>
    rw [hfx] at hq
    have ha0 : 0 ≤ a := round64_nonneg hx hfx
    have hmul : F64.mul (F64.fin a) (F64.fin (H : ℚ)) = round64 (a * (H : ℚ)) := rfl
    rw [hmul] at hq
    cases hfp : round64 (a * (H : ℚ)) with
    | nan => simp [hfp, F64.div] at hq
    | inf s =>
      rw [hfp] at hq
      cases hfy : round64 y <;> simp [F64.div, hfy] at hq
    | fin p =>
      rw [hfp] at hq
      have hp0 : 0 ≤ p := round64_nonneg (mul_nonneg ha0 hHq0) hfp
      cases hfy : round64 y with
      | nan => simp [hfy, F64.div] at hq
      | inf s =>
        simp only [hfy, F64.div, F64.fin.injEq] at hq
        subst hq
        constructor <;> linarith
      | fin b =>
        rw [hfy] at hq
        have hab : a ≤ b := round64_mono hx hxy hfx hfy
        by_cases hb0 : b = 0
        · subst hb0
          by_cases hp : p = 0 <;> simp [F64.div, hp] at hq
        · have hdiv : F64.div (F64.fin p) (F64.fin b) = round64 (p / b) := by
            simp [F64.div, hb0]
          rw [hdiv] at hq
          have hbpos : 0 < b := lt_of_le_of_ne (le_trans ha0 hab) (Ne.symm hb0)
          obtain ⟨k, hk⟩ := round64_grid hfx
          have hple : p ≤ a * (H : ℚ) * (1 + 1 / (2 : ℚ) ^ (53 : Nat)) :=
            round64_le (mul_nonneg ha0 hHq0) (k * H)
              (by rw [hk]; push_cast; ring) hfp
          have hquot : p / b ≤ (H : ℚ) + 1 / 2 := by
            rw [div_le_iff₀ hbpos]
            have h1 : a * (H : ℚ) ≤ b * (H : ℚ) := mul_le_mul_of_nonneg_right hab hHq0
            have h2 : a * (H : ℚ) * (1 + 1 / (2 : ℚ) ^ (53 : Nat)) ≤
                b * (H : ℚ) * (1 + 1 / (2 : ℚ) ^ (53 : Nat)) :=
              mul_le_mul_of_nonneg_right h1 (by positivity)
            have h3 : (H : ℚ) * (1 / (2 : ℚ) ^ (53 : Nat)) ≤ 1 / 2 := by
              have : (H : ℚ) * (1 / (2 : ℚ) ^ (53 : Nat)) ≤
                  (2 : ℚ) ^ (52 : Nat) * (1 / (2 : ℚ) ^ (53 : Nat)) :=
                mul_le_mul_of_nonneg_right hHq (by positivity)
              norm_num at this ⊢
              linarith
            have h4 : b * (H : ℚ) * (1 + 1 / (2 : ℚ) ^ (53 : Nat)) ≤ ((H : ℚ) + 1 / 2) * b := by
              have := mul_le_mul_of_nonneg_left h3 hbpos.le
              linarith
            linarith
          have hhalf : round64 ((H : ℚ) + 1 / 2) = F64.fin ((H : ℚ) + 1 / 2) := by
            have h := round64_half_int (2 * H + 1) (by
              rw [abs_of_nonneg (by omega)]
              norm_num at hH ⊢
              omega)
            have e : (((2 * H + 1 : Int) : ℚ)) / 2 = (H : ℚ) + 1 / 2 := by push_cast; ring
            rwa [e] at h
          exact ⟨round64_nonneg (div_nonneg hp0 hbpos.le) hq,
            round64_mono (div_nonneg hp0 hbpos.le) hquot hq hhalf⟩

/-- In exact arithmetic the quotient of integers `a * h / b` with `a * h = t * b`
is `t`; so it is in `float64` when the integers involved are at most `2 ^ 52` in
magnitude. -/
theorem quotient_int (a h b t : Int) (hb : b ≠ 0) (hab : a * h = t * b)
    (ha : |a| ≤ (2 : Int) ^ (52 : Nat)) (hh : |h| ≤ (2 : Int) ^ (52 : Nat))
    (hb2 : |b| ≤ (2 : Int) ^ (52 : Nat)) (hah : |a * h| ≤ (2 : Int) ^ (52 : Nat))
    (ht : |t| ≤ (2 : Int) ^ (52 : Nat)) :
    F64.div (F64.mul (round64 (a : ℚ)) (round64 (h : ℚ))) (round64 (b : ℚ)) =
      F64.fin (t : ℚ) := by
  rw [round64_intCast a ha, round64_intCast h hh, round64_intCast b hb2]
  have hmul : F64.mul (F64.fin (a : ℚ)) (F64.fin (h : ℚ)) = round64 (((a * h : Int) : ℚ)) := by
    simp [F64.mul]
  rw [hmul, round64_intCast _ hah]
  have hbq : (b : ℚ) ≠ 0 := by exact_mod_cast hb
  have hdiv : F64.div (F64.fin ((a * h : Int) : ℚ)) (F64.fin (b : ℚ)) =
      round64 (t : ℚ) := by
    have e : ((a * h : Int) : ℚ) / (b : ℚ) = (t : ℚ) := by
      rw [hab]
      push_cast
      field_simp
    simp only [F64.div, if_neg hbq, e]
  rw [hdiv, round64_intCast t ht]

/-- A result of `2 ^ 1024` or more overflows to the positive infinity. -/
theorem round64_overflow {q : ℚ} (h : (2 : ℚ) ^ (1024 : Nat) ≤ q) :
    round64 q = F64.inf false := by
  have hq : 0 < q := lt_of_lt_of_le (by norm_num) h
  have hL : (1024 : Int) ≤ Int.log 2 |q| := by
    rw [abs_of_pos hq, le_log2_iff _ hq]
    have e : (2 : ℚ) ^ (1024 : Int) = (2 : ℚ) ^ (1024 : Nat) := zpow_natCast (2 : ℚ) 1024
    rw [e]
    exact h
  have he : quantumExp q + 52 = Int.log 2 |q| := by
    unfold quantumExp
    rw [max_eq_left (by omega)]
    ring
  have pe : (0 : ℚ) < (2 : ℚ) ^ quantumExp q := zpow_pos (by norm_num) _
  have h1 : (2 : ℚ) ^ (quantumExp q + 52) ≤ q := by
    rw [he, abs_of_pos hq]
    exact two_zpow_log_le hq
  have h2 : (((2 : Int) ^ (52 : Nat) : Int) : ℚ) ≤ q / (2 : ℚ) ^ quantumExp q := by
    rw [le_div_iff₀ pe]
    have e : (((2 : Int) ^ (52 : Nat) : Int) : ℚ) * (2 : ℚ) ^ quantumExp q =
        (2 : ℚ) ^ (quantumExp q + 52) := by
      rw [two_zpow_add]
      push_cast
      rw [mul_comm]
      norm_num
    rw [e]
    exact h1
  have h3 : (2 : Int) ^ (52 : Nat) ≤ rne (q / (2 : ℚ) ^ quantumExp q) := by
    have := rne_mono h2
    rwa [rne_intCast] at this
  have h4 : (2 : ℚ) ^ (quantumExp q + 52) ≤
      ((rne (q / (2 : ℚ) ^ quantumExp q) : Int) : ℚ) * (2 : ℚ) ^ quantumExp q := by
    rw [two_zpow_add, mul_comm ((2 : ℚ) ^ quantumExp q)]
    apply mul_le_mul_of_nonneg_right _ pe.le
    have : (((2 : Int) ^ (52 : Nat) : Int) : ℚ) ≤
        ((rne (q / (2 : ℚ) ^ quantumExp q) : Int) : ℚ) := by exact_mod_cast h3
    push_cast at this
    norm_num at this ⊢
    exact this
  have h5 : (2 : ℚ) ^ (1024 : Nat) ≤ (2 : ℚ) ^ (quantumExp q + 52) := by
    have e : (2 : ℚ) ^ (1024 : Int) = (2 : ℚ) ^ (1024 : Nat) := zpow_natCast (2 : ℚ) 1024
    rw [← e]
    exact two_zpow_mono (by omega)
  have h6 : (2 : ℚ) ^ (1024 : Nat) ≤
      |((rne (q / (2 : ℚ) ^ quantumExp q) : Int) : ℚ) * (2 : ℚ) ^ quantumExp q| :=
    le_trans (le_trans h5 h4) (le_abs_self _)
  unfold round64
  rw [if_pos h6]
  simp [not_lt.mpr hq.le]

/-- A non-negative result of at most `2 ^ 1023` does not overflow. -/
theorem round64_finite {x : ℚ} (h0 : 0 ≤ x) (h : x ≤ (2 : ℚ) ^ (1023 : Nat)) :
    ∃ r, round64 x = F64.fin r := by
  have pe : (0 : ℚ) < (2 : ℚ) ^ quantumExp x := zpow_pos (by norm_num) _
  have he : quantumExp x ≤ 1023 := by
    unfold quantumExp
    rcases h0.lt_or_eq with hpos | hzero
    · have hL : Int.log 2 |x| < 1024 := by
        rw [abs_of_pos hpos, log2_lt_iff _ hpos]
        have : (2 : ℚ) ^ (1023 : Nat) < (2 : ℚ) ^ (1024 : Int) := by norm_num
        linarith
      have := max_le (a := Int.log 2 |x|) (b := -1022) (c := 1023) (by omega) (by omega)
      omega
    · subst hzero
      simp
  obtain ⟨m, hm⟩ : ∃ m : Nat, (1023 : Int) = quantumExp x + (m : Int) :=
    ⟨(1023 - quantumExp x).toNat, by omega⟩
  have e1 : (2 : ℚ) ^ (1023 : Nat) = (((2 : Int) ^ m : Int) : ℚ) * (2 : ℚ) ^ quantumExp x := by
    have : (2 : ℚ) ^ (1023 : Nat) = (2 : ℚ) ^ (1023 : Int) := by norm_num
    rw [this, hm, two_zpow_add, zpow_natCast]
    push_cast
    ring
  have h2 : x / (2 : ℚ) ^ quantumExp x ≤ (((2 : Int) ^ m : Int) : ℚ) := by
    rw [div_le_iff₀ pe, ← e1]
    exact h
  have h3 : rne (x / (2 : ℚ) ^ quantumExp x) ≤ (2 : Int) ^ m := by
    have := rne_mono h2
    rwa [rne_intCast] at this
  have h4 : 0 ≤ rne (x / (2 : ℚ) ^ quantumExp x) := rne_nonneg (div_nonneg h0 pe.le)
  have h5 : ((rne (x / (2 : ℚ) ^ quantumExp x) : Int) : ℚ) * (2 : ℚ) ^ quantumExp x ≤
      (2 : ℚ) ^ (1023 : Nat) := by
    rw [e1]
    apply mul_le_mul_of_nonneg_right _ pe.le
    exact_mod_cast h3
  have h6 : (0 : ℚ) ≤ ((rne (x / (2 : ℚ) ^ quantumExp x) : Int) : ℚ) * (2 : ℚ) ^ quantumExp x :=
    mul_nonneg (by exact_mod_cast h4) pe.le
  have hfin : ¬ (2 : ℚ) ^ (1024 : Nat) ≤
      |((rne (x / (2 : ℚ) ^ quantumExp x) : Int) : ℚ) * (2 : ℚ) ^ quantumExp x| := by
    rw [abs_of_nonneg h6, not_le]
    have : (2 : ℚ) ^ (1023 : Nat) < (2 : ℚ) ^ (1024 : Nat) := by norm_num
    linarith
  exact ⟨_, by unfold round64; rw [if_neg hfin]⟩

/-- With a positive divisor on the grid of the `float64` numbers and no
overflow of the range times the height, the quotient of line 155 is finite. -/
theorem quotient_finite (x y : ℚ) (H : Int) (hx : 0 ≤ x) (hxy : x ≤ y) (hy0 : 0 < y)
    (ky : Int) (hky : y = (ky : ℚ) * (2 : ℚ) ^ (-1074 : Int)) (hH0 : 0 ≤ H)
    (hH : H < (2 : Int) ^ (52 : Nat)) (hy : y * ((H : ℚ) + 1) ≤ (2 : ℚ) ^ (1022 : Nat)) :
    ∃ q, F64.div (F64.mul (round64 x) (round64 (H : ℚ))) (round64 y) = F64.fin q := by
  have hHq0 : (0 : ℚ) ≤ (H : ℚ) := by exact_mod_cast hH0
  have hHq : (H : ℚ) ≤ (2 : ℚ) ^ (52 : Nat) := by exact_mod_cast hH.le
  have hfH : round64 (H : ℚ) = F64.fin (H : ℚ) :=
    round64_intCast H (by rw [abs_of_nonneg hH0]; exact hH.le)
  have hy1 : y ≤ (2 : ℚ) ^ (1022 : Nat) := by nlinarith
  have hlt : (2 : ℚ) ^ (1022 : Nat) ≤ (2 : ℚ) ^ (1023 : Nat) := by norm_num
  obtain ⟨b, hb⟩ := round64_finite hy0.le (le_trans hy1 hlt)
  obtain ⟨a, ha⟩ := round64_finite hx (le_trans hxy (le_trans hy1 hlt))
  have ha0 : 0 ≤ a := round64_nonneg hx ha
  have hab : a ≤ b := round64_mono hx hxy ha hb
  have hble : b ≤ y * (1 + 1 / (2 : ℚ) ^ (53 : Nat)) := round64_le hy0.le ky hky hb
  -- the divisor is not zero
  have hkpos : 1 ≤ ky := by
    by_contra hcon
    have hk0 : (ky : ℚ) ≤ 0 := by exact_mod_cast (by omega : ky ≤ 0)
    have : y ≤ 0 := by
      rw [hky]
      exact mul_nonpos_of_nonpos_of_nonneg hk0 (zpow_pos (by norm_num) _).le
    linarith
  have hunit : round64 ((2 : ℚ) ^ (-1074 : Int)) = F64.fin ((2 : ℚ) ^ (-1074 : Int)) := by
    have hq : quantumExp ((2 : ℚ) ^ (-1074 : Int)) = -1074 := by
      unfold quantumExp
      rw [abs_of_pos (zpow_pos (by norm_num) _)]
      have := Int.log_zpow (R := ℚ) (b := 2) (by norm_num) (-1074)
      simp only [Nat.cast_ofNat] at this
      rw [this]
      rfl
    refine round64_eq_self 1 (by rw [hq]; simp) ?_
    rw [abs_of_pos (zpow_pos (by norm_num) _)]
    have h1 : (2 : ℚ) ^ (-1074 : Int) ≤ (2 : ℚ) ^ (0 : Int) := two_zpow_mono (by norm_num)
    have h2 : (2 : ℚ) ^ (0 : Int) < (2 : ℚ) ^ (1024 : Nat) := by norm_num
    linarith
  have hbpos : 0 < b := by
    have hge : (2 : ℚ) ^ (-1074 : Int) ≤ y := by
      rw [hky]
      have : (1 : ℚ) ≤ (ky : ℚ) := by exact_mod_cast hkpos
      have pu : (0 : ℚ) < (2 : ℚ) ^ (-1074 : Int) := zpow_pos (by norm_num) _
      nlinarith
    have := round64_mono (zpow_pos (by norm_num) _).le hge hunit hb
    exact lt_of_lt_of_le (zpow_pos (by norm_num) _) this
  -- the product does not overflow
  have hc : (1 : ℚ) + 1 / (2 : ℚ) ^ (53 : Nat) ≤ 2 := by norm_num
  have hprod : a * (H : ℚ) ≤ (2 : ℚ) ^ (1023 : Nat) := by
    have h1 : a * (H : ℚ) ≤ b * (H : ℚ) := mul_le_mul_of_nonneg_right hab hHq0
    have h2 : b * (H : ℚ) ≤ y * (1 + 1 / (2 : ℚ) ^ (53 : Nat)) * (H : ℚ) :=
      mul_le_mul_of_nonneg_right hble hHq0
    have h3 : y * (1 + 1 / (2 : ℚ) ^ (53 : Nat)) * (H : ℚ) ≤ 2 * (y * ((H : ℚ) + 1)) := by
      have : y * (H : ℚ) * (1 + 1 / (2 : ℚ) ^ (53 : Nat)) ≤ y * (H : ℚ) * 2 :=
        mul_le_mul_of_nonneg_left hc (mul_nonneg hy0.le hHq0)
      nlinarith
    have h4 : 2 * (y * ((H : ℚ) + 1)) ≤ (2 : ℚ) ^ (1023 : Nat) := by
      have : (2 : ℚ) ^ (1023 : Nat) = 2 * (2 : ℚ) ^ (1022 : Nat) := by norm_num
      rw [this]
      linarith
    linarith
  obtain ⟨p, hp⟩ := round64_finite (mul_nonneg ha0 hHq0) hprod
  have hp0 : 0 ≤ p := round64_nonneg (mul_nonneg ha0 hHq0) hp
  obtain ⟨k, hk⟩ := round64_grid ha
  have hple : p ≤ a * (H : ℚ) * (1 + 1 / (2 : ℚ) ^ (53 : Nat)) :=
    round64_le (mul_nonneg ha0 hHq0) (k * H) (by rw [hk]; push_cast; ring) hp
  have hquot : p / b ≤ (2 : ℚ) ^ (1023 : Nat) := by
    rw [div_le_iff₀ hbpos]
    have h1 : a * (H : ℚ) * (1 + 1 / (2 : ℚ) ^ (53 : Nat)) ≤ a * (H : ℚ) * 2 :=
      mul_le_mul_of_nonneg_left hc (mul_nonneg ha0 hHq0)
    have h2 : a * (H : ℚ) * 2 ≤ b * ((2 : ℚ) ^ (52 : Nat) * 2) := by
      have := mul_le_mul hab hHq hHq0 hbpos.le
      linarith
    have h3 : b * ((2 : ℚ) ^ (52 : Nat) * 2) ≤ (2 : ℚ) ^ (1023 : Nat) * b := by
      have : (2 : ℚ) ^ (52 : Nat) * 2 ≤ (2 : ℚ) ^ (1023 : Nat) := by norm_num
      have := mul_le_mul_of_nonneg_left this hbpos.le
      linarith
    linarith
  obtain ⟨q, hq⟩ := round64_finite (div_nonneg hp0 hbpos.le) hquot
  refine ⟨q, ?_⟩
  rw [ha, hfH, hb]
  have hmul : F64.mul (F64.fin a) (F64.fin (H : ℚ)) = round64 (a * (H : ℚ)) := rfl
  rw [hmul, hp]
  simp only [F64.div, if_neg hbpos.ne']
  exact hq

/-- A number less than a half away from an integer rounds to it. -/
theorem rne_eq_of_lt (t : ℚ) (k : Int) (h1 : (k : ℚ) - 1 / 2 < t) (h2 : t < (k : ℚ) + 1 / 2) :
    rne t = k := by
  have hf1 : ((⌊t⌋ : Int) : ℚ) ≤ t := Int.floor_le t
  have hf2 : t < ((⌊t⌋ : Int) : ℚ) + 1 := Int.lt_floor_add_one t
  have hk1 : k - 1 ≤ ⌊t⌋ := by
    rw [Int.le_floor]
    push_cast
    linarith
  have hk2 : ⌊t⌋ ≤ k := by
    have : ⌊t⌋ < k + 1 := by
      rw [Int.floor_lt]
      push_cast
      linarith
    omega
  rcases (by omega : ⌊t⌋ = k ∨ ⌊t⌋ = k - 1) with h | h
  · unfold rne
    rw [h, if_pos (by linarith)]
  · have hc : ((⌊t⌋ : Int) : ℚ) = (k : ℚ) - 1 := by
      rw [h]
      push_cast
      ring
    unfold rne
    rw [if_neg (by rw [hc]; linarith), if_pos (by rw [hc]; linarith), h]
    ring

/-- The midpoint above an even integer rounds to it. -/
theorem rne_tie_even (k : Int) (hk : k % 2 = 0) : rne ((k : ℚ) + 1 / 2) = k := by
  have hfl : ⌊(k : ℚ) + 1 / 2⌋ = k := by
    rw [Int.floor_eq_iff]
    constructor <;> linarith
  unfold rne
  rw [hfl, if_neg (by linarith), if_neg (by linarith), if_pos hk]

/-- The unit in the last place of a normal number. -/
theorem quantumExp_eq (q : ℚ) (l : Int) (h1 : (2 : ℚ) ^ l ≤ |q|) (h2 : |q| < (2 : ℚ) ^ (l + 1))
    (hl : -1022 ≤ l) : quantumExp q = l + (-52) := by
  unfold quantumExp
  rw [log2_eq h1 h2, max_eq_left hl]
  ring

/-- The rounding of a number whose unit in the last place and nearest multiple
of it are known. -/
theorem round64_eq_of (q : ℚ) (e k : Int) (he : quantumExp q = e)
    (hk : rne (q / (2 : ℚ) ^ e) = k)
    (hfin : |(k : ℚ) * (2 : ℚ) ^ e| < (2 : ℚ) ^ (1024 : Nat)) :
    round64 q = F64.fin ((k : ℚ) * (2 : ℚ) ^ e) := by
  unfold round64
  rw [he, hk, if_neg (not_le.mpr hfin)]

/-- The quotient `-1 / 3` in `float64`. -/
theorem round64_neg_third :
    round64 (-1 / 3) = F64.fin (-6004799503160661 / 18014398509481984) := by
  have habs : |(-1 : ℚ) / 3| = 1 / 3 := by
    rw [abs_of_neg (by norm_num)]
    norm_num
  have he : quantumExp ((-1 : ℚ) / 3) = -54 :=
    (quantumExp_eq _ (-2) (by rw [habs]; norm_num) (by rw [habs]; norm_num)
      (by decide)).trans (by norm_num)
  have e54 : (2 : ℚ) ^ (-54 : Int) = 1 / 18014398509481984 := by norm_num
  have hk : rne ((-1 : ℚ) / 3 / (2 : ℚ) ^ (-54 : Int)) = -6004799503160661 := by
    apply rne_eq_of_lt
    · rw [e54]; norm_num
    · rw [e54]; norm_num
  have h := round64_eq_of (-1 / 3) (-54) (-6004799503160661) he hk
    (by rw [e54]; norm_num [abs_of_neg])
  rw [h, e54]
  norm_num

/-! ## Rendering: the bar height -/

/-- The bar height of lines 152-156 is always defined: the division is only
reached with a divisor that is the difference of two different numbers. -/
theorem barTop_returns {R : Type} (A : Arith R) (mn mx : ℚ) (height : Int) (v : ℚ) :
    ∃ top, barTop A mn mx height v = some top := by
  unfold barTop
  by_cases h : mx = mn
  · exact ⟨0, by simp [h]⟩
  · obtain ⟨z, hz⟩ := A.div_sub (A.mul (A.sub v mn) (A.ofInt height)) mx mn h
    exact ⟨A.toInt z, by simp [h, hz]⟩

theorem barTop_eq {R : Type} (A : Arith R) (s : SparkLine) (v : ℚ) :
    barTop A (effectiveMin s) (effectiveMax s) (s.Dy - 2) v = some (topOf A s v) := by
  obtain ⟨t, ht⟩ := barTop_returns A (effectiveMin s) (effectiveMax s) (s.Dy - 2) v
  unfold topOf
  rw [ht]
  rfl

theorem truncate_intCast (n : Int) : truncate (n : ℚ) = n := by
  unfold truncate
  split_ifs
  · exact Int.floor_intCast n
  · exact Int.ceil_intCast n

/-- The writes of one loop body, for an index inside the buffer. -/
theorem drawColumn_eq {R : Type} (A : Arith R) (F : ℚ → Int → String)
    (G : List Nat → Int → Int → Nat)
    (s : SparkLine) (i : Nat) (v : ℚ) (hv : s.values[i]? = some v) :
    drawColumn A F G s i = some (
      (List.range (topOf A s v + 1).toNat).map (fun (j : Nat) =>
        DrawOp.SetCell (G s.gradient (j : Int) (s.Dy - 2))
          ⟨s.Block.Inner.Max.X - ((s.values.length : Int) - (i : Int)) - indent F s,
            s.Block.Inner.Max.Y - (j : Int) - 1⟩) ++
      (if (i : Int) = (s.values.length : Int) - 1 then
        DrawOp.SetString (curLabel F s)
            ⟨s.Block.Inner.Max.X - ((s.values.length : Int) - (i : Int)) - indent F s + 2,
              s.Block.Inner.Max.Y - topOf A s v - 1⟩ ::
          (if effectiveMax s ≠ effectiveMin s then
            [DrawOp.SetString (minLabel F s)
                ⟨s.Block.Inner.Max.X - ((s.values.length : Int) - (i : Int)) - indent F s + 2,
                  s.Block.Rectangle.Max.Y - 2⟩,
             DrawOp.SetString (maxLabel F s)
                ⟨s.Block.Inner.Max.X - ((s.values.length : Int) - (i : Int)) - indent F s + 2,
                  s.Block.Rectangle.Min.Y + 1⟩]
          else [])
      else [])) := by
  simp only [drawColumn, hv, barTop_eq]

theorem effectiveMin_eq (s : SparkLine) : effectiveMin s = s.min.getD s.minValue := by
  unfold effectiveMin
  cases s.min <;> rfl

theorem effectiveMax_eq (s : SparkLine) : effectiveMax s = s.max.getD s.maxValue := by
  unfold effectiveMax
  cases s.max <;> rfl

/-- In the arithmetic of the numbers themselves the variable `top` is the bar
height of the spec, evaluated without rounding. -/
theorem topOf_exact (s : SparkLine) (v : ℚ) : topOf exactArith s v = specTop s v := by
  unfold topOf barTop specTop
  rw [effectiveMin_eq, effectiveMax_eq]
  by_cases h : s.max.getD s.maxValue = s.min.getD s.minValue
  · simp [h]
  · simp [h, exactArith, sub_ne_zero.mpr h]

/-- In `float64` the variable `top` is the bar height of the spec, evaluated in
`float64`. -/
theorem topOf_float64 (ι : F64 → Int) (s : SparkLine) (v : ℚ) :
    topOf (float64 ι) s v = specTop64 ι s v := by
  unfold topOf barTop specTop64
  rw [effectiveMin_eq, effectiveMax_eq]
  by_cases h : s.max.getD s.maxValue = s.min.getD s.minValue
  · simp [h]
  · simp [h, float64]

/-- When the effective maximum equals the effective minimum the variable `top`
is `0`, in every arithmetic. -/
theorem topOf_of_eq {R : Type} (A : Arith R) (s : SparkLine) (v : ℚ)
    (h : effectiveMax s = effectiveMin s) : topOf A s v = 0 := by
  simp [topOf, barTop, h]

theorem specTop64_eq (ι : F64 → Int) (s : SparkLine) (v : ℚ)
    (h : s.max.getD s.maxValue ≠ s.min.getD s.minValue) :
    specTop64 ι s v = F64.toInt ι (quotient64 s v) := by
  simp [specTop64, quotient64, h]

/-- The conversion to `int` of a finite number within the range of `int`. -/
theorem toInt_fin (ι : F64 → Int) (q : ℚ) (h1 : -(2 : Int) ^ (63 : Nat) ≤ truncate q)
    (h2 : truncate q < (2 : Int) ^ (63 : Nat)) : F64.toInt ι (F64.fin q) = truncate q := by
  show (if -(2 : Int) ^ (63 : Nat) ≤ truncate q ∧ truncate q < (2 : Int) ^ (63 : Nat) then
    truncate q else ι (F64.fin q)) = truncate q
  rw [if_pos ⟨h1, h2⟩]

/-- The bar height when the differences and the height are integers of
magnitude at most `2 ^ 52` and the quotient is an integer: no operation
rounds. -/
theorem specTop64_int (ι : F64 → Int) (s : SparkLine) (v : ℚ) (a h b t : Int)
    (hne : s.max.getD s.maxValue ≠ s.min.getD s.minValue)
    (hv : v - s.min.getD s.minValue = (a : ℚ)) (hH : s.Dy - 2 = h)
    (hb : s.max.getD s.maxValue - s.min.getD s.minValue = (b : ℚ)) (hab : a * h = t * b)
    (ha : |a| ≤ (2 : Int) ^ (52 : Nat)) (hh : |h| ≤ (2 : Int) ^ (52 : Nat))
    (hb2 : |b| ≤ (2 : Int) ^ (52 : Nat)) (hah : |a * h| ≤ (2 : Int) ^ (52 : Nat))
    (ht : |t| ≤ (2 : Int) ^ (52 : Nat)) : specTop64 ι s v = t := by
  have hb0 : b ≠ 0 := by
    intro h0
    rw [h0, Int.cast_zero] at hb
    exact hne (sub_eq_zero.mp hb)
  rw [specTop64_eq ι s v hne]
  unfold quotient64
  rw [hv, hH, hb, quotient_int a h b t hb0 hab ha hh hb2 hah ht]
  have h1 := abs_le.mp ht
  rw [toInt_fin ι _ (by rw [truncate_intCast]; norm_num at h1 ⊢; omega)
    (by rw [truncate_intCast]; norm_num at h1 ⊢; omega), truncate_intCast]

/-- C14: for all values `v` and bounds `lower <= upper` the clamp of lines 71-78
is `min(upper, max(lower, v))`, which equals `max(lower, min(upper, v))` (the
order of the two bounds does not matter); the result lies in `[lower, upper]`,
equals `v` when `v` is already in `[lower, upper]`, and clamping it again
returns it unchanged. -/
theorem clampValue_order_independent_idempotent (lo hi v : ℚ) (h : lo ≤ hi) :
    clampValue (some lo) (some hi) v = Min.min hi (Max.max lo v) ∧
    Min.min hi (Max.max lo v) = Max.max lo (Min.min hi v) ∧
    (lo ≤ clampValue (some lo) (some hi) v ∧ clampValue (some lo) (some hi) v ≤ hi) ∧
    (lo ≤ v → v ≤ hi → clampValue (some lo) (some hi) v = v) ∧
    clampValue (some lo) (some hi) (clampValue (some lo) (some hi) v) =
      clampValue (some lo) (some hi) v := by
  have hc : ∀ w, clampValue (some lo) (some hi) w = Min.min hi (Max.max lo w) := fun _ => rfl
  have hlow : lo ≤ Min.min hi (Max.max lo v) := le_min h (le_max_left lo v)
  have hup : Min.min hi (Max.max lo v) ≤ hi := min_le_left _ _
  refine ⟨rfl, ?_, ⟨?_, ?_⟩, ?_, ?_⟩
  · rcases le_total v lo with h1 | h1
    · rw [max_eq_left h1, min_eq_right h, min_eq_right (le_trans h1 h), max_eq_left h1]
    · rw [max_eq_right h1]
      rcases le_total v hi with h2 | h2
      · rw [min_eq_right h2, max_eq_right h1]
      · rw [min_eq_left h2, max_eq_right h]
  · rw [hc]; exact hlow
  · rw [hc]; exact hup
  · intro h1 h2
    rw [hc, max_eq_right h1, min_eq_right h2]
  · rw [hc, hc, max_eq_right hlow, min_eq_right hup]

theorem clampValue_order_independent_idempotent_witness :
    (0 : ℚ) ≤ 10 ∧ clampValue (some 0) (some 10) 20 = 10 ∧
    Min.min (10 : ℚ) (Max.max 0 20) = Max.max 0 (Min.min 10 20) ∧
    clampValue (some 0) (some 10) (clampValue (some 0) (some 10) 20) =
      clampValue (some 0) (some 10) 20 := by
  have h := clampValue_order_independent_idempotent 0 10 20 (by norm_num)
  refine ⟨by norm_num, ?_, h.2.1, h.2.2.2.2⟩
  rw [h.1]
  norm_num

/-! ## The range recomputation: exact value -/

/-- The elements of the window of the `dx` newest values are those at the
indices the loop of lines 83-93 visits. -/
theorem mem_window_iff (vs : List ℚ) (dx : Int) (x : ℚ) :
    x ∈ vs.drop (vs.length - Min.min vs.length dx.toNat) ↔
      ∃ j : Nat, j < vs.length ∧ (vs.length : Int) - (j : Int) ≤ dx ∧ vs[j]? = some x := by
  constructor
  · intro hx
    obtain ⟨i, hi, rfl⟩ := List.mem_iff_getElem.mp hx
    rw [List.length_drop] at hi
    have hj : vs.length - Min.min vs.length dx.toNat + i < vs.length := by omega
    refine ⟨vs.length - Min.min vs.length dx.toNat + i, hj, by omega, ?_⟩
    rw [List.getElem_drop, List.getElem?_eq_getElem hj]
  · rintro ⟨j, hj, hw, hx⟩
    rw [List.getElem?_eq_getElem hj] at hx
    have hx2 : vs[j] = x := Option.some.inj hx
    have hd : vs.length - Min.min vs.length dx.toNat ≤ j := by omega
    have hlen : j - (vs.length - Min.min vs.length dx.toNat) <
        (vs.drop (vs.length - Min.min vs.length dx.toNat)).length := by
      rw [List.length_drop]; omega
    have hmem := List.getElem_mem hlen
    rw [List.getElem_drop] at hmem
    have hidx : vs.length - Min.min vs.length dx.toNat +
        (j - (vs.length - Min.min vs.length dx.toNat)) = j := by omega
    simp only [hidx] at hmem
    rw [hx2] at hmem
    exact hmem

/-- The computed `max` and `min` are the seed or an element the loop visits. -/
theorem scanRange_mem (vs : List ℚ) (dx : Int) :
    ∀ (k : Nat) (mx mn : ℚ) (r : ℚ × ℚ), scanRange vs dx k (mx, mn) = some r →
      (r.1 = mx ∨ ∃ j : Nat, j < k ∧ (vs.length : Int) - (j : Int) ≤ dx ∧ vs[j]? = some r.1) ∧
      (r.2 = mn ∨ ∃ j : Nat, j < k ∧ (vs.length : Int) - (j : Int) ≤ dx ∧ vs[j]? = some r.2) := by
  intro k
  induction k with
  | zero =>
    intro mx mn r h
    simp only [scanRange, Option.some.injEq] at h
    subst h
    exact ⟨Or.inl rfl, Or.inl rfl⟩
  | succ i ih =>
    intro mx mn r h
    simp only [scanRange] at h
    split_ifs at h with h1
    · simp only [Option.some.injEq] at h
      subst h
      exact ⟨Or.inl rfl, Or.inl rfl⟩
    · cases hv : vs[i]? with
      | none => simp [hv] at h
      | some v =>
        simp only [hv] at h
        have hw : (vs.length : Int) - (i : Int) ≤ dx := by omega
        obtain ⟨h1', h2'⟩ := ih _ _ r h
        constructor
        · rcases h1' with he | ⟨j, hj, hjw, hjv⟩
          · split_ifs at he with h2
            · exact Or.inr ⟨i, Nat.lt_succ_self i, hw, by rw [hv, he]⟩
            · exact Or.inl he
          · exact Or.inr ⟨j, Nat.lt_succ_of_lt hj, hjw, hjv⟩
        · rcases h2' with he | ⟨j, hj, hjw, hjv⟩
          · split_ifs at he with h3
            · exact Or.inr ⟨i, Nat.lt_succ_self i, hw, by rw [hv, he]⟩
            · exact Or.inl he
          · exact Or.inr ⟨j, Nat.lt_succ_of_lt hj, hjw, hjv⟩

/-- The pair computed by lines 81-93: the greatest and the least of `values[0]`
and the window of the `dx` newest values. -/
theorem recomputeRange_exact (vs : List ℚ) (dx : Int) (r : ℚ × ℚ)
    (hr : recomputeRange vs dx = some r) :
    ∃ v0, vs[0]? = some v0 ∧
      (r.1 ∈ v0 :: vs.drop (vs.length - Min.min vs.length dx.toNat) ∧
        ∀ x ∈ v0 :: vs.drop (vs.length - Min.min vs.length dx.toNat), x ≤ r.1) ∧
      (r.2 ∈ v0 :: vs.drop (vs.length - Min.min vs.length dx.toNat) ∧
        ∀ x ∈ v0 :: vs.drop (vs.length - Min.min vs.length dx.toNat), r.2 ≤ x) := by
  unfold recomputeRange at hr
  cases h0 : vs[0]? with
  | none => simp [h0] at hr
  | some v0 =>
    simp only [h0] at hr
    obtain ⟨hm1, hm2⟩ := scanRange_mem vs dx vs.length v0 v0 r hr
    refine ⟨v0, rfl, ⟨?_, ?_⟩, ⟨?_, ?_⟩⟩
    · rcases hm1 with he | ⟨j, hj, hw, hv⟩
      · rw [he]; exact List.mem_cons_self _ _
      · exact List.mem_cons_of_mem _ ((mem_window_iff vs dx r.1).mpr ⟨j, hj, hw, hv⟩)
    · intro x hx
      rcases List.mem_cons.mp hx with rfl | hx
      · exact scanRange_fst_ge vs dx vs.length _ _ r hr
      · obtain ⟨j, hj, hw, hv⟩ := (mem_window_iff vs dx x).mp hx
        exact (scanRange_bounds vs dx vs.length v0 v0 r j x hr hj hw hv).2
    · rcases hm2 with he | ⟨j, hj, hw, hv⟩
      · rw [he]; exact List.mem_cons_self _ _
      · exact List.mem_cons_of_mem _ ((mem_window_iff vs dx r.2).mpr ⟨j, hj, hw, hv⟩)
    · intro x hx
      rcases List.mem_cons.mp hx with rfl | hx
      · exact scanRange_snd_le vs dx vs.length _ _ r hr
      · obtain ⟨j, hj, hw, hv⟩ := (mem_window_iff vs dx x).mp hx
        exact (scanRange_bounds vs dx vs.length v0 v0 r j x hr hj hw hv).1

/-- The Range a successful call leaves is the one lines 81-93 compute on the
buffer right after the append. -/
theorem consumeSample_range (P : String → Except String ℚ) (s s1 : SparkLine)
    (sample : Sample) (v : ℚ) (h : P sample.Value = .ok v)
    (hc : consumeSample P s sample = some s1) :
    recomputeRange (s.values ++ [clampValue s.min s.max v]) s.Dx =
      some (s1.maxValue, s1.minValue) := by
  obtain ⟨r, hr, he⟩ := consumeSample_ok P s sample v h
  rw [he] at hc
  split_ifs at hc with h1
  · cases ht : trimOutOfRangeValues (s.values ++ [clampValue s.min s.max v]) s.Dx with
    | none => simp [ht] at hc
    | some t =>
      simp only [ht, Option.map_some', Option.some.injEq] at hc
      subst hc
      exact hr
  · simp only [Option.some.injEq] at hc
    subst hc
    exact hr

/-- C20: after a successful `consumeSample`, with `vs` the buffer right after
the append, the tracked `maxValue` (`minValue`) is the greatest (least) element
of `values[0]` together with the most recent `min(len, max(W, 0))` elements of
`vs`; hence `minValue <= maxValue`, both are elements of `vs`, and when
`len(vs) <= W` they are the greatest and the least element of the visible
window. -/
theorem range_is_extremes_of_oldest_and_window (P : String → Except String ℚ)
    (s s1 : SparkLine) (sample : Sample) (v : ℚ) (h : P sample.Value = .ok v)
    (hc : consumeSample P s sample = some s1) :
    ∃ v0, (s.values ++ [clampValue s.min s.max v])[0]? = some v0 ∧
      (s1.maxValue ∈ v0 :: (s.values ++ [clampValue s.min s.max v]).drop
          ((s.values.length + 1) - Min.min (s.values.length + 1) s.Dx.toNat) ∧
        ∀ x ∈ v0 :: (s.values ++ [clampValue s.min s.max v]).drop
          ((s.values.length + 1) - Min.min (s.values.length + 1) s.Dx.toNat), x ≤ s1.maxValue) ∧
      (s1.minValue ∈ v0 :: (s.values ++ [clampValue s.min s.max v]).drop
          ((s.values.length + 1) - Min.min (s.values.length + 1) s.Dx.toNat) ∧
        ∀ x ∈ v0 :: (s.values ++ [clampValue s.min s.max v]).drop
          ((s.values.length + 1) - Min.min (s.values.length + 1) s.Dx.toNat), s1.minValue ≤ x) ∧
      s1.minValue ≤ s1.maxValue ∧
      s1.minValue ∈ s.values ++ [clampValue s.min s.max v] ∧
      s1.maxValue ∈ s.values ++ [clampValue s.min s.max v] ∧
      (((s.values.length + 1 : Nat) : Int) ≤ s.Dx →
        (s1.maxValue ∈ s.values ++ [clampValue s.min s.max v] ∧
          ∀ x ∈ s.values ++ [clampValue s.min s.max v], x ≤ s1.maxValue) ∧
        (s1.minValue ∈ s.values ++ [clampValue s.min s.max v] ∧
          ∀ x ∈ s.values ++ [clampValue s.min s.max v], s1.minValue ≤ x) ∧
        (s.values ++ [clampValue s.min s.max v]).drop
          ((s.values.length + 1) - Min.min (s.values.length + 1) s.Dx.toNat) =
          s.values ++ [clampValue s.min s.max v]) := by
  have hr := consumeSample_range P s s1 sample v h hc
  obtain ⟨v0, hv0, ⟨hM1, hM2⟩, ⟨hm1, hm2⟩⟩ := recomputeRange_exact _ _ _ hr
  have hlen : (s.values ++ [clampValue s.min s.max v]).length = s.values.length + 1 := by
    simp
  rw [hlen] at hM1 hM2 hm1 hm2
  simp only at hM1 hM2 hm1 hm2
  have hv0mem : v0 ∈ s.values ++ [clampValue s.min s.max v] := List.getElem?_mem hv0
  have hsub : ∀ x, x ∈ v0 :: (s.values ++ [clampValue s.min s.max v]).drop
      ((s.values.length + 1) - Min.min (s.values.length + 1) s.Dx.toNat) →
      x ∈ s.values ++ [clampValue s.min s.max v] := by
    intro x hx
    rcases List.mem_cons.mp hx with rfl | hx
    · exact hv0mem
    · exact List.mem_of_mem_drop hx
  refine ⟨v0, hv0, ⟨hM1, hM2⟩, ⟨hm1, hm2⟩, ?_, hsub _ hm1, hsub _ hM1, ?_⟩
  · exact le_trans (hm2 v0 (List.mem_cons_self _ _)) (hM2 v0 (List.mem_cons_self _ _))
  · intro hw
    have hzero : (s.values.length + 1) - Min.min (s.values.length + 1) s.Dx.toNat = 0 := by
      omega
    rw [hzero, List.drop_zero] at hM2 hm2
    rw [hzero, List.drop_zero]
    exact ⟨⟨hsub _ hM1, fun x hx => hM2 x (List.mem_cons_of_mem _ hx)⟩,
      ⟨hsub _ hm1, fun x hx => hm2 x (List.mem_cons_of_mem _ hx)⟩, rfl⟩

theorem range_is_extremes_of_oldest_and_window_witness :
    ∃ s1, consumeSample ParseFloat
        { NewSparkLine ⟨⟨⟨0, 0⟩, ⟨2, 4⟩⟩, ⟨⟨1, 1⟩, ⟨1, 3⟩⟩⟩ 0 [] none none with
          values := [9, 1, 2], maxValue := 9, minValue := 1 } ⟨"cpu", "3"⟩ = some s1 ∧
      s1.maxValue ∈ [(9 : ℚ), 2, 3] ∧ (∀ x ∈ [(9 : ℚ), 2, 3], x ≤ s1.maxValue) ∧
      s1.minValue ∈ [(9 : ℚ), 2, 3] ∧ (∀ x ∈ [(9 : ℚ), 2, 3], s1.minValue ≤ x) ∧
      s1.minValue ≤ s1.maxValue := by
  obtain ⟨s1, hs1⟩ : ∃ s1, consumeSample ParseFloat
      { NewSparkLine ⟨⟨⟨0, 0⟩, ⟨2, 4⟩⟩, ⟨⟨1, 1⟩, ⟨1, 3⟩⟩⟩ 0 [] none none with
        values := [9, 1, 2], maxValue := 9, minValue := 1 } ⟨"cpu", "3"⟩ = some s1 := ⟨_, rfl⟩
  obtain ⟨v0, hv0, ⟨hM1, hM2⟩, ⟨hm1, hm2⟩, hle, -⟩ :=
    range_is_extremes_of_oldest_and_window ParseFloat _ s1 ⟨"cpu", "3"⟩ 3 rfl hs1
  have e0 : v0 = 9 := by
    have : some (9 : ℚ) = some v0 := hv0
    exact (Option.some.inj this).symm
  subst e0
  exact ⟨s1, hs1, hM1, hM2, hm1, hm2, hle⟩

/-! ## Rendering: the columns -/

theorem drawColumn_columnWrites {R : Type} (A : Arith R) (F : ℚ → Int → String)
    (G : List Nat → Int → Int → Nat)
    (s : SparkLine) (i : Nat) (hi : i < s.values.length) :
    drawColumn A F G s i = some (columnWrites A F G s i) := by
  unfold columnWrites
  rw [drawColumn_eq A F G s i _ (List.getElem?_eq_getElem hi)]
  rfl

/-- The loop of `Draw` started at the index `k - 1` writes the columns of the
indices `k - 1`, `k - 2`, ... down to the first index that fails the `break`
test. -/
theorem drawLoop_eq {R : Type} (A : Arith R) (F : ℚ → Int → String)
    (G : List Nat → Int → Int → Nat)
    (s : SparkLine) : ∀ k : Nat, k ≤ s.values.length →
      drawLoop A F G s k = some ((List.range (k - (s.values.length - renderedCount F s))).flatMap
        (fun j => columnWrites A F G s (k - 1 - j))) := by
  intro k
  induction k with
  | zero => intro _; simp [drawLoop]
  | succ i ih =>
    intro hk
    have hi : i < s.values.length := hk
    simp only [drawLoop]
    split_ifs with hb
    · have hz : i + 1 - (s.values.length - renderedCount F s) = 0 := by
        unfold renderedCount
        omega
      rw [hz]
      rfl
    · have hs : i + 1 - (s.values.length - renderedCount F s) =
          (i - (s.values.length - renderedCount F s)) + 1 := by
        unfold renderedCount
        omega
      rw [drawColumn_columnWrites A F G s i hi, ih (le_of_lt hi), hs, List.range_succ_eq_map,
        List.flatMap_cons, List.flatMap_map]
      simp only [Option.some.injEq]
      congr 1
      apply List.flatMap_congr
      intro j _
      congr 1
      omega

/-- The writes of `Draw`: the columns of the `renderedCount` newest elements,
newest first, then the two delegations. -/
theorem Draw_eq {R : Type} (A : Arith R) (F : ℚ → Int → String)
    (G : List Nat → Int → Int → Nat) (s : SparkLine) :
    Draw A F G s = some ((List.range (renderedCount F s)).flatMap
        (fun j => columnWrites A F G s (s.values.length - 1 - j)) ++
      [DrawOp.BlockDraw, DrawOp.RenderAlert]) := by
  have h := drawLoop_eq A F G s s.values.length (le_refl _)
  have hc : s.values.length - (s.values.length - renderedCount F s) = renderedCount F s := by
    unfold renderedCount
    omega
  rw [hc] at h
  simp only [Draw, h]

/-- The writes of the loop body for an index inside the buffer: the bar cells of
the rows `0` to `top`, then, for the newest element only, the labels. -/
theorem columnWrites_eq {R : Type} (A : Arith R) (F : ℚ → Int → String)
    (G : List Nat → Int → Int → Nat)
    (s : SparkLine) (i : Nat) (v : ℚ) (hv : s.values[i]? = some v) :
    columnWrites A F G s i =
      (List.range (topOf A s v + 1).toNat).map (fun (j : Nat) =>
        DrawOp.SetCell (G s.gradient (j : Int) (s.Dy - 2))
          ⟨s.Block.Inner.Max.X - ((s.values.length : Int) - (i : Int)) - indent F s,
            s.Block.Inner.Max.Y - (j : Int) - 1⟩) ++
      (if (i : Int) = (s.values.length : Int) - 1 then
        DrawOp.SetString (curLabel F s)
            ⟨s.Block.Inner.Max.X - ((s.values.length : Int) - (i : Int)) - indent F s + 2,
              s.Block.Inner.Max.Y - topOf A s v - 1⟩ ::
          (if s.max.getD s.maxValue ≠ s.min.getD s.minValue then
            [DrawOp.SetString (minLabel F s)
                ⟨s.Block.Inner.Max.X - ((s.values.length : Int) - (i : Int)) - indent F s + 2,
                  s.Block.Rectangle.Max.Y - 2⟩,
             DrawOp.SetString (maxLabel F s)
                ⟨s.Block.Inner.Max.X - ((s.values.length : Int) - (i : Int)) - indent F s + 2,
                  s.Block.Rectangle.Min.Y + 1⟩]
          else [])
      else []) := by
  unfold columnWrites
  rw [drawColumn_eq A F G s i v hv, effectiveMin_eq, effectiveMax_eq]
  rfl

/-- The bar cells among the writes of one loop body. -/
theorem mem_columnWrites_setCell {R : Type} (A : Arith R) (F : ℚ → Int → String)
    (G : List Nat → Int → Int → Nat)
    (s : SparkLine) (i : Nat) (v : ℚ) (hv : s.values[i]? = some v) (c : Nat) (x y : Int) :
    DrawOp.SetCell c ⟨x, y⟩ ∈ columnWrites A F G s i ↔
      x = s.Block.Inner.Max.X - ((s.values.length : Int) - (i : Int)) - indent F s ∧
      ∃ j : Int, 0 ≤ j ∧ j ≤ topOf A s v ∧ c = G s.gradient j (s.Dy - 2) ∧
        y = s.Block.Inner.Max.Y - j - 1 := by
  rw [columnWrites_eq A F G s i v hv, List.mem_append]
  constructor
  · rintro (hbar | hlab)
    · obtain ⟨j, hj, hjeq⟩ := List.mem_map.mp hbar
      simp only [DrawOp.SetCell.injEq, Point.mk.injEq] at hjeq
      obtain ⟨hce, hxe, hye⟩ := hjeq
      rw [List.mem_range] at hj
      exact ⟨hxe.symm, (j : Int), Int.natCast_nonneg j, by omega, hce.symm, hye.symm⟩
    · split_ifs at hlab <;> simp at hlab
  · rintro ⟨hx, j, hj0, hjt, hc, hy⟩
    refine Or.inl (List.mem_map.mpr ⟨j.toNat, ?_, ?_⟩)
    · rw [List.mem_range]; omega
    · rw [hc, hy, hx, Int.toNat_of_nonneg hj0]

/-- The writes of `Draw` are those of the loop bodies of the elements that pass
the `break` test, and the two delegations. -/
theorem mem_Draw_iff {R : Type} (A : Arith R) (F : ℚ → Int → String)
    (G : List Nat → Int → Int → Nat)
    (s : SparkLine) (ops : List DrawOp) (hd : Draw A F G s = some ops) (op : DrawOp) :
    op ∈ ops ↔
      (∃ i : Nat, i < s.values.length ∧
        (s.values.length : Int) - (i : Int) ≤ s.Dx - indent F s - 3 ∧
        op ∈ columnWrites A F G s i) ∨ op = DrawOp.BlockDraw ∨ op = DrawOp.RenderAlert := by
  rw [Draw_eq A F G s] at hd
  simp only [Option.some.injEq] at hd
  subst hd
  rw [List.mem_append, List.mem_flatMap]
  constructor
  · rintro (⟨j, hj, hmem⟩ | htail)
    · rw [List.mem_range] at hj
      unfold renderedCount at hj
      exact Or.inl ⟨s.values.length - 1 - j, by omega, by omega, hmem⟩
    · simp only [List.mem_cons, List.mem_singleton, List.not_mem_nil, or_false] at htail
      exact Or.inr htail
  · rintro (⟨i, hi, hw, hmem⟩ | htail)
    · refine Or.inl ⟨s.values.length - 1 - i, ?_, ?_⟩
      · rw [List.mem_range]
        unfold renderedCount
        omega
      · have hidx : s.values.length - 1 - (s.values.length - 1 - i) = i := by omega
        rw [hidx]
        exact hmem
    · right
      simp only [List.mem_cons, List.mem_singleton, List.not_mem_nil, or_false]
      exact htail

/-- The bar cells `Draw` writes in the column of the `k`-th newest element. -/
theorem mem_Draw_setCell_kth {R : Type} (A : Arith R) (F : ℚ → Int → String)
    (G : List Nat → Int → Int → Nat)
    (s : SparkLine) (ops : List DrawOp) (hd : Draw A F G s = some ops) (k c : Nat) (y : Int)
    (hk : 1 ≤ k) :
    DrawOp.SetCell c ⟨s.Block.Inner.Max.X - (k : Int) - indent F s, y⟩ ∈ ops ↔
      k ≤ s.values.length ∧ (k : Int) ≤ s.Dx - indent F s - 3 ∧
      ∃ v, s.values[s.values.length - k]? = some v ∧
        ∃ j : Int, 0 ≤ j ∧ j ≤ topOf A s v ∧ c = G s.gradient j (s.Dy - 2) ∧
          y = s.Block.Inner.Max.Y - j - 1 := by
  rw [mem_Draw_iff A F G s _ hd]
  constructor
  · rintro (⟨i, hi, hw, hmem⟩ | h | h)
    · obtain ⟨hx, hj⟩ := (mem_columnWrites_setCell A F G s i _
        (List.getElem?_eq_getElem hi) c _ y).mp hmem
      have hik : s.values.length - k = i := by omega
      refine ⟨by omega, by omega, s.values[i], ?_, hj⟩
      rw [hik]
      exact List.getElem?_eq_getElem hi
    · cases h
    · cases h
  · rintro ⟨hk1, hk2, v, hv, hj⟩
    refine Or.inl ⟨s.values.length - k, by omega, by omega, ?_⟩
    refine (mem_columnWrites_setCell A F G s _ v hv c _ y).mpr ⟨?_, hj⟩
    have : ((s.values.length - k : Nat) : Int) = (s.values.length : Int) - (k : Int) := by
      omega
    rw [this]
    ring

/-- C17, as amended: for every buffer, pane width `W` and indent, `Draw`
returns and its writes are the loop bodies of the `k`-th newest elements,
`k = 1, 2, ...`, for exactly the `k` with `k <= len(buffer)` and
`k <= W - indent - 3`, that is `min(len(buffer), max(0, W - indent - 3))` loop
bodies. The bar cells of the `k`-th newest element are written in the column
`k + indent` to the left of the inner right edge, in the rows `0` to its `top`:
the element gets a bar cell if and only if its loop body runs and its `top` is
not negative. No other bar cell is written, and distinct elements get distinct
columns. -/
theorem Draw_renders_newest_columns (ι : F64 → Int) (F : ℚ → Int → String)
    (G : List Nat → Int → Int → Nat) (s : SparkLine) :
    ∃ ops, Draw (float64 ι) F G s = some ops ∧
      ops = (List.range (renderedCount F s)).flatMap
          (fun j => columnWrites (float64 ι) F G s (s.values.length - 1 - j)) ++
        [DrawOp.BlockDraw, DrawOp.RenderAlert] ∧
      (∀ k : Nat, 1 ≤ k → (k ≤ renderedCount F s ↔
        k ≤ s.values.length ∧ (k : Int) ≤ s.Dx - indent F s - 3)) ∧
      (∀ (k c : Nat) (y : Int), 1 ≤ k →
        (DrawOp.SetCell c ⟨s.Block.Inner.Max.X - (k : Int) - indent F s, y⟩ ∈ ops ↔
          k ≤ s.values.length ∧ (k : Int) ≤ s.Dx - indent F s - 3 ∧
          ∃ v, s.values[s.values.length - k]? = some v ∧
            ∃ j : Int, 0 ≤ j ∧ j ≤ specTop64 ι s v ∧ c = G s.gradient j (s.Dy - 2) ∧
              y = s.Block.Inner.Max.Y - j - 1)) ∧
      (∀ k : Nat, 1 ≤ k →
        ((∃ (c : Nat) (y : Int),
            DrawOp.SetCell c ⟨s.Block.Inner.Max.X - (k : Int) - indent F s, y⟩ ∈ ops) ↔
          k ≤ s.values.length ∧ (k : Int) ≤ s.Dx - indent F s - 3 ∧
          ∃ v, s.values[s.values.length - k]? = some v ∧ 0 ≤ specTop64 ι s v)) ∧
      (∀ (c : Nat) (x y : Int), DrawOp.SetCell c ⟨x, y⟩ ∈ ops →
        ∃ k : Nat, 1 ≤ k ∧ k ≤ renderedCount F s ∧
          x = s.Block.Inner.Max.X - (k : Int) - indent F s) ∧
      (∀ k1 k2 : Nat, k1 ≠ k2 →
        s.Block.Inner.Max.X - (k1 : Int) - indent F s ≠
          s.Block.Inner.Max.X - (k2 : Int) - indent F s) := by
  have hd := Draw_eq (float64 ι) F G s
  have hcell : ∀ (k c : Nat) (y : Int), 1 ≤ k →
      (DrawOp.SetCell c ⟨s.Block.Inner.Max.X - (k : Int) - indent F s, y⟩ ∈
          (List.range (renderedCount F s)).flatMap
            (fun j => columnWrites (float64 ι) F G s (s.values.length - 1 - j)) ++
          [DrawOp.BlockDraw, DrawOp.RenderAlert] ↔
        k ≤ s.values.length ∧ (k : Int) ≤ s.Dx - indent F s - 3 ∧
        ∃ v, s.values[s.values.length - k]? = some v ∧
          ∃ j : Int, 0 ≤ j ∧ j ≤ specTop64 ι s v ∧ c = G s.gradient j (s.Dy - 2) ∧
            y = s.Block.Inner.Max.Y - j - 1) := by
    intro k c y hk
    have h := mem_Draw_setCell_kth (float64 ι) F G s _ hd k c y hk
    simp only [topOf_float64] at h
    exact h
  refine ⟨_, hd, rfl, ?_, hcell, ?_, ?_, ?_⟩
  · intro k hk
    unfold renderedCount
    omega
  · intro k hk
    constructor
    · rintro ⟨c, y, hmem⟩
      obtain ⟨h1, h2, v, hv, j, hj0, hjt, -, -⟩ := (hcell k c y hk).mp hmem
      exact ⟨h1, h2, v, hv, le_trans hj0 hjt⟩
    · rintro ⟨h1, h2, v, hv, ht⟩
      exact ⟨G s.gradient 0 (s.Dy - 2), s.Block.Inner.Max.Y - 0 - 1,
        (hcell k _ _ hk).mpr ⟨h1, h2, v, hv, 0, le_refl 0, ht, rfl, rfl⟩⟩
  · intro c x y hmem
    rcases (mem_Draw_iff (float64 ι) F G s _ hd _).mp hmem with ⟨i, hi, hw, hmem2⟩ | h | h
    · obtain ⟨hx, -⟩ := (mem_columnWrites_setCell (float64 ι) F G s i _
        (List.getElem?_eq_getElem hi) c x y).mp hmem2
      refine ⟨s.values.length - i, by omega, ?_, ?_⟩
      · unfold renderedCount
        omega
      · rw [hx]
        have : ((s.values.length - i : Nat) : Int) = (s.values.length : Int) - (i : Int) := by
          omega
        rw [this]
    · cases h
    · cases h
  · intro k1 k2 hne heq
    apply hne
    omega

/-- C17, the claim as stated fails: in a pane of width 20 and height 1
(`H = -1`) with the samples 1, 2, 4, the three elements satisfy
`k <= len(buffer)` and `k <= W - indent - 3 = 14`, so the loop body runs for
each of them, but the newest element (value 4) has `top = -1` and gets no bar
cell: the bar cells of `Draw` are the two cells of the values 2 and 1 (`top = 0`
for both), in two columns and not in three. -/
theorem Draw_loop_body_without_bar :
    ∃ s1, consumeAll ParseFloat
        (NewSparkLine ⟨⟨⟨0, 0⟩, ⟨20, 1⟩⟩, ⟨⟨1, 0⟩, ⟨19, 1⟩⟩⟩ 0 [] none none)
        [⟨"", "1"⟩, ⟨"", "2"⟩, ⟨"", "4"⟩] = some s1 ∧
      s1.values = [1, 2, 4] ∧ s1.Dx = 20 ∧ s1.Dy - 2 = -1 ∧
      indent FormatValue s1 = 3 ∧ renderedCount FormatValue s1 = 3 ∧
      ∀ (ι : F64 → Int) (G : List Nat → Int → Int → Nat),
        specTop64 ι s1 4 = -1 ∧ specTop64 ι s1 2 = 0 ∧ specTop64 ι s1 1 = 0 ∧
        ∃ ops, Draw (float64 ι) FormatValue G s1 = some ops ∧
          (∀ (c : Nat) (y : Int), DrawOp.SetCell c ⟨19 - 1 - 3, y⟩ ∉ ops) ∧
          (∀ (c : Nat) (x y : Int), DrawOp.SetCell c ⟨x, y⟩ ∈ ops ↔
            (x = 19 - 2 - 3 ∨ x = 19 - 3 - 3) ∧ c = G [] 0 (-1) ∧ y = 1 - 0 - 1) := by
  set X : SparkLine :=
    { NewSparkLine ⟨⟨⟨0, 0⟩, ⟨20, 1⟩⟩, ⟨⟨1, 0⟩, ⟨19, 1⟩⟩⟩ 0 [] none none with
      hooks := [HookCall.HandleConsumeSuccess, HookCall.HandleConsumeSuccess,
        HookCall.HandleConsumeSuccess],
      values := [1, 2, 4],
      maxValue := 4,
      minValue := 1 }
    with hX
  have hrun : consumeAll ParseFloat
      (NewSparkLine ⟨⟨⟨0, 0⟩, ⟨20, 1⟩⟩, ⟨⟨1, 0⟩, ⟨19, 1⟩⟩⟩ 0 [] none none)
      [⟨"", "1"⟩, ⟨"", "2"⟩, ⟨"", "4"⟩] = some X := rfl
  have hind : indent FormatValue X = 3 := by decide
  have hne : X.max.getD X.maxValue ≠ X.min.getD X.minValue := by
    show (4 : ℚ) ≠ 1
    norm_num
  have htop4 : ∀ ι, specTop64 ι X 4 = -1 := by
    intro ι
    exact specTop64_int ι X 4 3 (-1) 3 (-1) hne
      (by show (4 : ℚ) - 1 = ((3 : Int) : ℚ); norm_num) (by rfl)
      (by show (4 : ℚ) - 1 = ((3 : Int) : ℚ); norm_num) (by decide)
      (by decide) (by decide) (by decide) (by decide) (by decide)
  have htop1 : ∀ ι, specTop64 ι X 1 = 0 := by
    intro ι
    exact specTop64_int ι X 1 0 (-1) 3 0 hne
      (by show (1 : ℚ) - 1 = ((0 : Int) : ℚ); norm_num) (by rfl)
      (by show (4 : ℚ) - 1 = ((3 : Int) : ℚ); norm_num) (by decide)
      (by decide) (by decide) (by decide) (by decide) (by decide)
  have htop2 : ∀ ι, specTop64 ι X 2 = 0 := by
    intro ι
    rw [specTop64_eq ι X _ hne]
    show F64.toInt ι (F64.div (F64.mul (round64 ((2 : ℚ) - 1)) (round64 ((-1 : Int) : ℚ)))
      (round64 ((4 : ℚ) - 1))) = 0
    have e1 : (2 : ℚ) - 1 = ((1 : Int) : ℚ) := by norm_num
    have e3 : (4 : ℚ) - 1 = ((3 : Int) : ℚ) := by norm_num
    rw [e1, e3, round64_intCast 1 (by decide), round64_intCast (-1) (by decide),
      round64_intCast 3 (by decide)]
    have hmul : F64.mul (F64.fin ((1 : Int) : ℚ)) (F64.fin ((-1 : Int) : ℚ)) =
        round64 ((-1 : Int) : ℚ) := by
      simp [F64.mul]
    rw [hmul, round64_intCast (-1) (by decide)]
    have hdiv : F64.div (F64.fin ((-1 : Int) : ℚ)) (F64.fin ((3 : Int) : ℚ)) =
        round64 (-1 / 3) := by
      have h3 : ((3 : Int) : ℚ) ≠ 0 := by norm_num
      simp only [F64.div, if_neg h3]
      norm_num
    have htr : truncate (-6004799503160661 / 18014398509481984) = 0 := by
      unfold truncate
      rw [if_neg (by norm_num), Int.ceil_eq_iff]
      constructor <;> norm_num
    rw [hdiv, round64_neg_third, toInt_fin ι _ (by rw [htr]; decide) (by rw [htr]; decide), htr]
  refine ⟨X, hrun, rfl, rfl, rfl, hind, by decide, ?_⟩
  intro ι G
  have hd := Draw_eq (float64 ι) FormatValue G X
  have hnewest : ∀ (c : Nat) (y : Int),
      DrawOp.SetCell c ⟨19 - 1 - 3, y⟩ ∉
        (List.range (renderedCount FormatValue X)).flatMap
          (fun j => columnWrites (float64 ι) FormatValue G X (X.values.length - 1 - j)) ++
        [DrawOp.BlockDraw, DrawOp.RenderAlert] := by
    intro c y hmem
    have h := (mem_Draw_setCell_kth (float64 ι) FormatValue G X _ hd 1 c y (le_refl 1)).mp
      (by rw [hind]; exact hmem)
    obtain ⟨-, -, v, hv, j, hj0, hjt, -, -⟩ := h
    have e : v = 4 := by
      have : some (4 : ℚ) = some v := hv
      exact (Option.some.inj this).symm
    subst e
    rw [topOf_float64, htop4] at hjt
    omega
  refine ⟨htop4 ι, htop2 ι, htop1 ι, _, hd, hnewest, ?_⟩
  intro c x y
  constructor
  · intro hmem
    rcases (mem_Draw_iff (float64 ι) FormatValue G X _ hd _).mp hmem with
      ⟨i, hi, -, hmem2⟩ | h | h
    · have hlen : X.values.length = 3 := rfl
      rcases (show i = 0 ∨ i = 1 ∨ i = 2 by omega) with rfl | rfl | rfl
      · obtain ⟨hx, j, hj0, hjt, hc, hy⟩ :=
          (mem_columnWrites_setCell (float64 ι) FormatValue G X 0 1 rfl c x y).mp hmem2
        rw [topOf_float64, htop1] at hjt
        have hj : j = 0 := by omega
        subst hj
        rw [hind] at hx
        exact ⟨Or.inr hx, hc, hy⟩
      · obtain ⟨hx, j, hj0, hjt, hc, hy⟩ :=
          (mem_columnWrites_setCell (float64 ι) FormatValue G X 1 2 rfl c x y).mp hmem2
        rw [topOf_float64, htop2] at hjt
        have hj : j = 0 := by omega
        subst hj
        rw [hind] at hx
        exact ⟨Or.inl hx, hc, hy⟩
      · obtain ⟨-, j, hj0, hjt, -, -⟩ :=
          (mem_columnWrites_setCell (float64 ι) FormatValue G X 2 4 rfl c x y).mp hmem2
        rw [topOf_float64, htop4] at hjt
        omega
    · cases h
    · cases h
  · rintro ⟨hx, hc, hy⟩
    rcases hx with hx | hx
    · have h := (mem_Draw_setCell_kth (float64 ι) FormatValue G X _ hd 2 c y (by decide)).mpr
        ⟨by decide, by rw [hind]; decide, 2, rfl, 0, le_refl 0,
          by rw [topOf_float64, htop2], hc, hy⟩
      rw [hind] at h
      rw [hx]
      exact h
    · have h := (mem_Draw_setCell_kth (float64 ι) FormatValue G X _ hd 3 c y (by decide)).mpr
        ⟨by decide, by rw [hind]; decide, 1, rfl, 0, le_refl 0,
          by rw [topOf_float64, htop1], hc, hy⟩
      rw [hind] at h
      rw [hx]
      exact h

/-! ## Rendering: the labels -/

/-- C13, as amended: when the buffer is empty, `Draw` writes no bar cell and no
label; its only writes are the delegations to the block and to the alert
renderer. The formatted zero value is computed as the current-value label but
is not written. The arithmetic of line 155 plays no part: this holds in
`float64` and in every other arithmetic. -/
theorem Draw_empty_buffer {R : Type} (A : Arith R) (F : ℚ → Int → String)
    (G : List Nat → Int → Int → Nat) (s : SparkLine) (h : s.values = []) :
    Draw A F G s = some [DrawOp.BlockDraw, DrawOp.RenderAlert] ∧
    curLabel F s = F 0 s.scale ∧
    (∃ ops, Draw A F G s = some ops ∧ ops.filter DrawOp.isCell = [] ∧
      ops.filter DrawOp.isLabel = []) := by
  have hd : Draw A F G s = some [DrawOp.BlockDraw, DrawOp.RenderAlert] := by
    simp [Draw, drawLoop, h]
  refine ⟨hd, ?_, _, hd, rfl, rfl⟩
  simp [curLabel, h]

theorem Draw_empty_buffer_witness :
    (NewSparkLine ⟨⟨⟨0, 0⟩, ⟨20, 12⟩⟩, ⟨⟨1, 1⟩, ⟨19, 11⟩⟩⟩ 0 [] none none).values = [] ∧
    Draw (float64 amd64Int) FormatValue (fun _ _ _ => 0)
      (NewSparkLine ⟨⟨⟨0, 0⟩, ⟨20, 12⟩⟩, ⟨⟨1, 1⟩, ⟨19, 11⟩⟩⟩ 0 [] none none) =
      some [DrawOp.BlockDraw, DrawOp.RenderAlert] :=
  ⟨rfl, (Draw_empty_buffer (float64 amd64Int) FormatValue (fun _ _ _ => 0)
    (NewSparkLine ⟨⟨⟨0, 0⟩, ⟨20, 12⟩⟩, ⟨⟨1, 1⟩, ⟨19, 11⟩⟩⟩ 0 [] none none) rfl).1⟩

/-- C13, the claim as stated fails: on the empty buffer of a 20 by 12 pane
`Draw` writes no label at all, so not exactly one; the formatted zero value
`"0"` is not among its writes. -/
theorem Draw_empty_buffer_writes_no_label :
    ∃ ops, Draw (float64 amd64Int) FormatValue (fun _ _ _ => 0)
        (NewSparkLine ⟨⟨⟨0, 0⟩, ⟨20, 12⟩⟩, ⟨⟨1, 1⟩, ⟨19, 11⟩⟩⟩ 0 [] none none) = some ops ∧
      FormatValue 0 0 = "0" ∧
      (ops.filter DrawOp.isLabel).length = 0 ∧
      ¬ (ops.filter DrawOp.isLabel).length = 1 ∧
      ∀ p, DrawOp.SetString "0" p ∉ ops := by
  refine ⟨[DrawOp.BlockDraw, DrawOp.RenderAlert], rfl, by decide, by decide, by decide, ?_⟩
  intro p hp
  simp at hp

/-! ## Totality -/

/-- C15, as amended: `trimOutOfRangeValues` returns for every buffer and every
`maxSize >= 0`; the range recomputation of lines 81-93 returns for every
non-empty buffer (the buffer is never empty after the append of line 80) and
every integer width; `consumeSample` returns for every pane width `>= 0`; and
`Draw` returns for every buffer, every pane width and every pane height: no
index or slice is out of range and no division by zero takes place. For `Draw`
and for the bar height of lines 152-156 this holds in `float64`, where a
division by zero is no error, and in the arithmetic of the numbers themselves,
where a division by zero has no result: the divisor is the difference of two
different numbers. -/
theorem total_for_nonnegative_width :
    (∀ (xs : List ℚ) (maxSize : Int), 0 ≤ maxSize →
      ∃ t, trimOutOfRangeValues xs maxSize = some t) ∧
    (∀ (vs : List ℚ) (dx : Int), vs ≠ [] → ∃ r, recomputeRange vs dx = some r) ∧
    (∀ (P : String → Except String ℚ) (s : SparkLine) (x : Sample) (v : ℚ),
      P x.Value = .ok v →
      ∃ r, recomputeRange (s.values ++ [clampValue s.min s.max v]) s.Dx = some r) ∧
    (∀ (P : String → Except String ℚ) (s : SparkLine) (x : Sample), 0 ≤ s.Dx →
      ∃ s1, consumeSample P s x = some s1) ∧
    (∀ (R : Type) (A : Arith R) (F : ℚ → Int → String) (G : List Nat → Int → Int → Nat)
      (s : SparkLine), ∃ ops, Draw A F G s = some ops) ∧
    (∀ (R : Type) (A : Arith R) (mn mx : ℚ) (height : Int) (v : ℚ),
      ∃ top, barTop A mn mx height v = some top) := by
  refine ⟨?_, ?_, ?_, ?_, ?_, ?_⟩
  · intro xs maxSize h
    exact ⟨_, trimOutOfRangeValues_nonneg xs maxSize h⟩
  · intro vs dx h
    exact recomputeRange_returns vs dx h
  · intro P s x v _
    exact recomputeRange_returns _ _ (by simp)
  · intro P s x h
    exact consumeSample_returns P s x h
  · intro R A F G s
    exact ⟨_, Draw_eq A F G s⟩
  · intro R A mn mx height v
    exact barTop_returns A mn mx height v

/-- C15, the claim as stated fails: for the buffer `[1, 2, 3]` and
`maxSize = -1` the slice of `trimOutOfRangeValues` is out of range, and so is
the trim inside a `consumeSample` that brings the buffer of a pane of width
`-1` to 100 values. -/
theorem trim_negative_maxSize_fails :
    trimOutOfRangeValues [1, 2, 3] (-1) = none ∧
    consumeSample ParseFloat
      { NewSparkLine ⟨⟨⟨0, 0⟩, ⟨-1, 4⟩⟩, ⟨⟨1, 1⟩, ⟨-2, 3⟩⟩⟩ 0 [] none none with
        values := List.replicate 99 1, maxValue := 1, minValue := 1 } ⟨"", "1"⟩ = none := by
  constructor
  · decide
  · rfl

/-! ## The scenario 1, 2, 3, 100 -/

/-- The indent reserves at least the two columns of the pad. -/
theorem indent_ge_two (F : ℚ → Int → String) (s : SparkLine) : 2 ≤ indent F s := by
  have h1 : (0 : Int) ≤ ((minLabel F s).utf8ByteSize : Int) := Int.natCast_nonneg _
  simp only [indent, utilMax, List.foldl, List.headD]
  omega

/-- A successful call that does not reach a multiple of 100: the state it
leaves. -/
theorem consumeSample_ok_no_trim_range (P : String → Except String ℚ) (s : SparkLine)
    (sample : Sample) (v : ℚ) (h : P sample.Value = .ok v)
    (hmod : (s.values.length + 1) % 100 ≠ 0) :
    ∃ s1, consumeSample P s sample = some s1 ∧
      s1.values = s.values ++ [clampValue s.min s.max v] ∧
      s1.min = s.min ∧ s1.max = s.max ∧ s1.Block = s.Block ∧
      recomputeRange (s.values ++ [clampValue s.min s.max v]) s.Dx =
        some (s1.maxValue, s1.minValue) := by
  obtain ⟨s1, hc, hv, hmn, hmx⟩ := consumeSample_ok_no_trim P s sample v h hmod
  exact ⟨s1, hc, hv, hmn, hmx, (consumeSample_some P s s1 sample hc).1,
    consumeSample_range P s s1 sample v h hc⟩

/-- The run of the scenario: the buffer and the Range after the four samples. -/
theorem scenario_run (b : Sparkline.Block) (scale : Int) (g : List Nat)
    (hW : 1 ≤ b.Rectangle.Dx) :
    ∃ s1, consumeAll ParseFloat (NewSparkLine b scale g none none)
        [⟨"", "1"⟩, ⟨"", "2"⟩, ⟨"", "3"⟩, ⟨"", "100"⟩] = some s1 ∧
      s1.values = [1, 2, 3, 100] ∧ s1.minValue = 1 ∧ s1.maxValue = 100 ∧
      s1.min = none ∧ s1.max = none ∧ s1.Block = b := by
  obtain ⟨s1, h1, v1, m1, M1, b1, -⟩ := consumeSample_ok_no_trim_range ParseFloat
    (NewSparkLine b scale g none none) ⟨"", "1"⟩ 1 rfl (by simp [NewSparkLine])
  obtain ⟨s2, h2, v2, m2, M2, b2, -⟩ := consumeSample_ok_no_trim_range ParseFloat s1
    ⟨"", "2"⟩ 2 rfl (by rw [v1]; simp [NewSparkLine])
  obtain ⟨s3, h3, v3, m3, M3, b3, -⟩ := consumeSample_ok_no_trim_range ParseFloat s2
    ⟨"", "3"⟩ 3 rfl (by rw [v2, v1]; simp [NewSparkLine])
  obtain ⟨s4, h4, v4, m4, M4, b4, r4⟩ := consumeSample_ok_no_trim_range ParseFloat s3
    ⟨"", "100"⟩ 100 rfl (by rw [v3, v2, v1]; simp [NewSparkLine])
  have hmn3 : s3.min = none := by rw [m3, m2, m1]; rfl
  have hmx3 : s3.max = none := by rw [M3, M2, M1]; rfl
  have hb3 : s3.Block = b := by rw [b3, b2, b1]; rfl
  have hvals3 : s3.values = [1, 2, 3] := by
    rw [v3, v2, v1, m2, M2, m1, M1]
    rfl
  have hvs : s3.values ++ [clampValue s3.min s3.max 100] = [1, 2, 3, 100] := by
    rw [hvals3, hmn3, hmx3]
    rfl
  have hdx : s3.Dx = b.Rectangle.Dx := by simp [SparkLine.Dx, hb3]
  rw [hvs, hdx] at r4
  obtain ⟨v0, hv0, ⟨hM1, hM2⟩, ⟨hm1, hm2⟩⟩ := recomputeRange_exact _ _ _ r4
  have e0 : v0 = 1 := by
    have : some (1 : ℚ) = some v0 := hv0
    exact (Option.some.inj this).symm
  subst e0
  simp only at hM1 hM2 hm1 hm2
  have hnew : (100 : ℚ) ∈ List.drop ([(1 : ℚ), 2, 3, 100].length -
      Min.min [(1 : ℚ), 2, 3, 100].length b.Rectangle.Dx.toNat) [1, 2, 3, 100] :=
    (mem_window_iff _ _ _).mpr ⟨3, by decide, by simp; omega, rfl⟩
  have hin : ∀ x, x ∈ (1 : ℚ) :: List.drop ([(1 : ℚ), 2, 3, 100].length -
      Min.min [(1 : ℚ), 2, 3, 100].length b.Rectangle.Dx.toNat) [1, 2, 3, 100] →
      x = 1 ∨ x = 2 ∨ x = 3 ∨ x = 100 := by
    intro x hx
    rcases List.mem_cons.mp hx with rfl | hx
    · exact Or.inl rfl
    · have := List.mem_of_mem_drop hx
      simpa using this
  have hmax : s4.maxValue = 100 := by
    have hge : (100 : ℚ) ≤ s4.maxValue := hM2 100 (List.mem_cons_of_mem _ hnew)
    rcases hin _ hM1 with e | e | e | e <;> rw [e] at hge ⊢ <;> norm_num at hge ⊢
  have hmin : s4.minValue = 1 := by
    have hle : s4.minValue ≤ 1 := hm2 1 (List.mem_cons_self _ _)
    rcases hin _ hm1 with e | e | e | e <;> rw [e] at hle ⊢ <;> norm_num at hle ⊢
  refine ⟨s4, by simp [consumeAll, h1, h2, h3, h4], ?_, hmin, hmax, ?_, ?_, ?_⟩
  · rw [v4]; exact hvs
  · rw [m4]; exact hmn3
  · rw [M4]; exact hmx3
  · rw [b4]; exact hb3

/-- The bars of the scenario, in an arithmetic that gives the value 100 the bar
height `H` and the value 1 the bar height `0`. -/
theorem scenario_bars {R : Type} (A : Arith R) (F : ℚ → Int → String)
    (G : List Nat → Int → Int → Nat) (s1 : SparkLine) (hvals : s1.values = [1, 2, 3, 100])
    (h4 : 4 ≤ s1.Dx - indent F s1 - 3) (htop100 : topOf A s1 100 = s1.Dy - 2)
    (htop1 : topOf A s1 1 = 0) :
    ∃ ops, Draw A F G s1 = some ops ∧
      (∀ (c : Nat) (y : Int),
        DrawOp.SetCell c ⟨s1.Block.Inner.Max.X - 1 - indent F s1, y⟩ ∈ ops ↔
          ∃ j : Int, 0 ≤ j ∧ j ≤ s1.Dy - 2 ∧ c = G s1.gradient j (s1.Dy - 2) ∧
            y = s1.Block.Inner.Max.Y - j - 1) ∧
      (∀ (c : Nat) (y : Int),
        DrawOp.SetCell c ⟨s1.Block.Inner.Max.X - 4 - indent F s1, y⟩ ∈ ops ↔
          c = G s1.gradient 0 (s1.Dy - 2) ∧ y = s1.Block.Inner.Max.Y - 0 - 1) := by
  have hd := Draw_eq A F G s1
  refine ⟨_, hd, ?_, ?_⟩
  · intro c y
    have h := mem_Draw_setCell_kth A F G s1 _ hd 1 c y (le_refl 1)
    simp only [Nat.cast_one] at h
    rw [h, hvals]
    constructor
    · rintro ⟨-, -, v, hv, j, hj0, hjt, hc, hy⟩
      have e : v = 100 := by
        have : some (100 : ℚ) = some v := hv
        exact (Option.some.inj this).symm
      subst e
      rw [htop100] at hjt
      exact ⟨j, hj0, hjt, hc, hy⟩
    · rintro ⟨j, hj0, hjt, hc, hy⟩
      refine ⟨by decide, by omega, 100, rfl, j, hj0, ?_, hc, hy⟩
      rw [htop100]
      exact hjt
  · intro c y
    have h := mem_Draw_setCell_kth A F G s1 _ hd 4 c y (by decide)
    simp only [Nat.cast_ofNat] at h
    rw [h, hvals]
    constructor
    · rintro ⟨-, -, v, hv, j, hj0, hjt, hc, hy⟩
      have e : v = 1 := by
        have : some (1 : ℚ) = some v := hv
        exact (Option.some.inj this).symm
      subst e
      rw [htop1] at hjt
      have hj : j = 0 := by omega
      subst hj
      exact ⟨hc, hy⟩
    · rintro ⟨hc, hy⟩
      refine ⟨by decide, by omega, 1, rfl, 0, le_refl 0, ?_, hc, hy⟩
      rw [htop1]

/-- C12, as amended: with no clamp bounds, a visible width `W >= 1` and the
samples 1, 2, 3, 100 arriving in that order into an empty buffer, the tracked
Range after all four is `(1, 100)`. With visible width 5 the subsequent `Draw`
renders no bar and no label (`5 - indent - 3 <= 0`, the indent being at least
2), in every arithmetic. In a pane with `W - indent - 3 >= 4` the bar of the
newest element (value 100) fills the rows `0` to `H` and the bar of the value 1
(the 4th newest) is the one cell of row `0`: so it is with the formula of the
bar height evaluated without rounding, for every `H`, and so it is in the
program, which evaluates it in `float64`, for every `H` of magnitude at most
`2 ^ 45`, where none of its operations rounds. -/
theorem scenario_range_and_bars (b : Sparkline.Block) (scale : Int) (g : List Nat)
    (hW : 1 ≤ b.Rectangle.Dx) :
    ∃ s1, consumeAll ParseFloat (NewSparkLine b scale g none none)
        [⟨"", "1"⟩, ⟨"", "2"⟩, ⟨"", "3"⟩, ⟨"", "100"⟩] = some s1 ∧
      s1.values = [1, 2, 3, 100] ∧ s1.minValue = 1 ∧ s1.maxValue = 100 ∧
      (b.Rectangle.Dx = 5 → ∀ (R : Type) (A : Arith R) (F : ℚ → Int → String)
        (G : List Nat → Int → Int → Nat),
        Draw A F G s1 = some [DrawOp.BlockDraw, DrawOp.RenderAlert]) ∧
      (∀ (F : ℚ → Int → String) (G : List Nat → Int → Int → Nat),
        4 ≤ b.Rectangle.Dx - indent F s1 - 3 →
        specTop s1 100 = s1.Dy - 2 ∧ specTop s1 1 = 0 ∧
        ∃ ops, Draw exactArith F G s1 = some ops ∧
          (∀ (c : Nat) (y : Int),
            DrawOp.SetCell c ⟨s1.Block.Inner.Max.X - 1 - indent F s1, y⟩ ∈ ops ↔
              ∃ j : Int, 0 ≤ j ∧ j ≤ s1.Dy - 2 ∧ c = G s1.gradient j (s1.Dy - 2) ∧
                y = s1.Block.Inner.Max.Y - j - 1) ∧
          (∀ (c : Nat) (y : Int),
            DrawOp.SetCell c ⟨s1.Block.Inner.Max.X - 4 - indent F s1, y⟩ ∈ ops ↔
              c = G s1.gradient 0 (s1.Dy - 2) ∧ y = s1.Block.Inner.Max.Y - 0 - 1)) ∧
      (∀ (ι : F64 → Int) (F : ℚ → Int → String) (G : List Nat → Int → Int → Nat),
        4 ≤ b.Rectangle.Dx - indent F s1 - 3 → |s1.Dy - 2| ≤ (2 : Int) ^ (45 : Nat) →
        specTop64 ι s1 100 = s1.Dy - 2 ∧ specTop64 ι s1 1 = 0 ∧
        ∃ ops, Draw (float64 ι) F G s1 = some ops ∧
          (∀ (c : Nat) (y : Int),
            DrawOp.SetCell c ⟨s1.Block.Inner.Max.X - 1 - indent F s1, y⟩ ∈ ops ↔
              ∃ j : Int, 0 ≤ j ∧ j ≤ s1.Dy - 2 ∧ c = G s1.gradient j (s1.Dy - 2) ∧
                y = s1.Block.Inner.Max.Y - j - 1) ∧
          (∀ (c : Nat) (y : Int),
            DrawOp.SetCell c ⟨s1.Block.Inner.Max.X - 4 - indent F s1, y⟩ ∈ ops ↔
              c = G s1.gradient 0 (s1.Dy - 2) ∧ y = s1.Block.Inner.Max.Y - 0 - 1)) := by
  obtain ⟨s1, hrun, hvals, hmin, hmax, hmn, hmx, hb⟩ := scenario_run b scale g hW
  have hdx : s1.Dx = b.Rectangle.Dx := by simp [SparkLine.Dx, hb]
  have htop100 : specTop s1 100 = s1.Dy - 2 := by
    have e : ((100 : ℚ) - 1) * ((s1.Dy - 2 : Int) : ℚ) / (100 - 1) = ((s1.Dy - 2 : Int) : ℚ) := by
      ring
    simp only [specTop, hmn, hmx, hmin, hmax, Option.getD_none]
    rw [if_neg (by norm_num), e, truncate_intCast]
  have htop1 : specTop s1 1 = 0 := by
    have e : ((1 : ℚ) - 1) * ((s1.Dy - 2 : Int) : ℚ) / (100 - 1) = ((0 : Int) : ℚ) := by
      simp
    simp only [specTop, hmn, hmx, hmin, hmax, Option.getD_none]
    rw [if_neg (by norm_num), e, truncate_intCast]
  have hne : s1.max.getD s1.maxValue ≠ s1.min.getD s1.minValue := by
    rw [hmn, hmx, hmin, hmax]
    norm_num
  have hdiff : s1.max.getD s1.maxValue - s1.min.getD s1.minValue = ((99 : Int) : ℚ) := by
    rw [hmn, hmx, hmin, hmax]
    norm_num
  refine ⟨s1, hrun, hvals, hmin, hmax, ?_, ?_, ?_⟩
  · intro h5 R A F G
    have hrc : renderedCount F s1 = 0 := by
      have := indent_ge_two F s1
      unfold renderedCount
      rw [hdx, h5]
      omega
    rw [Draw_eq A F G s1, hrc]
    rfl
  · intro F G h4
    exact ⟨htop100, htop1, scenario_bars exactArith F G s1 hvals (by rw [hdx]; exact h4)
      (by rw [topOf_exact]; exact htop100) (by rw [topOf_exact]; exact htop1)⟩
  · intro ι F G h4 hH
    have hH2 := abs_le.mp hH
    have f100 : specTop64 ι s1 100 = s1.Dy - 2 :=
      specTop64_int ι s1 100 99 (s1.Dy - 2) 99 (s1.Dy - 2) hne
        (by rw [hmn, hmin]; norm_num) rfl hdiff (by ring) (by decide)
        (by rw [abs_le]; norm_num at hH2 ⊢; omega) (by decide)
        (by rw [abs_le]; norm_num at hH2 ⊢; omega)
        (by rw [abs_le]; norm_num at hH2 ⊢; omega)
    have f1 : specTop64 ι s1 1 = 0 :=
      specTop64_int ι s1 1 0 (s1.Dy - 2) 99 0 hne
        (by rw [hmn, hmin]; norm_num) rfl hdiff (by ring) (by decide)
        (by rw [abs_le]; norm_num at hH2 ⊢; omega) (by decide)
        (by rw [abs_le]; norm_num) (by decide)
    exact ⟨f100, f1, scenario_bars (float64 ι) F G s1 hvals (by rw [hdx]; exact h4)
      (by rw [topOf_float64]; exact f100) (by rw [topOf_float64]; exact f1)⟩

theorem scenario_range_and_bars_witness :
    ∃ s1, consumeAll ParseFloat
        (NewSparkLine ⟨⟨⟨0, 0⟩, ⟨5, 12⟩⟩, ⟨⟨1, 1⟩, ⟨4, 11⟩⟩⟩ 0 [] none none)
        [⟨"", "1"⟩, ⟨"", "2"⟩, ⟨"", "3"⟩, ⟨"", "100"⟩] = some s1 ∧
      s1.values = [1, 2, 3, 100] ∧ s1.minValue = 1 ∧ s1.maxValue = 100 ∧
      Draw (float64 amd64Int) FormatValue (fun _ _ _ => 0) s1 =
        some [DrawOp.BlockDraw, DrawOp.RenderAlert] := by
  obtain ⟨s1, h1, h2, h3, h4, h5, -⟩ := scenario_range_and_bars
    ⟨⟨⟨0, 0⟩, ⟨5, 12⟩⟩, ⟨⟨1, 1⟩, ⟨4, 11⟩⟩⟩ 0 [] (by decide)
  exact ⟨s1, h1, h2, h3, h4, h5 rfl F64 (float64 amd64Int) FormatValue (fun _ _ _ => 0)⟩

/-- C12, the claim as stated fails: with visible width 5 the Range after the
samples 1, 2, 3, 100 is `(1, 100)`, but the subsequent `Draw` renders nothing,
whatever the label formatter, the gradient and the arithmetic: no bar cell is
written, neither for the value 100 nor for the value 1. -/
theorem scenario_width_five_renders_nothing :
    ∃ s1, consumeAll ParseFloat
        (NewSparkLine ⟨⟨⟨0, 0⟩, ⟨5, 12⟩⟩, ⟨⟨1, 1⟩, ⟨4, 11⟩⟩⟩ 0 [] none none)
        [⟨"", "1"⟩, ⟨"", "2"⟩, ⟨"", "3"⟩, ⟨"", "100"⟩] = some s1 ∧
      s1.Dx = 5 ∧ s1.values = [1, 2, 3, 100] ∧ s1.minValue = 1 ∧ s1.maxValue = 100 ∧
      ∀ (R : Type) (A : Arith R) (F : ℚ → Int → String) (G : List Nat → Int → Int → Nat),
        renderedCount F s1 = 0 ∧
        ∃ ops, Draw A F G s1 = some ops ∧ ops.filter DrawOp.isCell = [] := by
  obtain ⟨s1, hrun, hvals, hmin, hmax, -, -, hb⟩ := scenario_run
    ⟨⟨⟨0, 0⟩, ⟨5, 12⟩⟩, ⟨⟨1, 1⟩, ⟨4, 11⟩⟩⟩ 0 [] (by decide)
  have hdx : s1.Dx = 5 := by
    simp only [SparkLine.Dx, hb]
    rfl
  refine ⟨s1, hrun, hdx, hvals, hmin, hmax, ?_⟩
  intro R A F G
  have hrc : renderedCount F s1 = 0 := by
    have := indent_ge_two F s1
    unfold renderedCount
    rw [hdx]
    omega
  refine ⟨hrc, _, Draw_eq A F G s1, ?_⟩
  rw [hrc]
  rfl

/-! ## Rendering: bars stay within the pane height -/

theorem truncate_bounds (q : ℚ) (H : Int) (h0 : 0 ≤ q) (h1 : q ≤ (H : ℚ)) :
    0 ≤ truncate q ∧ truncate q ≤ H := by
  unfold truncate
  rw [if_pos h0]
  constructor
  · exact Int.floor_nonneg.mpr h0
  · have h2 : ((⌊q⌋ : Int) : ℚ) ≤ (H : ℚ) := le_trans (Int.floor_le q) h1
    exact_mod_cast h2

/-- A value between the effective minimum and maximum gets a bar height between
`0` and `H`, for a pane height `H >= 0`. -/
theorem specTop_bounds (s : SparkLine) (v : ℚ) (hH : 0 ≤ s.Dy - 2)
    (hlo : s.min.getD s.minValue ≤ v) (hhi : v ≤ s.max.getD s.maxValue) :
    0 ≤ specTop s v ∧ specTop s v ≤ s.Dy - 2 := by
  unfold specTop
  split_ifs with heq
  · exact ⟨le_refl 0, hH⟩
  · have hlt : s.min.getD s.minValue < s.max.getD s.maxValue :=
      lt_of_le_of_ne (le_trans hlo hhi) (Ne.symm heq)
    have hpos : 0 < s.max.getD s.maxValue - s.min.getD s.minValue := sub_pos.mpr hlt
    have hHq : (0 : ℚ) ≤ ((s.Dy - 2 : Int) : ℚ) := by exact_mod_cast hH
    have hnum : 0 ≤ v - s.min.getD s.minValue := sub_nonneg.mpr hlo
    apply truncate_bounds
    · exact div_nonneg (mul_nonneg hnum hHq) hpos.le
    · rw [div_le_iff₀ hpos]
      have : v - s.min.getD s.minValue ≤ s.max.getD s.maxValue - s.min.getD s.minValue := by
        linarith
      nlinarith

/-- The bar cells among the writes of one loop body are `top + 1` in number. -/
theorem columnWrites_filter_isCell_length {R : Type} (A : Arith R) (F : ℚ → Int → String)
    (G : List Nat → Int → Int → Nat) (s : SparkLine) (i : Nat) (v : ℚ)
    (hv : s.values[i]? = some v) :
    ((columnWrites A F G s i).filter DrawOp.isCell).length = (topOf A s v + 1).toNat := by
  rw [columnWrites_eq A F G s i v hv, List.filter_append]
  have hbars : ∀ l : List Nat, (l.map (fun (j : Nat) =>
      DrawOp.SetCell (G s.gradient (j : Int) (s.Dy - 2))
        ⟨s.Block.Inner.Max.X - ((s.values.length : Int) - (i : Int)) - indent F s,
          s.Block.Inner.Max.Y - (j : Int) - 1⟩)).filter DrawOp.isCell =
      l.map (fun (j : Nat) =>
      DrawOp.SetCell (G s.gradient (j : Int) (s.Dy - 2))
        ⟨s.Block.Inner.Max.X - ((s.values.length : Int) - (i : Int)) - indent F s,
          s.Block.Inner.Max.Y - (j : Int) - 1⟩) := by
    intro l
    rw [List.filter_eq_self]
    intro a ha
    obtain ⟨j, -, rfl⟩ := List.mem_map.mp ha
    rfl
  rw [hbars]
  have hlab : ∀ l : List DrawOp, (∀ a ∈ l, DrawOp.isLabel a = true) →
      l.filter DrawOp.isCell = [] := by
    intro l hl
    rw [List.filter_eq_nil_iff]
    intro a ha hcell
    have := hl a ha
    cases a <;> simp [DrawOp.isLabel, DrawOp.isCell] at this hcell
  rw [hlab]
  · simp
  · intro a ha
    split_ifs at ha <;> simp at ha
    · rcases ha with rfl | rfl | rfl <;> rfl
    · subst ha; rfl

/-- In every state a run reaches from the empty buffer, the tracked Range
bounds the visible window of the buffer, and the configuration is unchanged. -/
theorem reachable_range_bounds_window (P : String → Except String ℚ) (b : Sparkline.Block)
    (scale : Int) (g : List Nat) (mn mx : Option ℚ) (W : Nat) (hW : b.Rectangle.Dx = (W : Int))
    (xs : List Sample) (s1 : SparkLine)
    (hrun : consumeAll P (NewSparkLine b scale g mn mx) xs = some s1) :
    s1.Block = b ∧ s1.min = mn ∧ s1.max = mx ∧
    ∀ x ∈ s1.values.drop (s1.values.length - Min.min s1.values.length W),
      s1.minValue ≤ x ∧ x ≤ s1.maxValue := by
  refine consumeAll_invariant P
    (fun s => s.Block = b ∧ s.min = mn ∧ s.max = mx ∧
      ∀ x ∈ s.values.drop (s.values.length - Min.min s.values.length W),
        s.minValue ≤ x ∧ x ≤ s.maxValue)
    ?_ xs (NewSparkLine b scale g mn mx) s1
    ⟨rfl, rfl, rfl, by intro x hx; simp [NewSparkLine] at hx⟩ hrun
  rintro s x s2 ⟨hb, hmn, hmx, hwin⟩ hc
  obtain ⟨hb2, hmn2, hmx2, hcases⟩ := consumeSample_some P s s2 x hc
  refine ⟨hb2.trans hb, hmn2.trans hmn, hmx2.trans hmx, ?_⟩
  have hdx : s.Dx = (W : Int) := by simp [SparkLine.Dx, hb, hW]
  cases hp : P x.Value with
  | error err =>
    rw [consumeSample_error P s x err hp] at hc
    cases hc
    exact hwin
  | ok v =>
    have hr := consumeSample_range P s s2 x v hp hc
    rw [hdx] at hr
    have hbound := fun y hy =>
      recomputeRange_bounds (s.values ++ [clampValue s.min s.max v]) W _ y hr hy
    simp only at hbound
    rcases hcases with ⟨err, hp2, -⟩ | ⟨v2, hp2, ⟨-, hval⟩ | ⟨-, -, hval⟩⟩
    · rw [hp] at hp2; cases hp2
    · rw [hp] at hp2
      cases hp2
      rw [hval]
      exact hbound
    · rw [hp] at hp2
      cases hp2
      intro y hy
      have hy2 : y ∈ s2.values := List.mem_of_mem_drop hy
      rw [hval, hdx] at hy2
      apply hbound
      have hidx : (s.values ++ [clampValue s.min s.max v]).length -
          Min.min (s.values ++ [clampValue s.min s.max v]).length W =
          s.values.length + 1 - (W : Int).toNat := by
        simp only [List.length_append, List.length_singleton, Int.toNat_ofNat]
        omega
      rw [hidx]
      exact hy2

/-- The clamped value is the value itself or one of the configured bounds. -/
theorem clampValue_cases (lo hi : Option ℚ) (v : ℚ) :
    clampValue lo hi v = v ∨ lo = some (clampValue lo hi v) ∨ hi = some (clampValue lo hi v) := by
  unfold clampValue
  cases lo with
  | none =>
    cases hi with
    | none => exact Or.inl rfl
    | some h =>
      rcases min_choice h v with e | e
      · right; right
        simp only [e]
      · left
        simp only [e]
  | some l =>
    cases hi with
    | none =>
      rcases max_choice l v with e | e
      · right; left
        simp only [e]
      · left
        simp only [e]
    | some h =>
      show Min.min h (Max.max l v) = v ∨ some l = some (Min.min h (Max.max l v)) ∨
        some h = some (Min.min h (Max.max l v))
      rcases min_choice h (Max.max l v) with e | e
      · right; right
        rw [e]
      · rcases max_choice l v with e2 | e2
        · right; left
          rw [e, e2]
        · left
          rw [e, e2]

/-- A property of the number zero, of the configured bounds and of the parsed
samples of a run is a property of every value of the buffer and of the tracked
Range, in the state the run reaches from the empty buffer. -/
theorem reachable_values_of (P : String → Except String ℚ) (Q : ℚ → Prop) (mn mx : Option ℚ)
    (hlo : ∀ lo, mn = some lo → Q lo) (hhi : ∀ hi, mx = some hi → Q hi) :
    ∀ (xs : List Sample) (s s1 : SparkLine),
      (∀ x ∈ xs, ∀ w, P x.Value = .ok w → Q w) →
      (s.min = mn ∧ s.max = mx ∧ (∀ x ∈ s.values, Q x) ∧ Q s.minValue ∧ Q s.maxValue) →
      consumeAll P s xs = some s1 →
      (∀ x ∈ s1.values, Q x) ∧ Q s1.minValue ∧ Q s1.maxValue := by
  intro xs
  induction xs with
  | nil =>
    intro s s1 _ hs h
    simp only [consumeAll, Option.some.injEq] at h
    subst h
    exact hs.2.2
  | cons x xs ih =>
    intro s s1 hP hs h
    simp only [consumeAll] at h
    cases hc : consumeSample P s x with
    | none => simp [hc] at h
    | some s2 =>
      simp only [hc] at h
      refine ih s2 s1 (fun y hy => hP y (List.mem_cons_of_mem _ hy)) ?_ h
      obtain ⟨hmn, hmx, hv, hm, hM⟩ := hs
      obtain ⟨-, h1, h2, hcases⟩ := consumeSample_some P s s2 x hc
      refine ⟨h1.trans hmn, h2.trans hmx, ?_⟩
      cases hp : P x.Value with
      | error err =>
        rw [consumeSample_error P s x err hp] at hc
        cases hc
        exact ⟨hv, hm, hM⟩
      | ok w =>
        have hQw : Q w := hP x (List.mem_cons_self _ _) w hp
        have hQc : Q (clampValue s.min s.max w) := by
          rcases clampValue_cases s.min s.max w with e | e | e
          · rw [e]; exact hQw
          · exact hlo _ (hmn ▸ e)
          · exact hhi _ (hmx ▸ e)
        have hall : ∀ y ∈ s.values ++ [clampValue s.min s.max w], Q y := by
          intro y hy
          rcases List.mem_append.mp hy with hy | hy
          · exact hv y hy
          · rw [List.mem_singleton] at hy
            rw [hy]
            exact hQc
        have hr := consumeSample_range P s s2 x w hp hc
        obtain ⟨v0, hv0, ⟨hM1, -⟩, ⟨hm1, -⟩⟩ := recomputeRange_exact _ _ _ hr
        have hsub : ∀ y, y ∈ v0 :: (s.values ++ [clampValue s.min s.max w]).drop
            ((s.values ++ [clampValue s.min s.max w]).length -
              Min.min (s.values ++ [clampValue s.min s.max w]).length s.Dx.toNat) → Q y := by
          intro y hy
          rcases List.mem_cons.mp hy with rfl | hy
          · exact hall _ (List.getElem?_mem hv0)
          · exact hall _ (List.mem_of_mem_drop hy)
        refine ⟨?_, hsub _ hm1, hsub _ hM1⟩
        rcases hcases with ⟨err, hp2, -⟩ | ⟨v2, hp2, ⟨-, hval⟩ | ⟨-, -, hval⟩⟩
        · rw [hp] at hp2; cases hp2
        · rw [hp] at hp2
          cases hp2
          rw [hval]
          exact hall
        · rw [hp] at hp2
          cases hp2
          rw [hval]
          intro y hy
          exact hall y (List.mem_of_mem_drop hy)

/-- A value between the effective minimum and maximum whose quotient is finite
gets a bar height between `0` and `H`, for a pane height `0 <= H < 2 ^ 52`. -/
theorem specTop64_bounds (ι : F64 → Int) (s : SparkLine) (v : ℚ) (hH : 0 ≤ s.Dy - 2)
    (hH2 : s.Dy - 2 < (2 : Int) ^ (52 : Nat))
    (hlo : s.min.getD s.minValue ≤ v) (hhi : v ≤ s.max.getD s.maxValue)
    (hfin : s.max.getD s.maxValue = s.min.getD s.minValue ∨ ∃ q, quotient64 s v = F64.fin q) :
    0 ≤ specTop64 ι s v ∧ specTop64 ι s v ≤ s.Dy - 2 := by
  by_cases heq : s.max.getD s.maxValue = s.min.getD s.minValue
  · simp only [specTop64, if_pos heq]
    exact ⟨le_refl 0, hH⟩
  · rcases hfin with h | ⟨q, hq⟩
    · exact absurd h heq
    · obtain ⟨hq0, hq1⟩ := quotient_bounds (v - s.min.getD s.minValue)
        (s.max.getD s.maxValue - s.min.getD s.minValue) (s.Dy - 2) (by linarith) (by linarith)
        hH hH2 q hq
      have ht0 : 0 ≤ truncate q := by
        unfold truncate
        rw [if_pos hq0]
        exact Int.floor_nonneg.mpr hq0
      have ht1 : truncate q ≤ s.Dy - 2 := by
        unfold truncate
        rw [if_pos hq0]
        have h1 : ⌊q⌋ < (s.Dy - 2) + 1 := by
          rw [Int.floor_lt]
          push_cast at hq1 ⊢
          linarith
        omega
      rw [specTop64_eq ι s v heq, hq, toInt_fin ι q (by norm_num at hH2 ⊢; omega)
        (by norm_num at hH2 ⊢; omega)]
      exact ⟨ht0, ht1⟩

/-- The quotient of line 155 is finite when the effective minimum and maximum are
`float64` numbers and the range times `H + 1` stays below `2 ^ 1022`. -/
theorem quotient64_finite (s : SparkLine) (v : ℚ) (hH : 0 ≤ s.Dy - 2)
    (hH2 : s.Dy - 2 < (2 : Int) ^ (52 : Nat))
    (hlo : s.min.getD s.minValue ≤ v) (hhi : v ≤ s.max.getD s.maxValue)
    (hne : s.max.getD s.maxValue ≠ s.min.getD s.minValue)
    (hfm : isFloat64 (s.min.getD s.minValue)) (hfM : isFloat64 (s.max.getD s.maxValue))
    (hmag : (s.max.getD s.maxValue - s.min.getD s.minValue) * (((s.Dy - 2 : Int) : ℚ) + 1) ≤
      (2 : ℚ) ^ (1022 : Nat)) :
    ∃ q, quotient64 s v = F64.fin q := by
  obtain ⟨km, hkm⟩ := round64_grid hfm
  obtain ⟨kM, hkM⟩ := round64_grid hfM
  have hpos : 0 < s.max.getD s.maxValue - s.min.getD s.minValue := by
    have : s.min.getD s.minValue ≤ s.max.getD s.maxValue := le_trans hlo hhi
    have := lt_of_le_of_ne this (Ne.symm hne)
    linarith
  exact quotient_finite (v - s.min.getD s.minValue)
    (s.max.getD s.maxValue - s.min.getD s.minValue) (s.Dy - 2) (by linarith) (by linarith)
    hpos (kM - km) (by rw [hkM, hkm]; push_cast; ring) hH hH2 hmag

/-- C19, as amended: for a fixed pane width `W`, a pane height
`0 <= H < 2 ^ 52` and clamp bounds that are absent, single, or both with
`lower <= upper`, every run of `consumeSample` calls from the empty buffer
returns, and in the state reached every column `Draw` renders (the `k`-th newest
element, value `v`) whose quotient of line 155 is a finite `float64` number (or
whose effective maximum equals the effective minimum) has `0 <= top <= H`: its
loop body writes `top + 1` bar cells, between 1 and `H + 1`, and the bar cells of
`Draw` in its column are those of the rows `0` to `top`. The quotient is finite
for every rendered column when the parsed samples and the configured bounds are
`float64` numbers whose magnitude times `H + 1` is at most `2 ^ 1021`, so that
neither the range nor its product with the height overflows. -/
theorem bars_within_pane_height (P : String → Except String ℚ) (b : Sparkline.Block)
    (scale : Int) (g : List Nat) (mn mx : Option ℚ) (W : Nat) (xs : List Sample)
    (hW : b.Rectangle.Dx = (W : Int)) (hH : 0 ≤ b.Rectangle.Dy - 2)
    (hH2 : b.Rectangle.Dy - 2 < (2 : Int) ^ (52 : Nat))
    (hcfg : ∀ lo hi, mn = some lo → mx = some hi → lo ≤ hi) :
    ∃ s1, consumeAll P (NewSparkLine b scale g mn mx) xs = some s1 ∧
      (∀ (ι : F64 → Int) (F : ℚ → Int → String) (G : List Nat → Int → Int → Nat),
        ∃ ops, Draw (float64 ι) F G s1 = some ops ∧
          ∀ k : Nat, 1 ≤ k → k ≤ renderedCount F s1 →
            ∃ v, s1.values[s1.values.length - k]? = some v ∧
              (s1.max.getD s1.maxValue = s1.min.getD s1.minValue ∨
                  (∃ q, quotient64 s1 v = F64.fin q) →
                0 ≤ specTop64 ι s1 v ∧ specTop64 ι s1 v ≤ b.Rectangle.Dy - 2 ∧
                ((columnWrites (float64 ι) F G s1 (s1.values.length - k)).filter
                  DrawOp.isCell).length = (specTop64 ι s1 v + 1).toNat ∧
                1 ≤ (specTop64 ι s1 v + 1).toNat ∧
                ((specTop64 ι s1 v + 1).toNat : Int) ≤ b.Rectangle.Dy - 2 + 1 ∧
                ∀ (c : Nat) (y : Int),
                  DrawOp.SetCell c ⟨s1.Block.Inner.Max.X - (k : Int) - indent F s1, y⟩ ∈ ops ↔
                    ∃ j : Int, 0 ≤ j ∧ j ≤ specTop64 ι s1 v ∧ c = G s1.gradient j (s1.Dy - 2) ∧
                      y = s1.Block.Inner.Max.Y - j - 1)) ∧
      ((∀ x ∈ xs, ∀ w, P x.Value = .ok w →
          isFloat64 w ∧ |w| * (((b.Rectangle.Dy - 2 : Int) : ℚ) + 1) ≤ (2 : ℚ) ^ (1021 : Nat)) →
        (∀ lo, mn = some lo →
          isFloat64 lo ∧ |lo| * (((b.Rectangle.Dy - 2 : Int) : ℚ) + 1) ≤ (2 : ℚ) ^ (1021 : Nat)) →
        (∀ hi, mx = some hi →
          isFloat64 hi ∧ |hi| * (((b.Rectangle.Dy - 2 : Int) : ℚ) + 1) ≤ (2 : ℚ) ^ (1021 : Nat)) →
        ∀ (F : ℚ → Int → String) (k : Nat), 1 ≤ k → k ≤ renderedCount F s1 →
          ∃ v, s1.values[s1.values.length - k]? = some v ∧
            (s1.max.getD s1.maxValue = s1.min.getD s1.minValue ∨
              ∃ q, quotient64 s1 v = F64.fin q)) := by
  have hdx0 : (NewSparkLine b scale g mn mx).Dx = (W : Int) := hW
  obtain ⟨s1, hrun⟩ := consumeAll_returns P xs (NewSparkLine b scale g mn mx)
    (by rw [hdx0]; exact Int.natCast_nonneg W)
  obtain ⟨hb, hmn, hmx, hwin⟩ := reachable_range_bounds_window P b scale g mn mx W hW xs s1 hrun
  have hclamp := values_respect_bounds P b scale g mn mx hcfg xs s1 hrun
  have hdx : s1.Dx = (W : Int) := by simp [SparkLine.Dx, hb, hW]
  have hdy : s1.Dy = b.Rectangle.Dy := by simp [SparkLine.Dy, hb]
  -- a rendered element lies between the effective minimum and maximum
  have hrange : ∀ (F : ℚ → Int → String) (k : Nat), 1 ≤ k → k ≤ renderedCount F s1 →
      k ≤ s1.values.length ∧ (k : Int) ≤ s1.Dx - indent F s1 - 3 ∧
      ∃ hi : s1.values.length - k < s1.values.length,
        s1.min.getD s1.minValue ≤ s1.values[s1.values.length - k] ∧
        s1.values[s1.values.length - k] ≤ s1.max.getD s1.maxValue := by
    intro F k hk1 hkr
    have hind := indent_ge_two F s1
    have hkl : k ≤ s1.values.length := by unfold renderedCount at hkr; omega
    have hkw : (k : Int) ≤ s1.Dx - indent F s1 - 3 := by unfold renderedCount at hkr; omega
    have hi : s1.values.length - k < s1.values.length := by omega
    have hv : s1.values[s1.values.length - k]? = some s1.values[s1.values.length - k] :=
      List.getElem?_eq_getElem hi
    have hmem : s1.values[s1.values.length - k] ∈ s1.values := List.getElem_mem hi
    have hinwin : s1.values[s1.values.length - k] ∈
        s1.values.drop (s1.values.length - Min.min s1.values.length W) := by
      have := (mem_window_iff s1.values (W : Int) s1.values[s1.values.length - k]).mpr
        ⟨s1.values.length - k, hi, by omega, hv⟩
      simpa using this
    obtain ⟨hwlo, hwhi⟩ := hwin _ hinwin
    obtain ⟨hclo, hchi⟩ := hclamp _ hmem
    refine ⟨hkl, hkw, hi, ?_, ?_⟩
    · rw [hmn]
      cases hmn' : mn with
      | none => exact hwlo
      | some lo => exact hclo lo hmn'
    · rw [hmx]
      cases hmx' : mx with
      | none => exact hwhi
      | some hi' => exact hchi hi' hmx'
  refine ⟨s1, hrun, ?_, ?_⟩
  · intro ι F G
    have hd := Draw_eq (float64 ι) F G s1
    refine ⟨_, hd, ?_⟩
    intro k hk1 hkr
    obtain ⟨hkl, hkw, hi, hlo, hhi⟩ := hrange F k hk1 hkr
    have hv : s1.values[s1.values.length - k]? = some s1.values[s1.values.length - k] :=
      List.getElem?_eq_getElem hi
    refine ⟨_, hv, ?_⟩
    intro hfin
    obtain ⟨ht0, ht1⟩ := specTop64_bounds ι s1 _ (by rw [hdy]; exact hH)
      (by rw [hdy]; exact hH2) hlo hhi hfin
    rw [hdy] at ht1
    have hlen := columnWrites_filter_isCell_length (float64 ι) F G s1 _ _ hv
    rw [topOf_float64] at hlen
    refine ⟨ht0, ht1, hlen, by omega, by omega, ?_⟩
    intro c y
    rw [mem_Draw_setCell_kth (float64 ι) F G s1 _ hd k c y hk1]
    simp only [topOf_float64]
    constructor
    · rintro ⟨-, -, v2, hv2, hj⟩
      rw [hv] at hv2
      cases hv2
      exact hj
    · intro hj
      exact ⟨hkl, hkw, _, hv, hj⟩
  · intro hP hlo' hhi' F k hk1 hkr
    obtain ⟨hkl, hkw, hi, hlo, hhi⟩ := hrange F k hk1 hkr
    have hv : s1.values[s1.values.length - k]? = some s1.values[s1.values.length - k] :=
      List.getElem?_eq_getElem hi
    refine ⟨_, hv, ?_⟩
    by_cases heq : s1.max.getD s1.maxValue = s1.min.getD s1.minValue
    · exact Or.inl heq
    right
    have hHq : (0 : ℚ) < ((b.Rectangle.Dy - 2 : Int) : ℚ) + 1 := by
      have : (0 : ℚ) ≤ ((b.Rectangle.Dy - 2 : Int) : ℚ) := by exact_mod_cast hH
      linarith
    have hzero : isFloat64 0 ∧
        |(0 : ℚ)| * (((b.Rectangle.Dy - 2 : Int) : ℚ) + 1) ≤ (2 : ℚ) ^ (1021 : Nat) := by
      refine ⟨?_, by simp⟩
      have := round64_intCast 0 (by decide)
      simpa [isFloat64] using this
    obtain ⟨-, hgm, hgM⟩ := reachable_values_of P
      (fun w => isFloat64 w ∧
        |w| * (((b.Rectangle.Dy - 2 : Int) : ℚ) + 1) ≤ (2 : ℚ) ^ (1021 : Nat))
      mn mx hlo' hhi' xs (NewSparkLine b scale g mn mx) s1 hP
      ⟨rfl, rfl, by intro x hx; simp [NewSparkLine] at hx, hzero, hzero⟩ hrun
    have hem : isFloat64 (s1.min.getD s1.minValue) ∧
        |s1.min.getD s1.minValue| * (((b.Rectangle.Dy - 2 : Int) : ℚ) + 1) ≤
          (2 : ℚ) ^ (1021 : Nat) := by
      rw [hmn]
      cases hmn' : mn with
      | none => exact hgm
      | some lo => exact hlo' lo hmn'
    have heM : isFloat64 (s1.max.getD s1.maxValue) ∧
        |s1.max.getD s1.maxValue| * (((b.Rectangle.Dy - 2 : Int) : ℚ) + 1) ≤
          (2 : ℚ) ^ (1021 : Nat) := by
      rw [hmx]
      cases hmx' : mx with
      | none => exact hgM
      | some hi' => exact hhi' hi' hmx'
    refine quotient64_finite s1 _ (by rw [hdy]; exact hH) (by rw [hdy]; exact hH2) hlo hhi heq
      hem.1 heM.1 ?_
    rw [hdy]
    have h1 : s1.max.getD s1.maxValue ≤ |s1.max.getD s1.maxValue| := le_abs_self _
    have h2 : -s1.min.getD s1.minValue ≤ |s1.min.getD s1.minValue| := neg_le_abs _
    have h3 : (s1.max.getD s1.maxValue - s1.min.getD s1.minValue) *
        (((b.Rectangle.Dy - 2 : Int) : ℚ) + 1) ≤
        (|s1.max.getD s1.maxValue| + |s1.min.getD s1.minValue|) *
        (((b.Rectangle.Dy - 2 : Int) : ℚ) + 1) :=
      mul_le_mul_of_nonneg_right (by linarith) hHq.le
    have h4 : (2 : ℚ) ^ (1022 : Nat) = (2 : ℚ) ^ (1021 : Nat) + (2 : ℚ) ^ (1021 : Nat) := by
      rw [pow_succ]
      ring
    rw [h4]
    linarith [hem.2, heM.2]

theorem bars_within_pane_height_witness :
    ∃ s1, consumeAll ParseFloat
        (NewSparkLine ⟨⟨⟨0, 0⟩, ⟨20, 12⟩⟩, ⟨⟨1, 1⟩, ⟨19, 11⟩⟩⟩ 0 [] (some 0) (some 10))
        [⟨"", "-5"⟩, ⟨"", "abc"⟩, ⟨"", "20"⟩, ⟨"", "5"⟩] = some s1 ∧
      ∃ ops, Draw (float64 amd64Int) FormatValue (fun _ j _ => j.toNat) s1 = some ops ∧
        ∀ k : Nat, 1 ≤ k → k ≤ renderedCount FormatValue s1 →
          ∃ v, s1.values[s1.values.length - k]? = some v ∧
            0 ≤ specTop64 amd64Int s1 v ∧ specTop64 amd64Int s1 v ≤ 10 := by
  obtain ⟨s1, h1, h2, h3⟩ := bars_within_pane_height ParseFloat
    ⟨⟨⟨0, 0⟩, ⟨20, 12⟩⟩, ⟨⟨1, 1⟩, ⟨19, 11⟩⟩⟩ 0 [] (some 0) (some 10) 20
    [⟨"", "-5"⟩, ⟨"", "abc"⟩, ⟨"", "20"⟩, ⟨"", "5"⟩] rfl (by decide) (by decide)
    (by
      intro lo hi e1 e2
      cases e1
      cases e2
      norm_num)
  have hH : (((⟨⟨0, 0⟩, ⟨20, 12⟩⟩ : Rectangle).Dy - 2 : Int) : ℚ) = 10 := by
    norm_num [Rectangle.Dy]
  have hf : ∀ n : Int, |n| ≤ 20 → isFloat64 (n : ℚ) ∧
      |(n : ℚ)| * ((((⟨⟨0, 0⟩, ⟨20, 12⟩⟩ : Rectangle).Dy - 2 : Int) : ℚ) + 1) ≤
        (2 : ℚ) ^ (1021 : Nat) := by
    intro n hn
    refine ⟨round64_intCast n (le_trans hn (by decide)), ?_⟩
    rw [hH]
    have h20 : |(n : ℚ)| ≤ 20 := by exact_mod_cast hn
    have hbig : (20 : ℚ) * (10 + 1) ≤ (2 : ℚ) ^ (1021 : Nat) := by
      have h8 : (2 : ℚ) ^ (8 : Nat) ≤ (2 : ℚ) ^ (1021 : Nat) :=
        pow_le_pow_right₀ (by norm_num) (by norm_num)
      have h9 : (20 : ℚ) * (10 + 1) ≤ (2 : ℚ) ^ (8 : Nat) := by norm_num
      exact le_trans h9 h8
    have := mul_le_mul_of_nonneg_right h20 (by norm_num : (0 : ℚ) ≤ 10 + 1)
    linarith
  have hfin := h3
    (by
      intro x hx w hw
      simp only [List.mem_cons, List.mem_singleton, List.not_mem_nil, or_false] at hx
      rcases hx with rfl | rfl | rfl | rfl
      · have e : Except.ok (-5 : ℚ) = Except.ok w := hw
        injection e with e
        subst e
        simpa using hf (-5) (by decide)
      · have e : (Except.error "invalid syntax: abc" : Except String ℚ) = Except.ok w := hw
        cases e
      · have e : Except.ok (20 : ℚ) = Except.ok w := hw
        injection e with e
        subst e
        simpa using hf 20 (by decide)
      · have e : Except.ok (5 : ℚ) = Except.ok w := hw
        injection e with e
        subst e
        simpa using hf 5 (by decide))
    (by
      intro lo e
      cases e
      simpa using hf 0 (by decide))
    (by
      intro hi e
      cases e
      simpa using hf 10 (by decide))
  obtain ⟨ops, hd, hk⟩ := h2 amd64Int FormatValue (fun _ j _ => j.toNat)
  refine ⟨s1, h1, ops, hd, ?_⟩
  intro k hk1 hk2
  obtain ⟨v, hv, hcol⟩ := hk k hk1 hk2
  obtain ⟨v2, hv2, hq⟩ := hfin FormatValue k hk1 hk2
  rw [hv] at hv2
  cases hv2
  obtain ⟨h0, hH', -⟩ := hcol hq
  exact ⟨v, hv, h0, hH'⟩

/-- The powers of two up to `2 ^ 1023` are `float64` numbers. -/
theorem round64_two_pow (n : Nat) (hn : n ≤ 1023) :
    round64 ((2 : ℚ) ^ n) = F64.fin ((2 : ℚ) ^ n) := by
  have hpos : (0 : ℚ) < (2 : ℚ) ^ n := pow_pos (by norm_num) n
  have hlog : Int.log 2 |(2 : ℚ) ^ n| = (n : Int) := by
    rw [abs_of_pos hpos]
    have := Int.log_zpow (R := ℚ) (b := 2) (by norm_num) (n : Int)
    simp only [Nat.cast_ofNat, zpow_natCast] at this
    exact this
  have hq : quantumExp ((2 : ℚ) ^ n) = (n : Int) + (-52) := by
    unfold quantumExp
    rw [hlog, max_eq_left (by omega)]
    ring
  refine round64_eq_self ((2 : Int) ^ (52 : Nat)) ?_ ?_
  · rw [hq, two_zpow_add, zpow_natCast]
    have e52 : (2 : ℚ) ^ (-52 : Int) = 1 / (2 : ℚ) ^ (52 : Nat) := by norm_num
    rw [e52]
    push_cast
    field_simp
    ring
  · rw [abs_of_pos hpos]
    exact pow_lt_pow_right₀ (by norm_num) (by omega)

/-- The stand-in parser reads the decimal numeral of `2 ^ 1023`. -/
theorem ParseFloat_decimalTwoPow1023 :
    ParseFloat decimalTwoPow1023 = .ok ((2 : ℚ) ^ (1023 : Nat)) := by
  have h : (match ParseFloat decimalTwoPow1023 with
      | .ok q => some q
      | .error _ => none) = some ((2 : ℚ) ^ (1023 : Nat)) := by decide!
  cases hp : ParseFloat decimalTwoPow1023 with
  | error e =>
    rw [hp] at h
    cases h
  | ok q =>
    rw [hp] at h
    rw [Option.some.inj h]

/-- The run over the sample 0 followed by a positive sample, without clamp
bounds, in a pane of width 2 or more. -/
theorem two_sample_run (b : Sparkline.Block) (t : String) (V : ℚ)
    (ht : ParseFloat t = .ok V) (hV : 0 < V) (hW : 2 ≤ b.Rectangle.Dx) :
    ∃ s1, consumeAll ParseFloat (NewSparkLine b 0 [] none none) [⟨"", "0"⟩, ⟨"", t⟩] = some s1 ∧
      s1.values = [0, V] ∧ s1.minValue = 0 ∧ s1.maxValue = V ∧
      s1.min = none ∧ s1.max = none ∧ s1.Block = b := by
  obtain ⟨s1, h1, v1, m1, M1, b1, -⟩ := consumeSample_ok_no_trim_range ParseFloat
    (NewSparkLine b 0 [] none none) ⟨"", "0"⟩ 0 rfl (by simp [NewSparkLine])
  obtain ⟨s2, h2, v2, m2, M2, b2, r2⟩ := consumeSample_ok_no_trim_range ParseFloat s1
    ⟨"", t⟩ V ht (by rw [v1]; simp [NewSparkLine])
  have hmn1 : s1.min = none := by rw [m1]; rfl
  have hmx1 : s1.max = none := by rw [M1]; rfl
  have hb1 : s1.Block = b := by rw [b1]; rfl
  have hvals1 : s1.values = [0] := by
    rw [v1]
    rfl
  have hvs : s1.values ++ [clampValue s1.min s1.max V] = [0, V] := by
    rw [hvals1, hmn1, hmx1]
    rfl
  have hdx : s1.Dx = b.Rectangle.Dx := by simp [SparkLine.Dx, hb1]
  rw [hvs, hdx] at r2
  have hr : recomputeRange [0, V] b.Rectangle.Dx = some (V, 0) := by
    have c1 : ¬ ((([0, V] : List ℚ).length : Int) - ((1 : Nat) : Int) > b.Rectangle.Dx) := by
      simp only [List.length_cons, List.length_nil]
      push_cast
      omega
    have c0 : ¬ ((([0, V] : List ℚ).length : Int) - ((0 : Nat) : Int) > b.Rectangle.Dx) := by
      simp only [List.length_cons, List.length_nil]
      push_cast
      omega
    have e1 : scanRange [0, V] b.Rectangle.Dx 2 (0, 0) =
        scanRange [0, V] b.Rectangle.Dx 1 (V, 0) := by
      show (if (([0, V] : List ℚ).length : Int) - ((1 : Nat) : Int) > b.Rectangle.Dx then
          some ((0 : ℚ), (0 : ℚ))
        else scanRange [0, V] b.Rectangle.Dx 1
          (if V > 0 then V else 0, if V < 0 then V else 0)) = _
      rw [if_neg c1, if_pos hV, if_neg (not_lt.mpr hV.le)]
    have e0 : scanRange [0, V] b.Rectangle.Dx 1 (V, 0) = some (V, 0) := by
      show (if (([0, V] : List ℚ).length : Int) - ((0 : Nat) : Int) > b.Rectangle.Dx then
          some (V, (0 : ℚ))
        else scanRange [0, V] b.Rectangle.Dx 0
          (if (0 : ℚ) > V then 0 else V, if (0 : ℚ) < 0 then 0 else 0)) = _
      rw [if_neg c0, if_neg (not_lt.mpr hV.le), if_neg (lt_irrefl 0)]
      rfl
    show scanRange [0, V] b.Rectangle.Dx 2 (0, 0) = some (V, 0)
    rw [e1, e0]
  rw [hr] at r2
  injection r2 with r2
  injection r2 with hM hm
  refine ⟨s2, by simp [consumeAll, h1, h2], ?_, hm.symm, hM.symm, ?_, ?_, ?_⟩
  · rw [v2]; exact hvs
  · rw [m2]; exact hmn1
  · rw [M2]; exact hmx1
  · rw [b2]; exact hb1

/-- C19, the claim as stated fails: in a pane of width 400 and height 12
(`H = 10`) without clamp bounds, after the samples 0 and `2 ^ 1023` (a
`float64` number) the Range is `(0, 2 ^ 1023)` and, whenever the newest element
is rendered, the product `2 ^ 1023 * 10` of line 155 overflows: the quotient is
the positive infinity, not a number between `0` and `H`, and its conversion to
`int` is left to the implementation. On amd64 `top` is the smallest `int`, so
`0 <= top` fails and the rendered column gets no bar cell at all. -/
theorem bars_leave_pane_on_overflow :
    ∃ s1, consumeAll ParseFloat
        (NewSparkLine ⟨⟨⟨0, 0⟩, ⟨400, 12⟩⟩, ⟨⟨1, 1⟩, ⟨399, 11⟩⟩⟩ 0 [] none none)
        [⟨"", "0"⟩, ⟨"", decimalTwoPow1023⟩] = some s1 ∧
      s1.values = [0, (2 : ℚ) ^ (1023 : Nat)] ∧
      s1.minValue = 0 ∧ s1.maxValue = (2 : ℚ) ^ (1023 : Nat) ∧
      s1.Dx = 400 ∧ s1.Dy - 2 = 10 ∧
      isFloat64 0 ∧ isFloat64 ((2 : ℚ) ^ (1023 : Nat)) ∧
      (1 : Int) ≤ s1.Dx - indent (fun _ _ => "") s1 - 3 ∧
      ∀ (F : ℚ → Int → String) (G : List Nat → Int → Int → Nat),
        (1 : Int) ≤ s1.Dx - indent F s1 - 3 →
        1 ≤ renderedCount F s1 ∧
        quotient64 s1 ((2 : ℚ) ^ (1023 : Nat)) = F64.inf false ∧
        (∀ ι : F64 → Int, specTop64 ι s1 ((2 : ℚ) ^ (1023 : Nat)) = ι (F64.inf false)) ∧
        ¬ 0 ≤ specTop64 amd64Int s1 ((2 : ℚ) ^ (1023 : Nat)) ∧
        ∃ ops, Draw (float64 amd64Int) F G s1 = some ops ∧
          ∀ (c : Nat) (y : Int),
            DrawOp.SetCell c ⟨s1.Block.Inner.Max.X - 1 - indent F s1, y⟩ ∉ ops := by
  have hpos : (0 : ℚ) < (2 : ℚ) ^ (1023 : Nat) := pow_pos (by norm_num) _
  obtain ⟨X, hrun, hvals, hmin, hmax, hmn, hmx, hb⟩ := two_sample_run
    ⟨⟨⟨0, 0⟩, ⟨400, 12⟩⟩, ⟨⟨1, 1⟩, ⟨399, 11⟩⟩⟩ decimalTwoPow1023 ((2 : ℚ) ^ (1023 : Nat))
    ParseFloat_decimalTwoPow1023 hpos (by decide)
  have hdx : X.Dx = 400 := by
    simp only [SparkLine.Dx, hb]
    rfl
  have hdy : X.Dy - 2 = 10 := by
    simp only [SparkLine.Dy, hb]
    rfl
  have hne : X.max.getD X.maxValue ≠ X.min.getD X.minValue := by
    rw [hmn, hmx, hmin, hmax]
    exact hpos.ne'
  have hf0 : isFloat64 0 := by
    have := round64_intCast 0 (by decide)
    simpa [isFloat64] using this
  have hquot : quotient64 X ((2 : ℚ) ^ (1023 : Nat)) = F64.inf false := by
    unfold quotient64
    rw [hmn, hmx, hmin, hmax, hdy]
    simp only [Option.getD_none, sub_zero]
    rw [round64_two_pow 1023 (le_refl _), round64_intCast 10 (by decide)]
    have hmul : F64.mul (F64.fin ((2 : ℚ) ^ (1023 : Nat))) (F64.fin ((10 : Int) : ℚ)) =
        round64 ((2 : ℚ) ^ (1023 : Nat) * ((10 : Int) : ℚ)) := rfl
    have hov : (2 : ℚ) ^ (1024 : Nat) ≤ (2 : ℚ) ^ (1023 : Nat) * ((10 : Int) : ℚ) := by
      rw [pow_succ]
      exact mul_le_mul_of_nonneg_left (by norm_num) hpos.le
    rw [hmul, round64_overflow hov]
    simp [F64.div, not_lt.mpr hpos.le]
  have htop : ∀ ι : F64 → Int,
      specTop64 ι X ((2 : ℚ) ^ (1023 : Nat)) = ι (F64.inf false) := by
    intro ι
    rw [specTop64_eq ι X _ hne, hquot]
    rfl
  have hneg : ¬ 0 ≤ specTop64 amd64Int X ((2 : ℚ) ^ (1023 : Nat)) := by
    rw [htop]
    decide
  have hind : indent (fun _ _ => "") X = 2 := by
    have h0 : "".utf8ByteSize = 0 := by decide
    simp [indent, utilMax, minLabel, maxLabel, curLabel, hmn, hmx, hvals, h0]
  refine ⟨X, hrun, hvals, hmin, hmax, hdx, hdy, hf0, round64_two_pow 1023 (le_refl _),
    by rw [hdx, hind]; decide, ?_⟩
  intro F G hw
  have hd := Draw_eq (float64 amd64Int) F G X
  refine ⟨?_, hquot, htop, hneg, _, hd, ?_⟩
  · have hlen : X.values.length = 2 := by rw [hvals]; rfl
    unfold renderedCount
    rw [hlen]
    omega
  · intro c y hmem
    have h := (mem_Draw_setCell_kth (float64 amd64Int) F G X _ hd 1 c y (le_refl 1)).mp
      (by simpa using hmem)
    obtain ⟨-, -, v, hv, j, hj0, hjt, -, -⟩ := h
    have e : v = (2 : ℚ) ^ (1023 : Nat) := by
      rw [hvals] at hv
      have : some ((2 : ℚ) ^ (1023 : Nat)) = some v := hv
      exact (Option.some.inj this).symm
    subst e
    rw [topOf_float64] at hjt
    exact hneg (le_trans hj0 hjt)

/-! ## Rendering: an example of rounding -/

/-- The stand-in parser reads the decimal numeral `1.4` as the number `7 / 5`. -/
theorem ParseFloat_one_point_four : ParseFloat "1.4" = .ok (7 / 5) := by
  have h : (match ParseFloat "1.4" with
      | .ok q => some q
      | .error _ => none) = some ((7 : ℚ) / 5) := by decide!
  cases hp : ParseFloat "1.4" with
  | error e =>
    rw [hp] at h
    cases h
  | ok q =>
    rw [hp] at h
    rw [Option.some.inj h]

/-- The `float64` nearest to `7 / 5`, the number the program holds for the
sample `1.4`. -/
theorem round64_seven_fifths :
    round64 (7 / 5) = F64.fin (6305039478318694 / 4503599627370496) := by
  have he : quantumExp ((7 : ℚ) / 5) = -52 :=
    quantumExp_eq _ 0 (by rw [abs_of_pos (by norm_num)]; norm_num)
      (by rw [abs_of_pos (by norm_num)]; norm_num) (by decide)
  have e52 : (2 : ℚ) ^ (-52 : Int) = 1 / 4503599627370496 := by norm_num
  have hk : rne ((7 : ℚ) / 5 / (2 : ℚ) ^ (-52 : Int)) = 6305039478318694 := by
    apply rne_eq_of_lt
    · rw [e52]; norm_num
    · rw [e52]; norm_num
  have h := round64_eq_of (7 / 5) (-52) 6305039478318694 he hk (by rw [e52]; norm_num [abs_of_pos])
  rw [h, e52]
  norm_num

/-- The product `1.4 * 3` in `float64`: the exact product lies midway between
two `float64` numbers and is rounded to the one below. -/
theorem round64_product_example :
    round64 (6305039478318694 / 4503599627370496 * ((3 : Int) : ℚ)) =
      F64.fin (4728779608739020 / 1125899906842624) := by
  have hpos : (0 : ℚ) < 6305039478318694 / 4503599627370496 * ((3 : Int) : ℚ) := by norm_num
  have he : quantumExp (6305039478318694 / 4503599627370496 * ((3 : Int) : ℚ)) = -50 :=
    quantumExp_eq _ 2 (by rw [abs_of_pos hpos]; norm_num)
      (by rw [abs_of_pos hpos]; norm_num) (by decide)
  have e50 : (2 : ℚ) ^ (-50 : Int) = 1 / 1125899906842624 := by norm_num
  have hk : rne (6305039478318694 / 4503599627370496 * ((3 : Int) : ℚ) /
      (2 : ℚ) ^ (-50 : Int)) = 4728779608739020 := by
    have ht : (6305039478318694 : ℚ) / 4503599627370496 * ((3 : Int) : ℚ) /
        (2 : ℚ) ^ (-50 : Int) = ((4728779608739020 : Int) : ℚ) + 1 / 2 := by
      rw [e50]
      norm_num
    rw [ht]
    exact rne_tie_even 4728779608739020 (by decide)
  have h := round64_eq_of _ (-50) 4728779608739020 he hk
    (by rw [e50]; norm_num [abs_of_pos])
  rw [h, e50]
  norm_num

/-- The quotient `(1.4 * 3) / 1.4` in `float64` is the `float64` number just
below 3. -/
theorem round64_quotient_example :
    round64 (4728779608739020 / 1125899906842624 / (6305039478318694 / 4503599627370496)) =
      F64.fin (6755399441055743 / 2251799813685248) := by
  have hpos : (0 : ℚ) <
      4728779608739020 / 1125899906842624 / (6305039478318694 / 4503599627370496) := by
    norm_num
  have he : quantumExp
      (4728779608739020 / 1125899906842624 / (6305039478318694 / 4503599627370496)) = -51 :=
    quantumExp_eq _ 1 (by rw [abs_of_pos hpos]; norm_num)
      (by rw [abs_of_pos hpos]; norm_num) (by decide)
  have e51 : (2 : ℚ) ^ (-51 : Int) = 1 / 2251799813685248 := by norm_num
  have hk : rne (4728779608739020 / 1125899906842624 /
      (6305039478318694 / 4503599627370496) / (2 : ℚ) ^ (-51 : Int)) = 6755399441055743 := by
    apply rne_eq_of_lt
    · rw [e51]; norm_num
    · rw [e51]; norm_num
  have h := round64_eq_of _ (-51) 6755399441055743 he hk
    (by rw [e51]; norm_num [abs_of_pos])
  rw [h, e51]
  norm_num

/-- An example of the rounding of line 155: in a pane of width 20 and height 5
(`H = 3`) after the samples 0 and 1.4, the bar height of the newest element is
`top = 2` in the program, since `1.4 * 3 / 1.4` is `2.9999999999999996` in
`float64`, where the formula evaluated on the numbers themselves gives 3. -/
theorem bar_height_rounding_example :
    ∃ s1, consumeAll ParseFloat
        (NewSparkLine ⟨⟨⟨0, 0⟩, ⟨20, 5⟩⟩, ⟨⟨1, 1⟩, ⟨19, 4⟩⟩⟩ 0 [] none none)
        [⟨"", "0"⟩, ⟨"", "1.4"⟩] = some s1 ∧
      s1.values = [0, 7 / 5] ∧ s1.minValue = 0 ∧ s1.maxValue = 7 / 5 ∧ s1.Dy - 2 = 3 ∧
      quotient64 s1 (7 / 5) = F64.fin (6755399441055743 / 2251799813685248) ∧
      (∀ ι : F64 → Int, specTop64 ι s1 (7 / 5) = 2) ∧ specTop s1 (7 / 5) = 3 := by
  obtain ⟨X, hrun, hvals, hmin, hmax, hmn, hmx, hb⟩ := two_sample_run
    ⟨⟨⟨0, 0⟩, ⟨20, 5⟩⟩, ⟨⟨1, 1⟩, ⟨19, 4⟩⟩⟩ "1.4" (7 / 5) ParseFloat_one_point_four
    (by norm_num) (by decide)
  have hdy : X.Dy - 2 = 3 := by
    simp only [SparkLine.Dy, hb]
    rfl
  have hne : X.max.getD X.maxValue ≠ X.min.getD X.minValue := by
    rw [hmn, hmx, hmin, hmax]
    norm_num
  have hquot : quotient64 X (7 / 5) = F64.fin (6755399441055743 / 2251799813685248) := by
    unfold quotient64
    rw [hmn, hmx, hmin, hmax, hdy]
    simp only [Option.getD_none, sub_zero]
    rw [round64_seven_fifths, round64_intCast 3 (by decide)]
    have hmul : F64.mul (F64.fin (6305039478318694 / 4503599627370496))
        (F64.fin ((3 : Int) : ℚ)) =
        round64 (6305039478318694 / 4503599627370496 * ((3 : Int) : ℚ)) := rfl
    rw [hmul, round64_product_example]
    have hdiv : F64.div (F64.fin (4728779608739020 / 1125899906842624))
        (F64.fin (6305039478318694 / 4503599627370496)) =
        round64 (4728779608739020 / 1125899906842624 /
          (6305039478318694 / 4503599627370496)) := by
      have hb0 : (6305039478318694 : ℚ) / 4503599627370496 ≠ 0 := by norm_num
      simp only [F64.div, if_neg hb0]
    rw [hdiv, round64_quotient_example]
  have htr : truncate (6755399441055743 / 2251799813685248) = 2 := by
    unfold truncate
    rw [if_pos (by norm_num), Int.floor_eq_iff]
    constructor <;> norm_num
  refine ⟨X, hrun, hvals, hmin, hmax, hdy, hquot, ?_, ?_⟩
  · intro ι
    rw [specTop64_eq ι X _ hne, hquot, toInt_fin ι _ (by rw [htr]; decide) (by rw [htr]; decide),
      htr]
  · have e : ((7 : ℚ) / 5 - 0) * ((3 : Int) : ℚ) / (7 / 5 - 0) = ((3 : Int) : ℚ) := by norm_num
    simp only [specTop, hmn, hmx, hmin, hmax, Option.getD_none, hdy]
    rw [if_neg (by norm_num), e, truncate_intCast]

/-! ## A visible window with one distinct value -/

/-- With both clamp bounds configured and different, the bar height is scaled
against the bounds. -/
theorem specTop_of_clamps (s : SparkLine) (lo hi v : ℚ) (h1 : s.min = some lo)
    (h2 : s.max = some hi) (hne : hi ≠ lo) :
    specTop s v = truncate ((v - lo) * ((s.Dy - 2 : Int) : ℚ) / (hi - lo)) := by
  simp [specTop, h1, h2, hne]

/-- C11, the claim as stated fails: with clamp bounds 0 and 10, a pane of width
8 and height 12 (`H = 10`) and the single valid sample 5, the visible window
holds one distinct value, the newest element is rendered, and its bar height is
`top = 5`, not `0` (`5 * 10 / 10`, which no `float64` operation rounds):
`Draw` writes a bar cell five rows above the baseline. -/
theorem flat_window_with_clamp_bounds_top_five :
    ∃ s1, consumeAll ParseFloat
        (NewSparkLine ⟨⟨⟨0, 0⟩, ⟨8, 12⟩⟩, ⟨⟨1, 1⟩, ⟨7, 11⟩⟩⟩ 0 [] (some 0) (some 10))
        [⟨"", "5"⟩] = some s1 ∧
      s1.values = [5] ∧ s1.Dx = 8 ∧ s1.Dy - 2 = 10 ∧
      indent FormatValue s1 = 4 ∧
      renderedCount FormatValue s1 = 1 ∧
      specTop s1 5 = 5 ∧ ¬ specTop s1 5 = 0 ∧
      ∀ (ι : F64 → Int) (G : List Nat → Int → Int → Nat),
        specTop64 ι s1 5 = 5 ∧ ¬ specTop64 ι s1 5 = 0 ∧
        ∃ ops, Draw (float64 ι) FormatValue G s1 = some ops ∧
          DrawOp.SetCell (G [] 5 10) ⟨2, 5⟩ ∈ ops := by
  set X : SparkLine :=
    { NewSparkLine ⟨⟨⟨0, 0⟩, ⟨8, 12⟩⟩, ⟨⟨1, 1⟩, ⟨7, 11⟩⟩⟩ 0 [] (some 0) (some 10) with
      hooks := [HookCall.HandleConsumeSuccess], values := [5], maxValue := 5, minValue := 5 }
    with hX
  have hrun : consumeAll ParseFloat
      (NewSparkLine ⟨⟨⟨0, 0⟩, ⟨8, 12⟩⟩, ⟨⟨1, 1⟩, ⟨7, 11⟩⟩⟩ 0 [] (some 0) (some 10))
      [⟨"", "5"⟩] = some X := rfl
  have htop : specTop X 5 = 5 := by
    rw [specTop_of_clamps X 0 10 5 rfl rfl (by norm_num)]
    have hH : X.Dy - 2 = 10 := rfl
    have e : ((5 : ℚ) - 0) * ((X.Dy - 2 : Int) : ℚ) / (10 - 0) = ((5 : Int) : ℚ) := by
      rw [hH]
      norm_num
    rw [e, truncate_intCast]
  have hne : X.max.getD X.maxValue ≠ X.min.getD X.minValue := by
    show (10 : ℚ) ≠ 0
    norm_num
  have htop64 : ∀ ι, specTop64 ι X 5 = 5 := by
    intro ι
    exact specTop64_int ι X 5 5 10 10 5 hne
      (by show (5 : ℚ) - 0 = ((5 : Int) : ℚ); norm_num) (by rfl)
      (by show (10 : ℚ) - 0 = ((10 : Int) : ℚ); norm_num) (by decide)
      (by decide) (by decide) (by decide) (by decide) (by decide)
  have hind : indent FormatValue X = 4 := by decide
  refine ⟨X, hrun, rfl, rfl, rfl, hind, by decide, htop, by rw [htop]; decide, ?_⟩
  intro ι G
  have hd := Draw_eq (float64 ι) FormatValue G X
  refine ⟨htop64 ι, by rw [htop64]; decide, _, hd, ?_⟩
  have h := (mem_Draw_setCell_kth (float64 ι) FormatValue G X _ hd 1 (G [] 5 10) 5
    (le_refl 1)).mpr
    ⟨by decide, by rw [hind]; decide, 5, rfl, 5, by decide,
      by rw [topOf_float64, htop64], rfl, by decide⟩
  rw [hind] at h
  exact h

/-- A run over a stream followed by one more sample. -/
theorem consumeAll_snoc (P : String → Except String ℚ) :
    ∀ (xs : List Sample) (x : Sample) (s s1 : SparkLine),
      consumeAll P s (xs ++ [x]) = some s1 →
      ∃ s2, consumeAll P s xs = some s2 ∧ consumeSample P s2 x = some s1 := by
  intro xs
  induction xs with
  | nil =>
    intro x s s1 h
    simp only [List.nil_append, consumeAll] at h
    cases hc : consumeSample P s x with
    | none => simp [hc] at h
    | some s3 =>
      simp only [hc, Option.some.injEq] at h
      subst h
      exact ⟨s, rfl, hc⟩
  | cons y ys ih =>
    intro x s s1 h
    simp only [List.cons_append, consumeAll] at h
    cases hc : consumeSample P s y with
    | none => simp [hc] at h
    | some s3 =>
      simp only [hc] at h
      obtain ⟨s2, h2, h3⟩ := ih x s3 s1 h
      exact ⟨s2, by simp only [consumeAll, hc]; exact h2, h3⟩

/-- C11, as amended: with no clamp bounds configured, for every state reached
by feeding `n <= W` valid samples to an empty buffer (the buffer then holds all
`n` values and is the visible window) in which the buffer contains only one
distinct value, the effective maximum equals the effective minimum and `Draw`
computes `top = 0` for every rendered column, without dividing (so without
dividing by zero): the bar of each rendered column is the one cell of row `0`.
No operation of line 155 takes place, so this holds in `float64` and in every
other arithmetic. -/
theorem flat_window_top_zero (P : String → Except String ℚ) (b : Sparkline.Block)
    (scale : Int) (g : List Nat) (W : Nat) (xs : List Sample)
    (hW : b.Rectangle.Dx = (W : Int)) (hvalid : ∀ x ∈ xs, ∃ v, P x.Value = .ok v)
    (hn : xs.length ≤ W) :
    ∃ s1, consumeAll P (NewSparkLine b scale g none none) xs = some s1 ∧
      s1.values.length = xs.length ∧
      ∀ d : ℚ, (∀ x ∈ s1.values, x = d) →
        effectiveMax s1 = effectiveMin s1 ∧
        ∀ (R : Type) (A : Arith R) (F : ℚ → Int → String) (G : List Nat → Int → Int → Nat),
          ∃ ops, Draw A F G s1 = some ops ∧
            ∀ k : Nat, 1 ≤ k → k ≤ renderedCount F s1 →
              ∃ v, s1.values[s1.values.length - k]? = some v ∧ specTop s1 v = 0 ∧
                (∀ ι : F64 → Int, specTop64 ι s1 v = 0) ∧
                barTop A (effectiveMin s1) (effectiveMax s1) (s1.Dy - 2) v = some 0 ∧
                ∀ (c : Nat) (y : Int),
                  DrawOp.SetCell c ⟨s1.Block.Inner.Max.X - (k : Int) - indent F s1, y⟩ ∈ ops ↔
                    c = G s1.gradient 0 (s1.Dy - 2) ∧ y = s1.Block.Inner.Max.Y - 0 - 1 := by
  have hdx0 : (NewSparkLine b scale g none none).Dx = (W : Int) := hW
  obtain ⟨s1, hrun⟩ := consumeAll_returns P xs (NewSparkLine b scale g none none)
    (by rw [hdx0]; exact Int.natCast_nonneg W)
  obtain ⟨hb, hmn, hmx, -⟩ := reachable_range_bounds_window P b scale g none none W hW xs s1 hrun
  have hlenv := clampedValues_length_valid P none none xs hvalid
  obtain ⟨hsuf, hlow⟩ := consumeAll_suffix P W xs (NewSparkLine b scale g none none) s1 []
    hdx0 (List.suffix_refl _) (by simp [NewSparkLine]) hrun
  simp only [List.nil_append] at hsuf hlow
  have hsuf' : s1.values <:+ clampedValues P none none xs := hsuf
  have hlow' : Min.min (clampedValues P none none xs).length W ≤ s1.values.length := hlow
  have hlen : s1.values.length = xs.length := by
    have := hsuf'.length_le
    omega
  -- the tracked Range lies in the buffer
  have hrange : s1.values ≠ [] → s1.maxValue ∈ s1.values ∧ s1.minValue ∈ s1.values := by
    intro hne
    rcases List.eq_nil_or_concat xs with hnil | ⟨ys, x, hxs⟩
    · subst hnil
      simp only [consumeAll, Option.some.injEq] at hrun
      subst hrun
      exact absurd rfl hne
    · rw [List.concat_eq_append] at hxs
      subst hxs
      obtain ⟨s2, hrun2, hc⟩ := consumeAll_snoc P ys x _ s1 hrun
      obtain ⟨v, hp⟩ := hvalid x (by simp)
      obtain ⟨hb2, -, -, -⟩ := reachable_range_bounds_window P b scale g none none W hW ys s2
        hrun2
      have hdx2 : s2.Dx = (W : Int) := by simp [SparkLine.Dx, hb2, hW]
      obtain ⟨hsuf2, -⟩ := consumeAll_suffix P W ys (NewSparkLine b scale g none none) s2 []
        hdx0 (List.suffix_refl _) (by simp [NewSparkLine]) hrun2
      simp only [List.nil_append] at hsuf2
      have hsuf2' : s2.values <:+ clampedValues P none none ys := hsuf2
      have hlen2 : s2.values.length ≤ ys.length := by
        have h1 := hsuf2'.length_le
        have h2 := clampedValues_length_valid P none none ys
          (fun y hy => hvalid y (List.mem_append_left _ hy))
        omega
      have hn2 : ys.length + 1 ≤ W := by simpa using hn
      have hvals : s1.values = s2.values ++ [clampValue s2.min s2.max v] := by
        obtain ⟨-, -, -, hcases⟩ := consumeSample_some P s2 s1 x hc
        rcases hcases with ⟨err, hp2, -⟩ | ⟨v2, hp2, ⟨-, hval⟩ | ⟨-, -, hval⟩⟩
        · rw [hp] at hp2; cases hp2
        · rw [hp] at hp2; cases hp2; exact hval
        · rw [hp] at hp2
          cases hp2
          rw [hval, hdx2]
          have hz : s2.values.length + 1 - (W : Int).toNat = 0 := by
            simp only [Int.toNat_ofNat]
            omega
          rw [hz, List.drop_zero]
      have hr := consumeSample_range P s2 s1 x v hp hc
      obtain ⟨v0, hv0, ⟨hM1, -⟩, ⟨hm1, -⟩⟩ := recomputeRange_exact _ _ _ hr
      have hsub : ∀ y, y ∈ v0 :: (s2.values ++ [clampValue s2.min s2.max v]).drop
          ((s2.values ++ [clampValue s2.min s2.max v]).length -
            Min.min (s2.values ++ [clampValue s2.min s2.max v]).length s2.Dx.toNat) →
          y ∈ s1.values := by
        intro y hy
        rw [hvals]
        rcases List.mem_cons.mp hy with rfl | hy
        · exact List.getElem?_mem hv0
        · exact List.mem_of_mem_drop hy
      exact ⟨hsub _ hM1, hsub _ hm1⟩
  refine ⟨s1, hrun, hlen, ?_⟩
  intro d hd
  have heff : effectiveMax s1 = effectiveMin s1 := by
    rw [effectiveMax_eq, effectiveMin_eq, hmn, hmx]
    simp only [Option.getD_none]
    by_cases hne : s1.values = []
    · have hxs : xs = [] := by
        rw [hne] at hlen
        exact List.length_eq_zero.mp hlen.symm
      subst hxs
      simp only [consumeAll, Option.some.injEq] at hrun
      subst hrun
      rfl
    · obtain ⟨h1, h2⟩ := hrange hne
      rw [hd _ h1, hd _ h2]
  refine ⟨heff, ?_⟩
  intro R A F G
  have hdraw := Draw_eq A F G s1
  refine ⟨_, hdraw, ?_⟩
  intro k hk1 hkr
  have hkl : k ≤ s1.values.length := by unfold renderedCount at hkr; omega
  have hkw : (k : Int) ≤ s1.Dx - indent F s1 - 3 := by unfold renderedCount at hkr; omega
  have hi : s1.values.length - k < s1.values.length := by omega
  have hv : s1.values[s1.values.length - k]? = some s1.values[s1.values.length - k] :=
    List.getElem?_eq_getElem hi
  have heff2 : s1.max.getD s1.maxValue = s1.min.getD s1.minValue := by
    rw [← effectiveMax_eq, ← effectiveMin_eq]
    exact heff
  have hspec : ∀ v, specTop s1 v = 0 := by
    intro v
    simp only [specTop, if_pos heff2]
  have hspec64 : ∀ v (ι : F64 → Int), specTop64 ι s1 v = 0 := by
    intro v ι
    simp only [specTop64, if_pos heff2]
  have htop : ∀ v, topOf A s1 v = 0 := fun v => topOf_of_eq A s1 v heff
  refine ⟨_, hv, hspec _, hspec64 _, by rw [barTop_eq, htop], ?_⟩
  intro c y
  rw [mem_Draw_setCell_kth A F G s1 _ hdraw k c y hk1]
  constructor
  · rintro ⟨-, -, v2, -, j, hj0, hjt, hc, hy⟩
    rw [htop] at hjt
    have hj : j = 0 := by omega
    subst hj
    exact ⟨hc, hy⟩
  · rintro ⟨hc, hy⟩
    exact ⟨hkl, hkw, _, hv, 0, le_refl 0, by rw [htop], hc, hy⟩

theorem flat_window_top_zero_witness :
    ∃ s1, consumeAll ParseFloat
        (NewSparkLine ⟨⟨⟨0, 0⟩, ⟨20, 12⟩⟩, ⟨⟨1, 1⟩, ⟨19, 11⟩⟩⟩ 0 [] none none)
        [⟨"", "7"⟩, ⟨"", "7"⟩, ⟨"", "7"⟩] = some s1 ∧
      s1.values = [7, 7, 7] ∧ effectiveMax s1 = effectiveMin s1 := by
  obtain ⟨s1, h1, -, h3⟩ := flat_window_top_zero ParseFloat
    ⟨⟨⟨0, 0⟩, ⟨20, 12⟩⟩, ⟨⟨1, 1⟩, ⟨19, 11⟩⟩⟩ 0 [] 20
    [⟨"", "7"⟩, ⟨"", "7"⟩, ⟨"", "7"⟩] rfl
    (by
      intro x hx
      simp only [List.mem_cons, List.mem_singleton, List.not_mem_nil, or_false] at hx
      rcases hx with rfl | rfl | rfl <;> exact ⟨7, rfl⟩)
    (by decide)
  have hv : (consumeAll ParseFloat
      (NewSparkLine ⟨⟨⟨0, 0⟩, ⟨20, 12⟩⟩, ⟨⟨1, 1⟩, ⟨19, 11⟩⟩⟩ 0 [] none none)
      [⟨"", "7"⟩, ⟨"", "7"⟩, ⟨"", "7"⟩]).map (fun t => t.values) = some [7, 7, 7] := rfl
  rw [h1] at hv
  have hvals : s1.values = [7, 7, 7] := Option.some.inj hv
  refine ⟨s1, h1, hvals, (h3 7 ?_).1⟩
  intro x hx
  rw [hvals] at hx
  simp only [List.mem_cons, List.mem_singleton, List.not_mem_nil, or_false] at hx
  rcases hx with rfl | rfl | rfl <;> rfl

/-! ## Mutual exclusion with `Draw` -/

/-- The last point of `consumeSample` is the state the call returns. -/
theorem consumeSampleSteps_getLast (P : String → Except String ℚ) (s s1 : SparkLine)
    (sample : Sample) (hc : consumeSample P s sample = some s1) :
    ((consumeSampleSteps P s sample).getLast?).map (fun p => p.state) = some s1 ∧
    ((consumeSampleSteps P s sample).getLast?).map (fun p => p.locked) = some false := by
  unfold consumeSample at hc
  unfold consumeSampleSteps
  cases hp : P sample.Value with
  | error err =>
    simp only [hp, Option.some.injEq] at hc
    subst hc
    exact ⟨rfl, rfl⟩
  | ok v =>
    simp only [hp] at hc ⊢
    cases hr : recomputeRange (s.values ++ [clampValue s.min s.max v]) s.Dx with
    | none => simp [hr] at hc
    | some r =>
      obtain ⟨mx, mn⟩ := r
      simp only [hr] at hc ⊢
      split_ifs at hc ⊢ with h1
      · cases ht : trimOutOfRangeValues (s.values ++ [clampValue s.min s.max v]) s.Dx with
        | none => simp [ht] at hc
        | some t =>
          simp only [ht, Option.some.injEq] at hc
          subst hc
          simp
      · simp only [Option.some.injEq] at hc
        subst hc
        simp

/-- After the append of line 80 and before the Range assignments the mutex is
not held: the buffer already holds the new value while the Range is the old
one. -/
theorem consumeSampleSteps_unlocked_append (P : String → Except String ℚ) (s : SparkLine)
    (sample : Sample) (v : ℚ) (h : P sample.Value = .ok v) :
    (⟨80, false, { s with
        hooks := s.hooks ++ [HookCall.HandleConsumeSuccess],
        values := s.values ++ [clampValue s.min s.max v] }⟩ : IngestionPoint) ∈
      consumeSampleSteps P s sample := by
  unfold consumeSampleSteps
  simp only [h]
  cases hr : recomputeRange (s.values ++ [clampValue s.min s.max v]) s.Dx with
  | none => simp
  | some r => simp

/-- C16: in a pane of width 20 with buffer `[1]` and Range `(1, 1)`, the call
of `consumeSample` for the sample 5 passes, with the mutex not held, through a
state whose buffer is `[1, 5]` while its Range is still `(1, 1)`, before it
returns the state with Range `(1, 5)`; the mutex is held at no point of this
call. A `Draw` running at that point reads the new buffer with the old
Range: it computes `top = 0` for the value 5, where the state the call returns
gives `top = H` (with the formula evaluated on the numbers and with it
evaluated in `float64`, which rounds none of `4 * 10 / 4`). -/
theorem append_and_range_outside_lock :
    ∃ half final : SparkLine,
      consumeSample ParseFloat
        { NewSparkLine ⟨⟨⟨0, 0⟩, ⟨20, 12⟩⟩, ⟨⟨1, 1⟩, ⟨19, 11⟩⟩⟩ 0 [] none none with
          hooks := [HookCall.HandleConsumeSuccess], values := [1], maxValue := 1,
          minValue := 1 } ⟨"", "5"⟩ = some final ∧
      (⟨80, false, half⟩ : IngestionPoint) ∈ consumeSampleSteps ParseFloat
        { NewSparkLine ⟨⟨⟨0, 0⟩, ⟨20, 12⟩⟩, ⟨⟨1, 1⟩, ⟨19, 11⟩⟩⟩ 0 [] none none with
          hooks := [HookCall.HandleConsumeSuccess], values := [1], maxValue := 1,
          minValue := 1 } ⟨"", "5"⟩ ∧
      half.values = [1, 5] ∧ half.minValue = 1 ∧ half.maxValue = 1 ∧
      final.values = [1, 5] ∧ final.minValue = 1 ∧ final.maxValue = 5 ∧
      (∀ p ∈ consumeSampleSteps ParseFloat
        { NewSparkLine ⟨⟨⟨0, 0⟩, ⟨20, 12⟩⟩, ⟨⟨1, 1⟩, ⟨19, 11⟩⟩⟩ 0 [] none none with
          hooks := [HookCall.HandleConsumeSuccess], values := [1], maxValue := 1,
          minValue := 1 } ⟨"", "5"⟩, p.locked = false) ∧
      specTop half 5 = 0 ∧ specTop final 5 = half.Dy - 2 ∧
      ∀ ι : F64 → Int, specTop64 ι half 5 = 0 ∧ specTop64 ι final 5 = half.Dy - 2 := by
  refine ⟨_, _, rfl, consumeSampleSteps_unlocked_append ParseFloat _ ⟨"", "5"⟩ 5 rfl,
    rfl, rfl, rfl, rfl, rfl, rfl, by decide, ?_, ?_, ?_⟩
  · simp [specTop, NewSparkLine]
  · have e : ((5 : ℚ) - 1) * ((10 : Int) : ℚ) / (5 - 1) = ((10 : Int) : ℚ) := by norm_num
    show truncate (((5 : ℚ) - 1) * ((10 : Int) : ℚ) / (5 - 1)) = 10
    rw [e, truncate_intCast]
  · intro ι
    refine ⟨by simp [specTop64, NewSparkLine], ?_⟩
    exact specTop64_int ι _ 5 4 10 4 10
      (by show (5 : ℚ) ≠ 1; norm_num)
      (by show (5 : ℚ) - 1 = ((4 : Int) : ℚ); norm_num) (by rfl)
      (by show (5 : ℚ) - 1 = ((4 : Int) : ℚ); norm_num) (by decide)
      (by decide) (by decide) (by decide) (by decide) (by decide)

end Sparkline
